import Mathlib

/-!
SCTools demultiplexer: embedding and verified properties.

Shallow embedding of `apps/demultiplex/functions.h`,
`include/sctools/alignments_reader.h`, `include/sctools/alignments_writer.h`
and `include/sctools/cell_metrics_record.h`.

Conventions of the embedding:

* `std::string` is a list of characters (`StdString`);
* `std::string::npos` is `none`;
* an operation whose C++ behaviour is undefined (an iterator range past the
  end of a string, an index past the end of a vector) yields
  `Fault.undefinedBehaviour`;
* `std::unordered_map` is an association list looked up by first match; its
  unspecified iteration order is a parameter of the engine;
* `uint64_t` counters wrap modulo `2 ^ 64`.
-/

namespace SCTools

/-! ## Strings, paths -/

/-- The type `std::string`, as the sequence of its characters. -/
abbrev StdString := List Char

/-- The type `fs::path` (`std::experimental::filesystem::path`), kept as its
native pathname. -/
abbrev Path := StdString

/-- The path `lhs / rhs`: a separator is inserted unless one of the two sides
is empty, the left side ends with a separator or the right side starts with
one; then the right side is appended. -/
def Path.join (lhs : Path) (rhs : StdString) : Path :=
  if lhs ≠ [] ∧ lhs.getLast? ≠ some '/' ∧ rhs ≠ [] ∧ rhs.head? ≠ some '/' then
    lhs ++ '/' :: rhs
  else
    lhs ++ rhs

/-- The path after `lhs += rhs`: plain concatenation of the pathnames. -/
def Path.concat (lhs : Path) (rhs : StdString) : Path :=
  lhs ++ rhs

/-- The member `std::string::find_first_of(c)`: index of the first
occurrence of `c`, or `none` for `npos`. -/
def find_first_of : StdString → Char → Option Nat
  | [], _ => none
  | x :: xs, c => if x = c then some 0 else (find_first_of xs c).map (· + 1)

/-- Outcome of running code that may leave defined behaviour or, for loops
bounded by fuel, exhaust the bound. -/
inductive Fault where
  | undefinedBehaviour
  | fuelExhausted
  deriving DecidableEq, Repr

deriving instance DecidableEq for Except

/-- The constructor `std::string(s.begin(), s.begin() + index)`. The range is
valid only when `index` is a position of `s` (at most its length); for `npos`
the behaviour is undefined. -/
def stringFromRange (s : StdString) (index : Option Nat) : Except Fault StdString :=
  match index with
  | some n => if n ≤ s.length then .ok (s.take n) else .error .undefinedBehaviour
  | none => .error .undefinedBehaviour

/-! ## Alignment records -/

/-- Modelled from the spec: `seqan::BamAlignmentRecord` and its tag
dictionary belong to the SeqAn library. A record has a mapping quality, named
tags with their values, a reference name, a start coordinate and an alignment
length on the reference; `qName` is the read name. -/
structure BamAlignmentRecord where
  qName : StdString
  refName : StdString
  beginPos : Int
  alignmentLengthInRef : Nat
  mapQ : Nat
  tags : List (StdString × StdString)
  deriving DecidableEq, Repr, Inhabited

/-- Modelled from the spec: `seqan::findTagKey(idx, dict, key)`, "has tag
named X". Returns the index of the first tag named `key`, `none` when the
library function returns `false`. -/
def findTagKey : List (StdString × StdString) → StdString → Option Nat
  | [], _ => none
  | (k, _) :: rest, key => if k = key then some 0 else (findTagKey rest key).map (· + 1)

/-- Modelled from the spec: `seqan::extractTagValue(value, dict, idx)`, "read
its value". -/
def extractTagValue (tagsDict : List (StdString × StdString)) (idx : Nat) : StdString :=
  match tagsDict[idx]? with
  | some (_, v) => v
  | none => []

/-- The tag name `"CB"` (corrected barcode). -/
def tagCB : StdString := ['C', 'B']

/-- The tag name `"CR"` (raw barcode). -/
def tagCR : StdString := ['C', 'R']

/-- The function `extractBarcode` of `functions.h`. -/
def extractBarcode (bamRecord : BamAlignmentRecord) : Except Fault StdString :=
  match findTagKey bamRecord.tags tagCB with
  | some tagIdx =>
    let barcode := extractTagValue bamRecord.tags tagIdx
    let dashIndex := find_first_of barcode '-'
    stringFromRange barcode dashIndex
  | none =>
    match findTagKey bamRecord.tags tagCR with
    | some tagIdx => .ok (extractTagValue bamRecord.tags tagIdx)
    | none => .ok []

/-- The loop of `filterAlignmentRecord` over the forbidden tags, from index
`i` on (`tagsLeft` is `forbiddenTags` without its first `i` entries); it
stops as soon as `isValid` is false. -/
def filterLoop (record : BamAlignmentRecord) : List StdString → Bool → Bool
  | [], isValid => isValid
  | tag :: tagsLeft, isValid =>
    if isValid then
      match findTagKey record.tags tag with
      | some _ => filterLoop record tagsLeft false
      | none => filterLoop record tagsLeft isValid
    else
      isValid

/-- The function `filterAlignmentRecord` of `functions.h`. -/
def filterAlignmentRecord (record : BamAlignmentRecord) (forbiddenTags : List StdString)
    (minMapQuality : Nat) : Bool :=
  let isValid := if record.mapQ < minMapQuality then false else true
  filterLoop record forbiddenTags isValid

/-! ## Reader and writer -/

/-- The loop of `AlignmentsReader::read`: `stream` is the part of the source
not yet read, the second argument the buffer range `[it, itEnd)`. The result
is the number of records loaded, the range after the call and the stream
after the call. -/
def AlignmentsReader.read : List BamAlignmentRecord → List BamAlignmentRecord →
    Nat × List BamAlignmentRecord × List BamAlignmentRecord
  | stream, [] => (0, [], stream)
  | [], slot :: range => (0, slot :: range, [])
  | r :: stream, _ :: range =>
    let (loaded, range', stream') := AlignmentsReader.read stream range
    (loaded + 1, r :: range', stream')

/-- A three-column BED record, `seqan::BedRecord<seqan::Bed3>`. -/
structure BedRecord where
  ref : StdString
  beginPos : Int
  endPos : Int
  deriving DecidableEq, Repr

/-- The class `AlignmentsWriter`. The sinks are kept as the sequence of
records emitted through the writer since it was configured; `appendMode_` is
the mode `sinkStreamCore_` was opened in (`std::ios::app` or truncation). -/
structure AlignmentsWriter where
  sinkPath_ : Path
  appendMode_ : Bool
  writeBed_ : Bool
  sinkStream_ : List BamAlignmentRecord
  bedOut_ : List BedRecord
  deriving DecidableEq, Repr

/-- The method `AlignmentsWriter::configure`; the reader argument only
supplies format and context of the sink. -/
def AlignmentsWriter.configure (sinkPath : Path) (configureAppend : Bool) (writeBed : Bool) :
    AlignmentsWriter :=
  { sinkPath_ := sinkPath, appendMode_ := configureAppend, writeBed_ := writeBed,
    sinkStream_ := [], bedOut_ := [] }

/-- One iteration of the loop of `AlignmentsWriter::write`. -/
def AlignmentsWriter.writeOne (w : AlignmentsWriter) (r : BamAlignmentRecord) :
    AlignmentsWriter :=
  let w1 := { w with sinkStream_ := w.sinkStream_ ++ [r] }
  if w1.writeBed_ then
    let record : BedRecord :=
      { beginPos := r.beginPos, endPos := r.alignmentLengthInRef + r.beginPos, ref := r.refName }
    { w1 with bedOut_ := w1.bedOut_ ++ [record] }
  else
    w1

/-- The loop of `AlignmentsWriter::write` with its counter `written`. -/
def AlignmentsWriter.writeLoop (w : AlignmentsWriter) (written : Nat) :
    List BamAlignmentRecord → AlignmentsWriter × Nat
  | [] => (w, written)
  | r :: rest => AlignmentsWriter.writeLoop (w.writeOne r) ((written + 1) % 2 ^ 64) rest

/-- The method `AlignmentsWriter::write`. -/
def AlignmentsWriter.write (w : AlignmentsWriter) (records : List BamAlignmentRecord) :
    AlignmentsWriter × Nat :=
  w.writeLoop 0 records

/-! ## Unordered maps -/

/-- The member `find` of a `std::unordered_map` with string keys: the value
of the entry with this key, `none` for `end()`. -/
def mapFind {β : Type} : List (StdString × β) → StdString → Option β
  | [], _ => none
  | (k, v) :: rest, key => if k = key then some v else mapFind rest key

/-- Applies `f` to the value of the entry found by `find`. -/
def mapUpdate {β : Type} (f : β → β) : List (StdString × β) → StdString → List (StdString × β)
  | [], _ => []
  | (k, v) :: rest, key => if k = key then (k, f v) :: rest else (k, v) :: mapUpdate f rest key

/-- The member `emplace`: inserts the entry unless the key is present. -/
def mapEmplace {β : Type} (m : List (StdString × β)) (key : StdString) (v : β) :
    List (StdString × β) :=
  match mapFind m key with
  | some _ => m
  | none => m ++ [(key, v)]

/-- The member `operator[]`: the value of the entry with this key, after
inserting a value-initialised entry when the key is absent. -/
def mapIndex {β : Type} (dflt : β) (m : List (StdString × β)) (key : StdString) :
    List (StdString × β) × β :=
  match mapFind m key with
  | some v => (m, v)
  | none => (m ++ [(key, dflt)], dflt)

/-- The map from barcode to output path and counter. -/
abbrev OutputDataMap := List (StdString × (Path × Nat))

/-- The statement `outMapIt->second.second += 1` on a `uint64_t` counter. -/
def incrementCounter (outputDataMap : OutputDataMap) (barcode : StdString) : OutputDataMap :=
  mapUpdate (fun pc => (pc.1, (pc.2 + 1) % 2 ^ 64)) outputDataMap barcode

/-! ## The de-multiplexing loop -/

/-- The per-batch variables of `demultiplexCore` together with the map it
updates. -/
structure BatchState where
  outputDataMap : OutputDataMap
  recordsMap : List (StdString × List BamAlignmentRecord)
  noiseBuffer : List BamAlignmentRecord
  deriving DecidableEq, Repr

/-- Body of the loop over `buffer[i]` in `demultiplexCore`. -/
def classifyRecord (forbiddenTags : List StdString) (minMapQuality : Nat)
    (record : BamAlignmentRecord) (s : BatchState) : Except Fault BatchState :=
  if filterAlignmentRecord record forbiddenTags minMapQuality then
    match extractBarcode record with
    | .error e => .error e
    | .ok barcode =>
      match mapFind s.outputDataMap barcode with
      | some _ =>
        let outputDataMap := incrementCounter s.outputDataMap barcode
        match mapFind s.recordsMap barcode with
        | some _ =>
          .ok { s with outputDataMap := outputDataMap,
                       recordsMap := mapUpdate (fun v => v ++ [record]) s.recordsMap barcode }
        | none =>
          .ok { s with outputDataMap := outputDataMap,
                       recordsMap := s.recordsMap ++ [(barcode, [record])] }
      | none => .ok { s with noiseBuffer := s.noiseBuffer ++ [record] }
  else
    .ok s

/-- The loop `for (i = 0; i < loadedRecords; i++)` of `demultiplexCore`, from
index `i` with `n = loadedRecords - i` iterations left. -/
def classifyLoop (forbiddenTags : List StdString) (minMapQuality : Nat)
    (buffer : List BamAlignmentRecord) : Nat → Nat → BatchState → Except Fault BatchState
  | _, 0, s => .ok s
  | i, n + 1, s =>
    match buffer[i]? with
    | none => .error .undefinedBehaviour
    | some record =>
      match classifyRecord forbiddenTags minMapQuality record s with
      | .error e => .error e
      | .ok s' => classifyLoop forbiddenTags minMapQuality buffer (i + 1) n s'

/-- The loop `for (auto p : recordsMap)` of `demultiplexCore` over the
entries in the order given: every entry gets a writer of its own, configured
on `outputDataMap[p.first].first`. The writers are collected, oldest first,
with the key they were created for. -/
def writeGroups (writeBed : Bool) :
    List (StdString × List BamAlignmentRecord) → OutputDataMap →
    List (StdString × AlignmentsWriter) → OutputDataMap × List (StdString × AlignmentsWriter)
  | [], outputDataMap, writers => (outputDataMap, writers)
  | p :: rest, outputDataMap, writers =>
    let (outputDataMap', entry) := mapIndex (([] : Path), 0) outputDataMap p.1
    let mapWriter := AlignmentsWriter.configure entry.1 true writeBed
    let (mapWriter', _) := mapWriter.write p.2
    writeGroups writeBed rest outputDataMap' (writers ++ [(p.1, mapWriter')])

/-- The variables of `demultiplexCore` that outlive an iteration of its
`do ... while` loop, with two logs: `reads` holds the value returned by every
call of `read`, `mapWriters` the per-group writers once written. -/
structure CoreState where
  bamInputReader : List BamAlignmentRecord
  outputDataMap : OutputDataMap
  buffer : List BamAlignmentRecord
  noiseWriter : AlignmentsWriter
  mapWriters : List (StdString × AlignmentsWriter)
  reads : List Nat
  deriving DecidableEq, Repr

/-- The iteration order of the `std::unordered_map` holding the groups of a
batch. -/
abbrev IterationOrder :=
  List (StdString × List BamAlignmentRecord) → List (StdString × List BamAlignmentRecord)

/-- The `do ... while (loadedRecords > 0)` loop of `demultiplexCore`, bounded
by `fuel` iterations. The statement printing `buffer[0].tags` is undefined on
an empty buffer. -/
def demultiplexLoop (order : IterationOrder) (forbiddenTags : List StdString)
    (minMapQuality : Nat) (writeBed : Bool) : Nat → CoreState → Except Fault CoreState
  | 0, _ => .error .fuelExhausted
  | fuel + 1, st =>
    let (loadedRecords, buffer, stream) := AlignmentsReader.read st.bamInputReader st.buffer
    match buffer[0]? with
    | none => .error .undefinedBehaviour
    | some _ =>
      match classifyLoop forbiddenTags minMapQuality buffer 0 loadedRecords
          { outputDataMap := st.outputDataMap, recordsMap := [], noiseBuffer := [] } with
      | .error e => .error e
      | .ok batch =>
        let (outputDataMap, mapWriters) :=
          writeGroups writeBed (order batch.recordsMap) batch.outputDataMap st.mapWriters
        let (noiseWriter, _) := st.noiseWriter.write batch.noiseBuffer
        let st' : CoreState :=
          { bamInputReader := stream, outputDataMap := outputDataMap, buffer := buffer,
            noiseWriter := noiseWriter, mapWriters := mapWriters,
            reads := st.reads ++ [loadedRecords] }
        if loadedRecords > 0 then
          demultiplexLoop order forbiddenTags minMapQuality writeBed fuel st'
        else
          .ok st'

/-- The function `demultiplexCore` of `functions.h`. The reader is given by
the records left in its source; the loop is run with one more unit of fuel
than there are records. -/
def demultiplexCore (order : IterationOrder) (bamInputReader : List BamAlignmentRecord)
    (outputDataMap : OutputDataMap) (noisePath : Path) (batchSize : Nat)
    (forbiddenTags : List StdString) (minMapQuality : Nat) (writeBed : Bool) :
    Except Fault CoreState :=
  let noiseWriter := AlignmentsWriter.configure noisePath true writeBed
  let buffer : List BamAlignmentRecord := List.replicate batchSize default
  demultiplexLoop order forbiddenTags minMapQuality writeBed (bamInputReader.length + 1)
    { bamInputReader := bamInputReader, outputDataMap := outputDataMap, buffer := buffer,
      noiseWriter := noiseWriter, mapWriters := [], reads := [] }

/-! ## Metadata loading and output initialisation -/

/-- An input stream (`std::ifstream`, `std::istringstream`) over a text: the
characters not yet extracted and the state bits `eofbit` and `failbit`. -/
structure IStream where
  rest : List Char
  eofbit : Bool
  failbit : Bool
  deriving DecidableEq, Repr

/-- A stream opened on a readable text. -/
def IStream.ofText (text : StdString) : IStream :=
  { rest := text, eofbit := false, failbit := false }

/-- Extraction of characters up to a delimiter: the characters before it and,
when the delimiter was met (and consumed), what follows it; `none` when the
end of the input was reached first. -/
def extractUntil : List Char → Char → StdString × Option (List Char)
  | [], _ => ([], none)
  | c :: cs, delim =>
    if c = delim then ([], some cs)
    else
      let (token, after) := extractUntil cs delim
      (c :: token, after)

/-- The function `std::getline(stream, line, delim)`. On a stream that is not
good it sets `failbit` and leaves `line` alone; otherwise `line` is erased and
filled up to the delimiter or the end of the input, where `eofbit` is set, and
`failbit` too when nothing was extracted. -/
def getline (stream : IStream) (line : StdString) (delim : Char) : IStream × StdString :=
  if stream.eofbit || stream.failbit then
    ({ stream with failbit := true }, line)
  else
    match extractUntil stream.rest delim with
    | (token, some after) => ({ rest := after, eofbit := false, failbit := false }, token)
    | (token, none) => ({ rest := [], eofbit := true, failbit := token.isEmpty }, token)

/-- The class `CellMetricsRecord`. Of its eighteen fields only `BARCODE`
(field 0) is kept: the other fields are parsed after it and are not read by
the de-multiplexer. -/
structure CellMetricsRecord where
  barcode : StdString
  deriving DecidableEq, Repr

/-- The constructor `CellMetricsRecord(stringRecord)`, field 0: the token
read by `std::getline(stringStream, token, ',')`. -/
def CellMetricsRecord.ofLine (stringRecord : StdString) : CellMetricsRecord :=
  { barcode := (getline (IStream.ofText stringRecord) [] ',').2 }

/-- The loop `while (!inputFile.eof())` of `CellMetricsRecord::readRecords`,
bounded by `fuel` iterations. -/
def readRecordsLoop : Nat → IStream → StdString → List CellMetricsRecord →
    Except Fault (List CellMetricsRecord)
  | 0, _, _, _ => .error .fuelExhausted
  | fuel + 1, inputFile, line, records =>
    if !inputFile.eofbit then
      let (inputFile', line') := getline inputFile line '\n'
      let records' := if line' ≠ [] then records ++ [CellMetricsRecord.ofLine line'] else records
      readRecordsLoop fuel inputFile' line' records'
    else
      .ok records

/-- The function `CellMetricsRecord::readRecords` on the text of a readable
file; the loop gets two more units of fuel than the text has characters. -/
def CellMetricsRecord.readRecords (text : StdString) : Except Fault (List CellMetricsRecord) :=
  let (inputFile, line) := getline (IStream.ofText text) [] '\n'
  readRecordsLoop (text.length + 2) inputFile line []

/-- What `initializeOutputFiles` leaves behind: the map, the catch-all path
and the paths a header was forwarded to, in order. -/
structure OutputFiles where
  outputDataMap : OutputDataMap
  noisePath : Path
  forwarded : List Path
  deriving DecidableEq, Repr

/-- The loop `for (auto&& r : records)` of `initializeOutputFiles`. -/
def initializeLoop (outputDirPath : Path) (outputExtension : Path) :
    List CellMetricsRecord → OutputDataMap → List Path → Except Fault (OutputDataMap × List Path)
  | [], outputDataMap, forwarded => .ok (outputDataMap, forwarded)
  | r :: rest, outputDataMap, forwarded =>
    let rawBarcode := r.barcode
    let dashIndex := find_first_of rawBarcode '-'
    match stringFromRange rawBarcode dashIndex with
    | .error e => .error e
    | .ok barcode =>
      let outputBamFile := (outputDirPath.join barcode).concat outputExtension
      initializeLoop outputDirPath outputExtension rest
        (mapEmplace outputDataMap barcode (outputBamFile, 0)) (forwarded ++ [outputBamFile])

/-- The catch-all file name `"noise"`. -/
def noiseName : StdString := ['n', 'o', 'i', 's', 'e']

/-- The function `initializeOutputFiles` of `functions.h`, on the text of the
barcode CSV file and the map passed in. -/
def initializeOutputFiles (barcodeCSV : StdString) (outputDirPath : Path)
    (outputExtension : Path) (outputDataMap : OutputDataMap) : Except Fault OutputFiles :=
  match CellMetricsRecord.readRecords barcodeCSV with
  | .error e => .error e
  | .ok records =>
    match initializeLoop outputDirPath outputExtension records outputDataMap [] with
    | .error e => .error e
    | .ok (outputDataMap', forwarded) =>
      let noisePath := (outputDirPath.join noiseName).concat outputExtension
      .ok { outputDataMap := outputDataMap', noisePath := noisePath,
            forwarded := forwarded ++ [noisePath] }

/-! ## Specification-side notions -/

/-- The record carries a tag named `key`. -/
def hasTag (r : BamAlignmentRecord) (key : StdString) : Prop :=
  key ∈ r.tags.map Prod.fst

instance (r : BamAlignmentRecord) (key : StdString) : Decidable (hasTag r key) := by
  unfold hasTag; infer_instance

/-- The value of the (first) tag named `key` of a record, if it has one. -/
def tagValue? (r : BamAlignmentRecord) (key : StdString) : Option StdString :=
  (r.tags.find? (fun kv => kv.1 == key)).map (·.2)

/-- The prefix of an identifier that precedes its first `'-'` (the whole
identifier when there is none). -/
def canonicalKey (s : StdString) : StdString :=
  s.takeWhile (· ≠ '-')

/-- The key set of a map. -/
def mapKeys {β : Type} (m : List (StdString × β)) : List StdString :=
  m.map Prod.fst

/-- The records written, over the whole run, through the writers created for
the group of `key`. -/
def bucketRecords (st : CoreState) (key : StdString) : List BamAlignmentRecord :=
  (st.mapWriters.filter (fun kw => kw.1 = key)).flatMap (fun kw => kw.2.sinkStream_)

/-- The records written, over the whole run, through the catch-all writer. -/
def noiseRecords (st : CoreState) : List BamAlignmentRecord :=
  st.noiseWriter.sinkStream_

/-- The counter of a key of the map (`0` when the key is absent). -/
def counterOf (m : OutputDataMap) (key : StdString) : Nat :=
  match mapFind m key with
  | some pc => pc.2
  | none => 0


/-- The lines of a metadata text that follow its first (header) line and are
not empty. -/
def dataRows (text : StdString) : List StdString :=
  ((text.splitOn '\n').tail).filter (fun l => l ≠ [])

/-- The first comma-separated field of a row. -/
def firstField (row : StdString) : StdString :=
  row.takeWhile (· ≠ ',')

/-- An accepted record whose extracted key is `key`. -/
def acceptedWithKey (forbiddenTags : List StdString) (minMapQuality : Nat) (key : StdString)
    (r : BamAlignmentRecord) : Bool :=
  filterAlignmentRecord r forbiddenTags minMapQuality && decide (extractBarcode r = .ok key)

/-- An accepted record whose extracted key is none of `keys`. -/
def acceptedUnmatched (forbiddenTags : List StdString) (minMapQuality : Nat)
    (keys : List StdString) (r : BamAlignmentRecord) : Bool :=
  filterAlignmentRecord r forbiddenTags minMapQuality &&
    keys.all (fun k => decide (extractBarcode r ≠ .ok k))

/-- The keys, in source order, of the accepted records whose key is one of
`keys`. -/
def routedKeys (forbiddenTags : List StdString) (minMapQuality : Nat) (keys : List StdString)
    (source : List BamAlignmentRecord) : List StdString :=
  source.filterMap (fun r =>
    if filterAlignmentRecord r forbiddenTags minMapQuality then
      match extractBarcode r with
      | .ok k => if k ∈ keys then some k else none
      | .error _ => none
    else none)

/-- Key extraction is defined on every accepted record of the source. -/
def KeysDefined (forbiddenTags : List StdString) (minMapQuality : Nat)
    (source : List BamAlignmentRecord) : Prop :=
  ∀ r ∈ source, filterAlignmentRecord r forbiddenTags minMapQuality = true →
    ∃ k, extractBarcode r = .ok k

/-- The loop body `classifyRecord` run over a sequence of records. -/
def classifyAll (forbiddenTags : List StdString) (minMapQuality : Nat) :
    List BamAlignmentRecord → BatchState → Except Fault BatchState
  | [], s => .ok s
  | r :: rs, s =>
    match classifyRecord forbiddenTags minMapQuality r s with
    | .error e => .error e
    | .ok s' => classifyAll forbiddenTags minMapQuality rs s'

/-- The group of a key in the map of a batch (empty when there is none). -/
def groupOf (recordsMap : List (StdString × List BamAlignmentRecord)) (key : StdString) :
    List BamAlignmentRecord :=
  (mapFind recordsMap key).getD []

/-- The sum of the counters of all entries of the map. -/
def counterSum (m : OutputDataMap) : Nat :=
  (m.map (fun e => e.2.2)).sum

/-- Two runs agree: both leave defined behaviour, or both finish with the
same map (hence counters), the same records per bucket and the same records
in the catch-all. -/
def RunsAgree (x y : Except Fault CoreState) : Prop :=
  (x = .error .undefinedBehaviour ∧ y = .error .undefinedBehaviour) ∨
  (∃ st1 st2, x = .ok st1 ∧ y = .ok st2 ∧ st1.outputDataMap = st2.outputDataMap ∧
    (∀ k, bucketRecords st1 k = bucketRecords st2 k) ∧ noiseRecords st1 = noiseRecords st2)

/-- Decision procedure for `KeysDefined` on a concrete source. -/
def keysDefinedB (forbiddenTags : List StdString) (minMapQuality : Nat)
    (source : List BamAlignmentRecord) : Bool :=
  source.all (fun r =>
    !filterAlignmentRecord r forbiddenTags minMapQuality ||
      (match extractBarcode r with
       | .ok _ => true
       | .error _ => false))

/-- The tag name `"XF"`, used as a forbidden tag in the examples. -/
def tagXF : StdString := ['X', 'F']

/-- An alignment record with the given read name, mapping quality and tags. -/
def mkRecord (name : String) (mapQ : Nat) (tags : List (StdString × StdString)) :
    BamAlignmentRecord :=
  { qName := name.toList, refName := ['c', 'h', 'r', '1'], beginPos := 100,
    alignmentLengthInRef := 50, mapQ := mapQ, tags := tags }

/-- Example source: two records for `"AAA"`, one of too low quality for
`"BBB"`, one with an unknown key, one carrying the forbidden tag, one without
any barcode tag. -/
def exampleSource : List BamAlignmentRecord :=
  [mkRecord "R1" 30 [(tagCB, "AAA-1".toList)],
   mkRecord "R2" 10 [(tagCB, "BBB-1".toList)],
   mkRecord "R3" 30 [(tagCB, "CCC-1".toList)],
   mkRecord "R4" 30 [(tagCR, "DDD".toList), (tagXF, "1".toList)],
   mkRecord "R5" 30 [(tagCB, "AAA-2".toList), (tagCR, "BBB".toList)],
   mkRecord "R6" 30 []]

/-- Example catalog with the keys `"AAA"` and `"BBB"`, counters at zero. -/
def exampleCatalog : OutputDataMap :=
  [("AAA".toList, ("out/AAA.bam".toList, 0)), ("BBB".toList, ("out/BBB.bam".toList, 0))]

/-- Example catch-all path. -/
def exampleNoisePath : Path := "out/noise.bam".toList

/-- The output path of a key: `outputDirPath / key`, then `+= outputExtension`. -/
def catalogPath (outputDirPath : Path) (outputExtension : Path) (key : StdString) : Path :=
  (outputDirPath.join key).concat outputExtension

/-- The map after the entries of the metadata records are emplaced one by one. -/
def emplaceAll (outputDirPath : Path) (outputExtension : Path)
    (records : List CellMetricsRecord) (m : OutputDataMap) : OutputDataMap :=
  records.foldl (fun m r =>
    mapEmplace m (canonicalKey r.barcode)
      (catalogPath outputDirPath outputExtension (canonicalKey r.barcode), 0)) m

/-! ## Report, pipeline and entry point -/

/-- The order in which a range-based loop visits the entries of the
`std::unordered_map` from barcode to path and counter. -/
abbrev ReportOrder := OutputDataMap → OutputDataMap

/-- The loop of `demultiplexPipeline` printing the count report: one line
per entry of the map, with its key and counter, in the iteration order of
the map. -/
def countReport (reportOrder : ReportOrder) (outputDataMap : OutputDataMap) :
    List (StdString × Nat) :=
  (reportOrder outputDataMap).map (fun p => (p.1, p.2.2))

/-- What `demultiplexPipeline` leaves behind: the output files set up, the
final state of the de-multiplexing loop and the lines of the count report. -/
structure PipelineResult where
  files : OutputFiles
  core : CoreState
  report : List (StdString × Nat)
  deriving DecidableEq, Repr

/-- The function `demultiplexPipeline` of `functions.h`. The reader configured
on the alignments file is given by its records, the settings by their fields;
`outputExtension` stands for `settings.alignmentsFilePath.extension()`,
`reportOrder` for the iteration order of the final map. -/
def demultiplexPipeline (order : IterationOrder) (reportOrder : ReportOrder)
    (alignments : List BamAlignmentRecord)
    (barcodeCSV : StdString) (outputDirPath : Path) (outputExtension : Path)
    (maxAlignmentBatchSize : Nat) (forbiddenTags : List StdString) (minMappingQuality : Nat)
    (writeBed : Bool) : Except Fault PipelineResult :=
  match initializeOutputFiles barcodeCSV outputDirPath outputExtension [] with
  | .error e => .error e
  | .ok files =>
    match demultiplexCore order alignments files.outputDataMap files.noisePath
        maxAlignmentBatchSize forbiddenTags minMappingQuality writeBed with
    | .error e => .error e
    | .ok st =>
      .ok { files := files, core := st, report := countReport reportOrder st.outputDataMap }

/-- Modelled from the spec: `seqan::ArgumentParser::ParseResult`, the outcome
of the SeqAn command-line parser; `PARSE_ERROR` is its answer to malformed or
missing arguments and option values, `PARSE_HELP` and the values after it to
invocations that only ask for help, version or tool description. -/
inductive ParseResult where
  | PARSE_OK
  | PARSE_ERROR
  | PARSE_HELP
  | PARSE_VERSION
  | PARSE_WRITE_CTD
  | PARSE_EXPORT_HELP
  deriving DecidableEq, Repr

/-- What an invocation of the tool meets outside the program text: the answer
of `seqan::parse` to the command line, the two file-system checks of
`parseCommandLine`, and whether `demultiplexPipeline` runs to its end (it is
`noexcept`, so an exception raised inside it ends the process through
`std::terminate`). -/
structure Invocation where
  seqanParse : ParseResult
  barcodeCSVIsRegularFile : Bool
  outputDirIsDirectory : Bool
  pipelineCompletes : Bool
  deriving DecidableEq, Repr

/-- The exception `std::invalid_argument` with its message. -/
structure InvalidArgument where
  what : String
  deriving DecidableEq, Repr

/-- The method `Settings::parseCommandLine`: the parse result it returns, or
the exception it throws. The option values it stores are left out. -/
def Settings.parseCommandLine (inv : Invocation) : Except InvalidArgument ParseResult :=
  let parseResult := inv.seqanParse
  if parseResult = .PARSE_OK then
    if !inv.barcodeCSVIsRegularFile then
      .error { what := "barcode CSV path is not a regular file" }
    else if !inv.outputDirIsDirectory then
      .error { what := "Output directory path does not exists" }
    else
      .ok parseResult
  else
    .ok parseResult

/-- How the process started by `main` ends: `main` returns a status, or the
process is ended by `std::terminate`. -/
inductive MainOutcome where
  | returned (status : Int)
  | terminated
  deriving DecidableEq, Repr

/-- The function `main` of `demultiplex.cpp`. -/
def main (inv : Invocation) : MainOutcome :=
  match Settings.parseCommandLine inv with
  | .error _ => .returned (-1)
  | .ok parseResult =>
    if parseResult ≠ .PARSE_OK then
      .returned 0
    else if inv.pipelineCompletes then
      .returned 0
    else
      .terminated

/-! ## Specification-side notions for the later properties -/

/-- The values returned by the successive reads of a source of `n` records in
batches of `b`: full batches, the rest if there is one, and a final zero. -/
def expectedReads (n b : Nat) : List Nat :=
  List.replicate (n / b) b ++ (if n % b = 0 then [] else [n % b]) ++ [0]

/-- The summary written for a record when the secondary output is enabled. -/
def bedSummary (r : BamAlignmentRecord) : BedRecord :=
  { ref := r.refName, beginPos := r.beginPos, endPos := r.beginPos + r.alignmentLengthInRef }

/-- The source of the concrete scenario: `R1` to `R4`. -/
def scenarioSource : List BamAlignmentRecord :=
  [mkRecord "R1" 30 [(tagCB, "AAA-1".toList)],
   mkRecord "R2" 10 [(tagCB, "BBB-1".toList)],
   mkRecord "R3" 30 [(tagCB, "CCC-1".toList)],
   mkRecord "R4" 30 [(tagCR, "DDD".toList), (tagXF, "1".toList)]]

/-- The metadata of the concrete scenario: a header line and the raw
identifiers `AAA-1` and `BBB-1`. -/
def scenarioMetadata : StdString :=
  "BARCODE,cell_id\nAAA-1,0\nBBB-1,1\n".toList

/-! ## The forbidden-tag option -/

/-- The member `std::string::find(c, pos)`: index of the first occurrence of
`c` at or after `pos`, or `none` for `npos`. -/
def stringFind (s : StdString) (c : Char) (pos : Nat) : Option Nat :=
  (find_first_of (s.drop pos) c).map (· + pos)

/-- The constructor `std::string(s.begin() + first, s.begin() + last)` and,
for `last = s.size()`, `std::string(s.begin() + first, s.end())`. The range is
valid only when `first ≤ last ≤ s.size()`. -/
def stringFromIterators (s : StdString) (first last : Nat) : Except Fault StdString :=
  if first ≤ last ∧ last ≤ s.length then .ok ((s.take last).drop first)
  else .error .undefinedBehaviour

/-- The loop `while (nextComaIndex != std::string::npos)` of
`Settings::parseForbiddenTags_`, bounded by `fuel` iterations; it returns the
value `previousComaIndex` has when the loop is left and the tags collected so
far. The indices are `uint64_t`. -/
def parseForbiddenTagsLoop (forbiddenTagsString : StdString) :
    Nat → Nat → Option Nat → List StdString → Except Fault (Nat × List StdString)
  | 0, _, _, _ => .error .fuelExhausted
  | fuel + 1, previousComaIndex, nextComaIndex, forbiddenTags =>
    match nextComaIndex with
    | none => .ok (previousComaIndex, forbiddenTags)
    | some next =>
      match stringFromIterators forbiddenTagsString previousComaIndex next with
      | .error e => .error e
      | .ok tag =>
        let previousComaIndex' := (next + 1) % 2 ^ 64
        parseForbiddenTagsLoop forbiddenTagsString fuel previousComaIndex'
          (stringFind forbiddenTagsString ',' previousComaIndex') (forbiddenTags ++ [tag])

/-- The member `std::vector::clear`: all elements are removed. -/
def vectorClear {α : Type} (_v : List α) : List α := []

/-- The method `Settings::parseForbiddenTags_`: the value of the field
`forbiddenTags` after the call, given its value before the call. The loop
gets one more unit of fuel than the string has characters. -/
def Settings.parseForbiddenTags_ (forbiddenTags : List StdString)
    (forbiddenTagsString : StdString) : Except Fault (List StdString) :=
  match parseForbiddenTagsLoop forbiddenTagsString (forbiddenTagsString.length + 1) 0
      (stringFind forbiddenTagsString ',' 0) (vectorClear forbiddenTags) with
  | .error e => .error e
  | .ok (previousComaIndex, tags) =>
    match stringFromIterators forbiddenTagsString previousComaIndex
        forbiddenTagsString.length with
    | .error e => .error e
    | .ok tag => .ok (tags ++ [tag])

/-! ## Sinks -/

/-- The path stored in the map for a key, `outputDataMap[key].first`. -/
def pathOf (m : OutputDataMap) (key : StdString) : Option Path :=
  (mapFind m key).map (fun pc => pc.1)

/-- A per-group writer of the log is attached to the file of its key: it was
configured on the path the map holds for the key, in append mode, with the
given secondary-output flag. -/
def WriterAttached (m : OutputDataMap) (writeBed : Bool) (kw : StdString × AlignmentsWriter) :
    Prop :=
  pathOf m kw.1 = some kw.2.sinkPath_ ∧ kw.2.appendMode_ = true ∧ kw.2.writeBed_ = writeBed

/-- The records of a file after a writer opened on it is closed: in append
mode the records written follow the earlier content, otherwise they replace
it. -/
def fileAfter (content : List BamAlignmentRecord) (w : AlignmentsWriter) :
    List BamAlignmentRecord :=
  if w.appendMode_ then content ++ w.sinkStream_ else w.sinkStream_

/-- The records that the per-group writers of a run leave, after the header,
in the file at `path`: the writers are opened and closed one after the other,
in the order of the log. -/
def groupFileRecords (st : CoreState) (path : Path) : List BamAlignmentRecord :=
  st.mapWriters.foldl
    (fun content kw => if kw.2.sinkPath_ = path then fileAfter content kw.2 else content) []


/-- The pieces of a pathname between its separators `'/'`. -/
def pathPieces : Path → List StdString
  | [] => [[]]
  | c :: cs =>
    if c = '/' then [] :: pathPieces cs
    else
      match pathPieces cs with
      | [] => [[c]]
      | piece :: rest => (c :: piece) :: rest

/-- Specification-side notion of the sink a pathname names, read off the
pathname alone: whether it starts at the root, and its pieces without the
empty ones and without `.`, so that `a//b`, `a/./b` and `a/b` name the same
sink. Parent links `..` and symbolic links are not resolved. -/
def sinkId (p : Path) : Bool × List StdString :=
  (decide (p.head? = some '/'),
    (pathPieces p).filter (fun c => decide (c ≠ [] ∧ c ≠ ['.'])))

/-! ## The run up to the point where it stops -/

/-- The classification loop of `demultiplexCore` (see `classifyLoop`),
followed up to the point where it stops: the state of the batch reached
there, and the fault if it stops on one. A record whose key extraction is
undefined stops the loop before it changes anything. -/
def classifyLoopReached (forbiddenTags : List StdString) (minMapQuality : Nat)
    (buffer : List BamAlignmentRecord) : Nat → Nat → BatchState → BatchState × Option Fault
  | _, 0, s => (s, none)
  | i, n + 1, s =>
    match buffer[i]? with
    | none => (s, some .undefinedBehaviour)
    | some record =>
      match classifyRecord forbiddenTags minMapQuality record s with
      | .error e => (s, some e)
      | .ok s' => classifyLoopReached forbiddenTags minMapQuality buffer (i + 1) n s'

/-- The `do ... while` loop of `demultiplexCore` (see `demultiplexLoop`),
followed up to the point where it stops: the state reached there, and the
fault if it stops on one. An iteration that stops on a fault has done its
read and has counted the records classified before the fault; the groups of a
batch are written after its last record is classified, so nothing of that
batch is written, while the batches before it are. -/
def demultiplexLoopReached (order : IterationOrder) (forbiddenTags : List StdString)
    (minMapQuality : Nat) (writeBed : Bool) : Nat → CoreState → CoreState × Option Fault
  | 0, st => (st, some .fuelExhausted)
  | fuel + 1, st =>
    let (loadedRecords, buffer, stream) := AlignmentsReader.read st.bamInputReader st.buffer
    match buffer[0]? with
    | none =>
      ({ st with bamInputReader := stream, buffer := buffer,
                 reads := st.reads ++ [loadedRecords] }, some .undefinedBehaviour)
    | some _ =>
      match classifyLoopReached forbiddenTags minMapQuality buffer 0 loadedRecords
          { outputDataMap := st.outputDataMap, recordsMap := [], noiseBuffer := [] } with
      | (batch, some e) =>
        ({ st with bamInputReader := stream, buffer := buffer,
                   outputDataMap := batch.outputDataMap,
                   reads := st.reads ++ [loadedRecords] }, some e)
      | (batch, none) =>
        let (outputDataMap, mapWriters) :=
          writeGroups writeBed (order batch.recordsMap) batch.outputDataMap st.mapWriters
        let (noiseWriter, _) := st.noiseWriter.write batch.noiseBuffer
        let st' : CoreState :=
          { bamInputReader := stream, outputDataMap := outputDataMap, buffer := buffer,
            noiseWriter := noiseWriter, mapWriters := mapWriters,
            reads := st.reads ++ [loadedRecords] }
        if loadedRecords > 0 then
          demultiplexLoopReached order forbiddenTags minMapQuality writeBed fuel st'
        else
          (st', none)

/-- The function `demultiplexCore` (see the definition of that name),
followed up to the point where it stops. -/
def demultiplexCoreReached (order : IterationOrder) (bamInputReader : List BamAlignmentRecord)
    (outputDataMap : OutputDataMap) (noisePath : Path) (batchSize : Nat)
    (forbiddenTags : List StdString) (minMapQuality : Nat) (writeBed : Bool) :
    CoreState × Option Fault :=
  let noiseWriter := AlignmentsWriter.configure noisePath true writeBed
  let buffer : List BamAlignmentRecord := List.replicate batchSize default
  demultiplexLoopReached order forbiddenTags minMapQuality writeBed (bamInputReader.length + 1)
    { bamInputReader := bamInputReader, outputDataMap := outputDataMap, buffer := buffer,
      noiseWriter := noiseWriter, mapWriters := [], reads := [] }

/-- The outcome of a run followed up to its stop, as a result or a fault. -/
def outcomeOf {α : Type} (reached : α × Option Fault) : Except Fault α :=
  match reached.2 with
  | none => .ok reached.1
  | some e => .error e

/-- A source whose second record has a `CB` value without `'-'`: `R1` with
`AAA-1`, then `R2` with `AAA`. -/
def abortingSource : List BamAlignmentRecord :=
  [mkRecord "R1" 30 [(tagCB, "AAA-1".toList)], mkRecord "R2" 30 [(tagCB, "AAA".toList)]]
/-! ## Strings and tags -/

theorem find_first_of_of_mem (c : Char) :
    ∀ s : StdString, c ∈ s →
      ∃ n, find_first_of s c = some n ∧ n ≤ s.length ∧ s.take n = s.takeWhile (· ≠ c)
  | [], h => by simp at h
  | x :: xs, h => by
    by_cases hx : x = c
    · exact ⟨0, by simp [find_first_of, hx]⟩
    · have hmem : c ∈ xs := by
        rcases List.mem_cons.1 h with h | h
        · exact absurd h.symm hx
        · exact h
      obtain ⟨n, hn, hle, htake⟩ := find_first_of_of_mem c xs hmem
      refine ⟨n + 1, ?_, ?_, ?_⟩
      · simp [find_first_of, hx, hn]
      · simpa using hle
      · simp [List.takeWhile_cons, hx, htake]

theorem stringFromRange_of_mem (s : StdString) (h : '-' ∈ s) :
    stringFromRange s (find_first_of s '-') = .ok (canonicalKey s) := by
  obtain ⟨n, hn, hle, htake⟩ := find_first_of_of_mem '-' s h
  simp [stringFromRange, hn, hle, htake, canonicalKey]

theorem canonicalKey_of_not_mem (s : StdString) (h : '-' ∉ s) : canonicalKey s = s := by
  unfold canonicalKey
  rw [List.takeWhile_eq_self_iff]
  intro x hx
  have : x ≠ '-' := fun e => h (e ▸ hx)
  simpa using this

theorem findTagKey_eq_none_iff (key : StdString) :
    ∀ tags : List (StdString × StdString), findTagKey tags key = none ↔ key ∉ tags.map Prod.fst
  | [] => by simp [findTagKey]
  | (k, v) :: rest => by
    by_cases hk : k = key
    · simp [findTagKey, hk]
    · have hk' : ¬ key = k := fun e => hk e.symm
      simp [findTagKey, hk, hk', findTagKey_eq_none_iff key rest]

theorem findTagKey_value (key : StdString) :
    ∀ tags : List (StdString × StdString),
      (findTagKey tags key).map (extractTagValue tags) =
        (tags.find? (fun kv => kv.1 == key)).map (·.2)
  | [] => by simp [findTagKey]
  | (k, v) :: rest => by
    by_cases hk : k = key
    · simp [findTagKey, hk, extractTagValue]
    · have ih := findTagKey_value key rest
      cases hf : findTagKey rest key with
      | none => simp [findTagKey, hk, hf] at ih ⊢; simpa [List.find?_cons, hk] using ih
      | some i =>
        simp [hf] at ih
        simp [findTagKey, hk, hf, List.find?_cons, extractTagValue] at ih ⊢
        exact ih

theorem tagValue?_eq (r : BamAlignmentRecord) (key : StdString) :
    tagValue? r key = (findTagKey r.tags key).map (extractTagValue r.tags) := by
  rw [findTagKey_value]; rfl

theorem tagValue?_eq_none_iff (r : BamAlignmentRecord) (key : StdString) :
    tagValue? r key = none ↔ ¬ hasTag r key := by
  rw [tagValue?_eq, Option.map_eq_none', findTagKey_eq_none_iff]; rfl

theorem extractBarcode_of_CB (r : BamAlignmentRecord) (v : StdString)
    (h : tagValue? r tagCB = some v) :
    extractBarcode r = stringFromRange v (find_first_of v '-') := by
  rw [tagValue?_eq] at h
  unfold extractBarcode
  cases hf : findTagKey r.tags tagCB with
  | none => simp [hf] at h
  | some i =>
    simp only [hf, Option.map_some', Option.some.injEq] at h
    simp [h]

theorem extractBarcode_of_no_CB (r : BamAlignmentRecord) (h : ¬ hasTag r tagCB) :
    extractBarcode r = .ok ((tagValue? r tagCR).getD []) := by
  have h1 : findTagKey r.tags tagCB = none := (findTagKey_eq_none_iff _ _).2 h
  rw [tagValue?_eq]
  unfold extractBarcode
  rw [h1]
  cases hf : findTagKey r.tags tagCR <;> simp

theorem extractBarcode_error (r : BamAlignmentRecord) (e : Fault)
    (h : extractBarcode r = .error e) : e = .undefinedBehaviour := by
  unfold extractBarcode at h
  cases hf : findTagKey r.tags tagCB with
  | none =>
    rw [hf] at h
    cases hg : findTagKey r.tags tagCR <;> simp [hg] at h
  | some i =>
    simp only [hf] at h
    unfold stringFromRange at h
    split at h
    · split at h
      · simp at h
      · simpa using h.symm
    · simpa using h.symm

/-! ## The filter -/

theorem filterLoop_false (record : BamAlignmentRecord) :
    ∀ tags : List StdString, filterLoop record tags false = false
  | [] => rfl
  | _ :: _ => by simp [filterLoop]

theorem filterLoop_true (record : BamAlignmentRecord) :
    ∀ tags : List StdString,
      filterLoop record tags true = false ↔ ∃ tag ∈ tags, hasTag record tag
  | [] => by simp [filterLoop]
  | tag :: rest => by
    cases hf : findTagKey record.tags tag with
    | none =>
      have hno : ¬ hasTag record tag := (findTagKey_eq_none_iff _ _).1 hf
      simp [filterLoop, hf, filterLoop_true record rest, hno]
    | some i =>
      have hyes : hasTag record tag := by
        by_contra hno
        rw [(findTagKey_eq_none_iff _ _).2 hno] at hf
        cases hf
      simp [filterLoop, hf, filterLoop_false, hyes]

theorem filterAlignmentRecord_false_iff (record : BamAlignmentRecord)
    (forbiddenTags : List StdString) (minMapQuality : Nat) :
    filterAlignmentRecord record forbiddenTags minMapQuality = false ↔
      (record.mapQ < minMapQuality ∨ ∃ tag ∈ forbiddenTags, hasTag record tag) := by
  unfold filterAlignmentRecord
  by_cases hq : record.mapQ < minMapQuality
  · simp [hq, filterLoop_false]
  · simp [hq, filterLoop_true]

/-- C5: `filterAlignmentRecord` returns `false` exactly when the mapping
quality is strictly below the minimum or the record carries a tag named in
`forbiddenTags`, and `true` otherwise; two lists with the same entries, in any
order and with any repetition, give the same result. -/
theorem filterAlignmentRecord_spec (record : BamAlignmentRecord)
    (forbiddenTags : List StdString) (minMapQuality : Nat) :
    (filterAlignmentRecord record forbiddenTags minMapQuality = false ↔
      (record.mapQ < minMapQuality ∨ ∃ tag ∈ forbiddenTags, hasTag record tag)) ∧
    (filterAlignmentRecord record forbiddenTags minMapQuality = true ↔
      ¬ (record.mapQ < minMapQuality ∨ ∃ tag ∈ forbiddenTags, hasTag record tag)) ∧
    (∀ forbiddenTags' : List StdString,
      (∀ tag, tag ∈ forbiddenTags ↔ tag ∈ forbiddenTags') →
        filterAlignmentRecord record forbiddenTags' minMapQuality =
          filterAlignmentRecord record forbiddenTags minMapQuality) := by
  have key := filterAlignmentRecord_false_iff record
  refine ⟨key forbiddenTags minMapQuality, ?_, ?_⟩
  · rw [← key forbiddenTags minMapQuality]; simp
  · intro forbiddenTags' hsame
    have h1 := key forbiddenTags minMapQuality
    have h2 := key forbiddenTags' minMapQuality
    have h3 : (∃ tag ∈ forbiddenTags', hasTag record tag) ↔
        (∃ tag ∈ forbiddenTags, hasTag record tag) := by
      constructor
      · rintro ⟨t, ht, h⟩; exact ⟨t, (hsame t).2 ht, h⟩
      · rintro ⟨t, ht, h⟩; exact ⟨t, (hsame t).1 ht, h⟩
    rw [h3, ← h1] at h2
    cases ha : filterAlignmentRecord record forbiddenTags minMapQuality <;>
      cases hb : filterAlignmentRecord record forbiddenTags' minMapQuality <;> simp_all

/-! ## Key extraction -/

/-- C6: when the record carries a `CB` tag whose value contains `'-'`,
`extractBarcode` returns the part of that value before its first `'-'`,
whatever the other tags (a `CR` tag included) are. -/
theorem extractBarcode_CB_truncates (r : BamAlignmentRecord) (v : StdString)
    (hCB : tagValue? r tagCB = some v) (hdash : '-' ∈ v) :
    extractBarcode r = .ok (canonicalKey v) := by
  rw [extractBarcode_of_CB r v hCB, stringFromRange_of_mem v hdash]

/-- Witness for C6: the value `"AAACCCAAGAAACACT-1"` of `CB`, next to a `CR`
tag with another value, yields `"AAACCCAAGAAACACT"`. -/
theorem extractBarcode_CB_truncates_witness :
    extractBarcode
        { qName := [], refName := [], beginPos := 0, alignmentLengthInRef := 0, mapQ := 0,
          tags := [(tagCR, "TTTT-9".toList), (tagCB, "AAACCCAAGAAACACT-1".toList)] } =
      .ok "AAACCCAAGAAACACT".toList :=
  extractBarcode_CB_truncates
    { qName := [], refName := [], beginPos := 0, alignmentLengthInRef := 0, mapQ := 0,
      tags := [(tagCR, "TTTT-9".toList), (tagCB, "AAACCCAAGAAACACT-1".toList)] }
    "AAACCCAAGAAACACT-1".toList (by decide) (by decide)

/-- C7: a record without a `CB` tag and with a `CR` tag yields the `CR` value
as it is, also when that value contains `'-'`. -/
theorem extractBarcode_CR_verbatim (r : BamAlignmentRecord) (v : StdString)
    (hnoCB : ¬ hasTag r tagCB) (hCR : tagValue? r tagCR = some v) :
    extractBarcode r = .ok v := by
  rw [extractBarcode_of_no_CB r hnoCB, hCR]; rfl

/-- Witness for C7: the `CR` value `"AAA-1"` is returned with its suffix. -/
theorem extractBarcode_CR_verbatim_witness :
    extractBarcode
        { qName := [], refName := [], beginPos := 0, alignmentLengthInRef := 0, mapQ := 0,
          tags := [(tagCR, "AAA-1".toList)] } = .ok "AAA-1".toList :=
  extractBarcode_CR_verbatim
    { qName := [], refName := [], beginPos := 0, alignmentLengthInRef := 0, mapQ := 0,
      tags := [(tagCR, "AAA-1".toList)] }
    "AAA-1".toList (by decide) (by decide)

/-! ## Maps -/

theorem mapFind_eq_none_iff {β : Type} (key : StdString) :
    ∀ m : List (StdString × β), mapFind m key = none ↔ key ∉ mapKeys m
  | [] => by simp [mapFind, mapKeys]
  | (k, v) :: rest => by
    have ih := mapFind_eq_none_iff key rest
    simp only [mapKeys] at ih
    by_cases hk : k = key
    · simp only [mapFind, mapKeys, hk, List.map_cons, List.mem_cons, if_true, true_or,
        not_true_eq_false, reduceCtorEq]
    · have hk' : ¬ key = k := fun e => hk e.symm
      simp only [mapFind, mapKeys, hk, hk', List.map_cons, List.mem_cons, if_false, false_or, ih]

theorem mapFind_isSome_iff {β : Type} (key : StdString) (m : List (StdString × β)) :
    (∃ v, mapFind m key = some v) ↔ key ∈ mapKeys m := by
  rw [← not_iff_not, ← mapFind_eq_none_iff]
  cases mapFind m key <;> simp

theorem mapKeys_mapUpdate {β : Type} (f : β → β) (key : StdString) :
    ∀ m : List (StdString × β), mapKeys (mapUpdate f m key) = mapKeys m
  | [] => rfl
  | (k, v) :: rest => by
    have ih := mapKeys_mapUpdate f key rest
    simp only [mapKeys] at ih
    by_cases hk : k = key <;> simp [mapUpdate, mapKeys, hk, ih]

theorem mapFind_mapUpdate {β : Type} (f : β → β) (key key' : StdString) :
    ∀ m : List (StdString × β),
      mapFind (mapUpdate f m key) key' =
        if key' = key then (mapFind m key').map f else mapFind m key'
  | [] => by simp [mapFind, mapUpdate]
  | (k, v) :: rest => by
    have ih := mapFind_mapUpdate f key key' rest
    by_cases hk : k = key
    · subst hk
      by_cases hk' : key' = k
      · subst hk'; simp [mapUpdate, mapFind]
      · have : ¬ k = key' := fun e => hk' e.symm
        simp [mapUpdate, mapFind, hk', this]
    · by_cases hk' : k = key'
      · subst hk'; simp [mapUpdate, mapFind, hk]
      · simp [mapUpdate, mapFind, hk, hk', ih]

theorem mapFind_append_singleton {β : Type} (key key' : StdString) (v : β) :
    ∀ m : List (StdString × β),
      mapFind (m ++ [(key, v)]) key' =
        match mapFind m key' with
        | some x => some x
        | none => if key = key' then some v else none
  | [] => by simp [mapFind]
  | (k, w) :: rest => by
    have ih := mapFind_append_singleton key key' v rest
    by_cases hk : k = key' <;> simp [mapFind, hk, ih]

theorem mapKeys_incrementCounter (m : OutputDataMap) (key : StdString) :
    mapKeys (incrementCounter m key) = mapKeys m :=
  mapKeys_mapUpdate _ key m

theorem mapIndex_of_mem {β : Type} (dflt : β) (m : List (StdString × β)) (key : StdString)
    (h : key ∈ mapKeys m) : (mapIndex dflt m key).1 = m := by
  obtain ⟨v, hv⟩ := (mapFind_isSome_iff key m).2 h
  simp [mapIndex, hv]

theorem filter_key_of_nodup {β : Type} (key : StdString) :
    ∀ m : List (StdString × β), (mapKeys m).Nodup →
      m.filter (fun p => p.1 = key) =
        match mapFind m key with
        | some v => [(key, v)]
        | none => []
  | [], _ => by simp [mapFind]
  | (k, v) :: rest, h => by
    have hnd : (mapKeys rest).Nodup := by
      simp only [mapKeys, List.map_cons, List.nodup_cons] at h ⊢; exact h.2
    have hk_notin : k ∉ mapKeys rest := by
      simp only [mapKeys, List.map_cons, List.nodup_cons] at h ⊢; exact h.1
    have ih := filter_key_of_nodup key rest hnd
    by_cases hk : k = key
    · subst hk
      have hnone : mapFind rest k = none := (mapFind_eq_none_iff k rest).2 hk_notin
      rw [hnone] at ih
      simp [List.filter_cons, mapFind, ih]
    · simp [List.filter_cons, mapFind, hk, ih]

theorem filter_key_of_perm {β : Type} (key : StdString) (l m : List (StdString × β))
    (hperm : l.Perm m) (hnd : (mapKeys m).Nodup) :
    l.filter (fun p => p.1 = key) = m.filter (fun p => p.1 = key) := by
  have hp : (l.filter (fun p => decide (p.1 = key))).Perm
      (m.filter (fun p => decide (p.1 = key))) := hperm.filter _
  rw [filter_key_of_nodup key m hnd] at hp ⊢
  cases hf : mapFind m key with
  | none => rw [hf] at hp; exact hp.eq_nil
  | some v => rw [hf] at hp; exact List.perm_singleton.1 hp

theorem flatMap_filter_key_eq_groupOf (key : StdString)
    (l m : List (StdString × List BamAlignmentRecord))
    (hperm : l.Perm m) (hnd : (mapKeys m).Nodup) :
    (l.filter (fun p => p.1 = key)).flatMap (fun p => p.2) = groupOf m key := by
  rw [filter_key_of_perm key l m hperm hnd, filter_key_of_nodup key m hnd]
  unfold groupOf
  cases mapFind m key <;> simp

/-! ## Classification of one record and of a batch -/

theorem classifyRecord_rejected (forbiddenTags : List StdString) (minMapQuality : Nat)
    (r : BamAlignmentRecord) (s : BatchState)
    (h : filterAlignmentRecord r forbiddenTags minMapQuality = false) :
    classifyRecord forbiddenTags minMapQuality r s = .ok s := by
  simp [classifyRecord, h]

theorem classifyRecord_undefined (forbiddenTags : List StdString) (minMapQuality : Nat)
    (r : BamAlignmentRecord) (s : BatchState) (e : Fault)
    (h : filterAlignmentRecord r forbiddenTags minMapQuality = true)
    (he : extractBarcode r = .error e) :
    classifyRecord forbiddenTags minMapQuality r s = .error .undefinedBehaviour := by
  have := extractBarcode_error r e he
  subst this
  simp [classifyRecord, h, he]

theorem classifyRecord_unmatched (forbiddenTags : List StdString) (minMapQuality : Nat)
    (r : BamAlignmentRecord) (s : BatchState) (k : StdString)
    (h : filterAlignmentRecord r forbiddenTags minMapQuality = true)
    (hk : extractBarcode r = .ok k) (hnot : k ∉ mapKeys s.outputDataMap) :
    classifyRecord forbiddenTags minMapQuality r s =
      .ok { s with noiseBuffer := s.noiseBuffer ++ [r] } := by
  have hnone : mapFind s.outputDataMap k = none := (mapFind_eq_none_iff k _).2 hnot
  simp [classifyRecord, h, hk, hnone]

theorem classifyRecord_matched (forbiddenTags : List StdString) (minMapQuality : Nat)
    (r : BamAlignmentRecord) (s : BatchState) (k : StdString)
    (h : filterAlignmentRecord r forbiddenTags minMapQuality = true)
    (hk : extractBarcode r = .ok k) (hin : k ∈ mapKeys s.outputDataMap)
    (hnd : (mapKeys s.recordsMap).Nodup) :
    ∃ s', classifyRecord forbiddenTags minMapQuality r s = .ok s' ∧
      s'.outputDataMap = incrementCounter s.outputDataMap k ∧
      s'.noiseBuffer = s.noiseBuffer ∧
      (∀ k', groupOf s'.recordsMap k' =
        groupOf s.recordsMap k' ++ if k' = k then [r] else []) ∧
      (mapKeys s'.recordsMap).Nodup ∧
      (∀ k' ∈ mapKeys s'.recordsMap, k' = k ∨ k' ∈ mapKeys s.recordsMap) := by
  obtain ⟨v, hv⟩ := (mapFind_isSome_iff k _).2 hin
  cases hg : mapFind s.recordsMap k with
  | some g =>
    refine ⟨{ s with outputDataMap := incrementCounter s.outputDataMap k,
                     recordsMap := mapUpdate (fun v => v ++ [r]) s.recordsMap k },
      by simp only [classifyRecord, h, hk, hv, hg, if_true], rfl, rfl, ?_, ?_, ?_⟩
    · intro k'
      simp only [groupOf, mapFind_mapUpdate]
      by_cases hkk : k' = k
      · subst hkk; simp [hg]
      · simp [hkk]
    · simpa only [mapKeys_mapUpdate] using hnd
    · intro k' hk'
      right
      simpa only [mapKeys_mapUpdate] using hk'
  | none =>
    have hnotin : k ∉ mapKeys s.recordsMap := (mapFind_eq_none_iff k _).1 hg
    refine ⟨{ s with outputDataMap := incrementCounter s.outputDataMap k,
                     recordsMap := s.recordsMap ++ [(k, [r])] },
      by simp only [classifyRecord, h, hk, hv, hg, if_true], rfl, rfl, ?_, ?_, ?_⟩
    · intro k'
      simp only [groupOf, mapFind_append_singleton]
      by_cases hkk : k' = k
      · subst hkk; simp [hg]
      · have hkk' : ¬ k = k' := fun e => hkk e.symm
        cases mapFind s.recordsMap k' <;> simp [hkk, hkk']
    · simp only [mapKeys, List.map_append, List.map_cons, List.map_nil] at hnotin hnd ⊢
      rw [List.nodup_append]
      refine ⟨hnd, List.nodup_singleton _, ?_⟩
      intro a ha hb
      rw [List.mem_singleton] at hb
      exact hnotin (hb ▸ ha)
    · intro k' hk'
      simp only [mapKeys, List.map_append, List.map_cons, List.map_nil, List.mem_append,
        List.mem_singleton] at hk' ⊢
      rcases hk' with h1 | h1
      · exact Or.inr h1
      · exact Or.inl h1

theorem keysDefined_cons {forbiddenTags : List StdString} {minMapQuality : Nat}
    {r : BamAlignmentRecord} {rs : List BamAlignmentRecord}
    (h : KeysDefined forbiddenTags minMapQuality (r :: rs)) :
    KeysDefined forbiddenTags minMapQuality rs :=
  fun x hx => h x (List.mem_cons_of_mem _ hx)

theorem keysDefined_append {forbiddenTags : List StdString} {minMapQuality : Nat}
    {xs ys : List BamAlignmentRecord} :
    KeysDefined forbiddenTags minMapQuality (xs ++ ys) ↔
      KeysDefined forbiddenTags minMapQuality xs ∧ KeysDefined forbiddenTags minMapQuality ys := by
  unfold KeysDefined
  constructor
  · intro h
    exact ⟨fun r hr => h r (List.mem_append_left _ hr), fun r hr => h r (List.mem_append_right _ hr)⟩
  · rintro ⟨h1, h2⟩ r hr
    rcases List.mem_append.1 hr with h | h
    · exact h1 r h
    · exact h2 r h

theorem classifyAll_spec (forbiddenTags : List StdString) (minMapQuality : Nat)
    (keys : List StdString) :
    ∀ (xs : List BamAlignmentRecord) (s : BatchState),
      mapKeys s.outputDataMap = keys → (mapKeys s.recordsMap).Nodup →
      (∀ k ∈ mapKeys s.recordsMap, k ∈ keys) →
      KeysDefined forbiddenTags minMapQuality xs →
      ∃ s', classifyAll forbiddenTags minMapQuality xs s = .ok s' ∧
        s'.outputDataMap =
          (routedKeys forbiddenTags minMapQuality keys xs).foldl incrementCounter
            s.outputDataMap ∧
        (∀ k, groupOf s'.recordsMap k = groupOf s.recordsMap k ++
          if k ∈ keys then xs.filter (acceptedWithKey forbiddenTags minMapQuality k) else []) ∧
        s'.noiseBuffer =
          s.noiseBuffer ++ xs.filter (acceptedUnmatched forbiddenTags minMapQuality keys) ∧
        (mapKeys s'.recordsMap).Nodup ∧ (∀ k ∈ mapKeys s'.recordsMap, k ∈ keys)
  | [], s, _, hnd, hsub, _ => by
    refine ⟨s, rfl, rfl, ?_, by simp, hnd, hsub⟩
    intro k; split <;> simp
  | r :: rs, s, hkeys, hnd, hsub, hdef => by
    have hdef' := keysDefined_cons hdef
    cases hf : filterAlignmentRecord r forbiddenTags minMapQuality with
    | false =>
      obtain ⟨s', h1, h2, h3, h4, h5, h6⟩ :=
        classifyAll_spec forbiddenTags minMapQuality keys rs s hkeys hnd hsub hdef'
      refine ⟨s', ?_, ?_, ?_, ?_, h5, h6⟩
      · simp only [classifyAll, classifyRecord_rejected _ _ r s hf, h1]
      · simp only [routedKeys, List.filterMap_cons, hf] at h2 ⊢
        simpa using h2
      · intro k
        rw [h3 k]
        simp [List.filter_cons, acceptedWithKey, hf]
      · rw [h4]
        simp [List.filter_cons, acceptedUnmatched, hf]
    | true =>
      obtain ⟨k, hk⟩ := hdef r (List.mem_cons_self _ _) hf
      by_cases hin : k ∈ keys
      · have hin' : k ∈ mapKeys s.outputDataMap := hkeys ▸ hin
        obtain ⟨s1, e1, o1, n1, g1, nd1, sub1⟩ :=
          classifyRecord_matched forbiddenTags minMapQuality r s k hf hk hin' hnd
        have hkeys1 : mapKeys s1.outputDataMap = keys := by
          rw [o1, mapKeys_incrementCounter, hkeys]
        have hsub1 : ∀ k' ∈ mapKeys s1.recordsMap, k' ∈ keys := by
          intro k' hk'
          rcases sub1 k' hk' with h | h
          · exact h ▸ hin
          · exact hsub k' h
        obtain ⟨s', h1, h2, h3, h4, h5, h6⟩ :=
          classifyAll_spec forbiddenTags minMapQuality keys rs s1 hkeys1 nd1 hsub1 hdef'
        refine ⟨s', ?_, ?_, ?_, ?_, h5, h6⟩
        · simp only [classifyAll, e1, h1]
        · rw [h2, o1]
          simp [routedKeys, List.filterMap_cons, hf, hk, hin]
        · intro k'
          rw [h3 k', g1 k']
          by_cases hkk : k' = k
          · subst hkk
            simp [hin, List.filter_cons, acceptedWithKey, hf, hk]
          · have hne : ¬ k = k' := fun e => hkk e.symm
            by_cases hin2 : k' ∈ keys <;>
              simp [hkk, hne, hin2, List.filter_cons, acceptedWithKey, hf, hk]
        · rw [h4, n1]
          have : acceptedUnmatched forbiddenTags minMapQuality keys r = false := by
            simp only [acceptedUnmatched, hf, hk, Bool.true_and]
            rw [Bool.eq_false_iff]
            intro hall
            rw [List.all_eq_true] at hall
            simpa using hall k hin
          simp [List.filter_cons, this]
      · have hnot : k ∉ mapKeys s.outputDataMap := hkeys ▸ hin
        have e1 := classifyRecord_unmatched forbiddenTags minMapQuality r s k hf hk hnot
        obtain ⟨s', h1, h2, h3, h4, h5, h6⟩ :=
          classifyAll_spec forbiddenTags minMapQuality keys rs
            { s with noiseBuffer := s.noiseBuffer ++ [r] } hkeys hnd hsub hdef'
        refine ⟨s', ?_, ?_, ?_, ?_, h5, h6⟩
        · simp only [classifyAll, e1, h1]
        · rw [h2]
          simp [routedKeys, List.filterMap_cons, hf, hk, hin]
        · intro k'
          rw [h3 k']
          by_cases hkk : k' = k
          · subst hkk; simp [hin]
          · have hne : ¬ k = k' := fun e => hkk e.symm
            simp [List.filter_cons, acceptedWithKey, hf, hk, hne]
        · rw [h4]
          have : acceptedUnmatched forbiddenTags minMapQuality keys r = true := by
            simp only [acceptedUnmatched, hf, hk, Bool.true_and]
            rw [List.all_eq_true]
            intro k' hk'
            have : k ≠ k' := fun e => hin (e ▸ hk')
            simpa using this
          simp [List.filter_cons, this]

theorem classifyAll_undefined (forbiddenTags : List StdString) (minMapQuality : Nat) :
    ∀ (xs : List BamAlignmentRecord) (s : BatchState),
      ¬ KeysDefined forbiddenTags minMapQuality xs →
      classifyAll forbiddenTags minMapQuality xs s = .error .undefinedBehaviour
  | [], s, h => absurd (fun r hr => by simp at hr) h
  | r :: rs, s, h => by
    cases hf : filterAlignmentRecord r forbiddenTags minMapQuality with
    | false =>
      have h' : ¬ KeysDefined forbiddenTags minMapQuality rs := by
        intro hrs
        apply h
        intro x hx hfx
        rcases List.mem_cons.1 hx with e | e
        · subst e; rw [hf] at hfx; cases hfx
        · exact hrs x e hfx
      simp only [classifyAll, classifyRecord_rejected _ _ r s hf]
      exact classifyAll_undefined forbiddenTags minMapQuality rs s h'
    | true =>
      cases hk : extractBarcode r with
      | error e =>
        simp only [classifyAll, classifyRecord_undefined _ _ r s e hf hk]
      | ok k =>
        have h' : ¬ KeysDefined forbiddenTags minMapQuality rs := by
          intro hrs
          apply h
          intro x hx hfx
          rcases List.mem_cons.1 hx with e | e
          · subst e; exact ⟨k, hk⟩
          · exact hrs x e hfx
        cases hc : classifyRecord forbiddenTags minMapQuality r s with
        | error e =>
          have : e = .undefinedBehaviour := by
            unfold classifyRecord at hc
            simp only [hf, hk, if_true] at hc
            split at hc
            · split at hc <;> cases hc
            · cases hc
          subst this
          simp only [classifyAll, hc]
        | ok s1 =>
          simp only [classifyAll, hc]
          exact classifyAll_undefined forbiddenTags minMapQuality rs s1 h'

/-! ## Reader, writer and the batch loop -/

theorem read_spec :
    ∀ stream range : List BamAlignmentRecord,
      AlignmentsReader.read stream range =
        (min range.length stream.length,
         stream.take (min range.length stream.length) ++
           range.drop (min range.length stream.length),
         stream.drop (min range.length stream.length))
  | [], [] => by simp [AlignmentsReader.read]
  | _ :: _, [] => by simp [AlignmentsReader.read]
  | [], _ :: _ => by simp [AlignmentsReader.read]
  | r :: stream, _ :: range => by
    simp only [AlignmentsReader.read, read_spec stream range, List.length_cons,
      Nat.add_min_add_right, List.take_succ_cons, List.drop_succ_cons, List.cons_append]

theorem classifyLoop_eq_classifyAll (forbiddenTags : List StdString) (minMapQuality : Nat) :
    ∀ (xs front back : List BamAlignmentRecord) (s : BatchState),
      classifyLoop forbiddenTags minMapQuality (front ++ xs ++ back) front.length xs.length s =
        classifyAll forbiddenTags minMapQuality xs s
  | [], _, _, _ => rfl
  | x :: xs, front, back, s => by
    have hget : (front ++ x :: xs ++ back)[front.length]? = some x := by
      rw [List.append_assoc, List.getElem?_append_right (Nat.le_refl _)]
      simp
    have hre : front ++ x :: xs ++ back = (front ++ [x]) ++ xs ++ back := by simp
    have hlen : front.length + 1 = (front ++ [x]).length := by simp
    simp only [List.length_cons, classifyLoop, hget, classifyAll]
    cases classifyRecord forbiddenTags minMapQuality x s with
    | error e => rfl
    | ok s' =>
      simp only []
      rw [hre, hlen]
      exact classifyLoop_eq_classifyAll forbiddenTags minMapQuality xs (front ++ [x]) back s'

theorem writeOne_sinkStream (w : AlignmentsWriter) (r : BamAlignmentRecord) :
    (w.writeOne r).sinkStream_ = w.sinkStream_ ++ [r] := by
  unfold AlignmentsWriter.writeOne
  cases w.writeBed_ <;> rfl

theorem writeLoop_sinkStream :
    ∀ (records : List BamAlignmentRecord) (w : AlignmentsWriter) (written : Nat),
      (w.writeLoop written records).1.sinkStream_ = w.sinkStream_ ++ records
  | [], w, _ => by simp [AlignmentsWriter.writeLoop]
  | r :: rest, w, written => by
    simp [AlignmentsWriter.writeLoop, writeLoop_sinkStream rest, writeOne_sinkStream]

theorem write_sinkStream (w : AlignmentsWriter) (records : List BamAlignmentRecord) :
    (w.write records).1.sinkStream_ = w.sinkStream_ ++ records :=
  writeLoop_sinkStream records w 0

theorem writeGroups_spec (writeBed : Bool) :
    ∀ (l : List (StdString × List BamAlignmentRecord)) (outputDataMap : OutputDataMap)
      (writers : List (StdString × AlignmentsWriter)),
      (∀ p ∈ l, p.1 ∈ mapKeys outputDataMap) →
      ∃ added, writeGroups writeBed l outputDataMap writers = (outputDataMap, writers ++ added) ∧
        added.map (fun kw => (kw.1, kw.2.sinkStream_)) = l
  | [], outputDataMap, writers, _ => ⟨[], by simp [writeGroups], rfl⟩
  | p :: rest, outputDataMap, writers, h => by
    have hp : p.1 ∈ mapKeys outputDataMap := h p (List.mem_cons_self _ _)
    have hrest : ∀ q ∈ rest, q.1 ∈ mapKeys outputDataMap :=
      fun q hq => h q (List.mem_cons_of_mem _ hq)
    have hidx := mapIndex_of_mem (([] : Path), 0) outputDataMap p.1 hp
    obtain ⟨added, h1, h2⟩ := writeGroups_spec writeBed rest outputDataMap
      (writers ++ [(p.1, ((AlignmentsWriter.configure
        (mapIndex (([] : Path), 0) outputDataMap p.1).2.1 true writeBed).write p.2).1)]) hrest
    refine ⟨(p.1, ((AlignmentsWriter.configure
        (mapIndex (([] : Path), 0) outputDataMap p.1).2.1 true writeBed).write p.2).1) :: added,
      ?_, ?_⟩
    · simp only [writeGroups]
      rw [hidx, h1]
      simp
    · simp only [List.map_cons, h2, write_sinkStream, AlignmentsWriter.configure, List.nil_append]

theorem bucket_of_added (key : StdString) (writers added : List (StdString × AlignmentsWriter))
    (l m : List (StdString × List BamAlignmentRecord))
    (hadded : added.map (fun kw => (kw.1, kw.2.sinkStream_)) = l)
    (hperm : l.Perm m) (hnd : (mapKeys m).Nodup) :
    ((writers ++ added).filter (fun kw => kw.1 = key)).flatMap (fun kw => kw.2.sinkStream_) =
      (writers.filter (fun kw => kw.1 = key)).flatMap (fun kw => kw.2.sinkStream_) ++
        groupOf m key := by
  rw [List.filter_append, List.flatMap_append, ← flatMap_filter_key_eq_groupOf key l m hperm hnd,
    ← hadded]
  congr 1
  clear hadded
  induction added with
  | nil => rfl
  | cons a rest ih =>
    by_cases ha : a.1 = key <;> simp [List.filter_cons, ha, ih]

theorem mapKeys_foldl_incrementCounter :
    ∀ (ks : List StdString) (m : OutputDataMap),
      mapKeys (ks.foldl incrementCounter m) = mapKeys m
  | [], _ => rfl
  | k :: ks, m => by
    rw [List.foldl_cons, mapKeys_foldl_incrementCounter ks, mapKeys_incrementCounter]

theorem routedKeys_append (forbiddenTags : List StdString) (minMapQuality : Nat)
    (keys : List StdString) (xs ys : List BamAlignmentRecord) :
    routedKeys forbiddenTags minMapQuality keys (xs ++ ys) =
      routedKeys forbiddenTags minMapQuality keys xs ++
        routedKeys forbiddenTags minMapQuality keys ys := by
  simp [routedKeys, List.filterMap_append]

theorem demultiplexLoop_spec (order : IterationOrder) (hord : ∀ l, (order l).Perm l)
    (forbiddenTags : List StdString) (minMapQuality : Nat) (writeBed : Bool)
    (keys : List StdString) :
    ∀ (fuel : Nat) (st : CoreState),
      st.bamInputReader.length < fuel → 0 < st.buffer.length →
      mapKeys st.outputDataMap = keys →
      KeysDefined forbiddenTags minMapQuality st.bamInputReader →
      ∃ st', demultiplexLoop order forbiddenTags minMapQuality writeBed fuel st = .ok st' ∧
        st'.outputDataMap =
          (routedKeys forbiddenTags minMapQuality keys st.bamInputReader).foldl incrementCounter
            st.outputDataMap ∧
        (∀ k, bucketRecords st' k = bucketRecords st k ++
          if k ∈ keys then
            st.bamInputReader.filter (acceptedWithKey forbiddenTags minMapQuality k)
          else []) ∧
        noiseRecords st' = noiseRecords st ++
          st.bamInputReader.filter (acceptedUnmatched forbiddenTags minMapQuality keys) ∧
        st'.bamInputReader = []
  | 0, _, h, _, _, _ => absurd h (Nat.not_lt_zero _)
  | fuel + 1, st, hfuel, hbuf, hkeys, hdef => by
    obtain ⟨src, odm, buf, nw, mw, rd⟩ := st
    simp only at hfuel hbuf hkeys hdef
    -- the batch read
    obtain ⟨n, hn⟩ : ∃ n, n = min buf.length src.length := ⟨_, rfl⟩
    have hn_le_src : n ≤ src.length := hn ▸ Nat.min_le_right _ _
    have hn_le_buf : n ≤ buf.length := hn ▸ Nat.min_le_left _ _
    have htake_len : (src.take n).length = n := by simp [hn_le_src]
    have hsplit : src.take n ++ src.drop n = src := List.take_append_drop n src
    have hdef2 : KeysDefined forbiddenTags minMapQuality (src.take n) ∧
        KeysDefined forbiddenTags minMapQuality (src.drop n) := by
      rw [← keysDefined_append, hsplit]; exact hdef
    have hbuf0 : ∃ x, (src.take n ++ buf.drop n)[0]? = some x := by
      have hlen : 0 < (src.take n ++ buf.drop n).length := by
        simp only [List.length_append, htake_len, List.length_drop]; omega
      exact ⟨_, List.getElem?_eq_getElem hlen⟩
    obtain ⟨x0, hx0⟩ := hbuf0
    -- the classification of the batch
    have hloop := classifyLoop_eq_classifyAll forbiddenTags minMapQuality (src.take n) []
      (buf.drop n) { outputDataMap := odm, recordsMap := [], noiseBuffer := [] }
    simp only [List.nil_append, List.length_nil, htake_len] at hloop
    obtain ⟨batch, hb1, hb2, hb3, hb4, hb5, hb6⟩ :=
      classifyAll_spec forbiddenTags minMapQuality keys (src.take n)
        { outputDataMap := odm, recordsMap := [], noiseBuffer := [] } hkeys
        (by simp [mapKeys]) (by simp [mapKeys]) hdef2.1
    simp only [groupOf, mapFind, Option.getD_none, List.nil_append] at hb3 hb4
    have hbkeys : mapKeys batch.outputDataMap = keys := by
      rw [hb2, mapKeys_foldl_incrementCounter]; exact hkeys
    -- the writes of the batch
    have hmem : ∀ p ∈ order batch.recordsMap, p.1 ∈ mapKeys batch.outputDataMap := by
      intro p hp
      rw [hbkeys]
      apply hb6
      exact List.mem_map_of_mem Prod.fst ((hord _).mem_iff.1 hp)
    obtain ⟨added, hw1, hw2⟩ :=
      writeGroups_spec writeBed (order batch.recordsMap) batch.outputDataMap mw hmem
    have hbucket : ∀ k,
        ((mw ++ added).filter (fun kw => kw.1 = k)).flatMap (fun kw => kw.2.sinkStream_) =
          (mw.filter (fun kw => kw.1 = k)).flatMap (fun kw => kw.2.sinkStream_) ++
            if k ∈ keys then
              (src.take n).filter (acceptedWithKey forbiddenTags minMapQuality k)
            else [] := by
      intro k
      rw [bucket_of_added k mw added _ _ hw2 (hord _) hb5]
      exact congrArg _ (hb3 k)
    unfold demultiplexLoop
    rw [read_spec]
    simp only [← hn, hx0, hloop, hb1, hw1]
    by_cases hpos : n > 0
    · simp only [hpos, if_true]
      obtain ⟨st', h1, h2, h3, h4, h5⟩ :=
        demultiplexLoop_spec order hord forbiddenTags minMapQuality writeBed keys fuel
          { bamInputReader := src.drop n, outputDataMap := batch.outputDataMap,
            buffer := src.take n ++ buf.drop n,
            noiseWriter := (nw.write batch.noiseBuffer).1, mapWriters := mw ++ added,
            reads := rd ++ [n] }
          (by simp only [List.length_drop]; omega)
          (by simp only [List.length_append, htake_len, List.length_drop]; omega)
          hbkeys hdef2.2
      refine ⟨st', h1, ?_, ?_, ?_, h5⟩
      · rw [h2, hb2, ← List.foldl_append, ← routedKeys_append, hsplit]
      · intro k
        rw [h3 k]
        simp only [bucketRecords] at hbucket ⊢
        rw [hbucket k, List.append_assoc]
        congr 1
        by_cases hk : k ∈ keys
        · simp only [hk, if_true]
          rw [← List.filter_append, hsplit]
        · simp [hk]
      · rw [h4]
        simp only [noiseRecords, write_sinkStream, hb4]
        rw [List.append_assoc, ← List.filter_append, hsplit]
    · have hn0 : n = 0 := Nat.eq_zero_of_not_pos hpos
      have hsrc : src = [] := by
        have : src.length = 0 := by omega
        exact List.length_eq_zero.1 this
      subst hsrc
      simp only [hpos, if_false]
      refine ⟨_, rfl, ?_, ?_, ?_, ?_⟩
      · simp [hb2, routedKeys]
      · intro k
        have := hbucket k
        simp only [bucketRecords]
        rw [this]
        simp
      · simp [noiseRecords, write_sinkStream, hb4]
      · simp

theorem demultiplexLoop_undefined (order : IterationOrder)
    (forbiddenTags : List StdString) (minMapQuality : Nat) (writeBed : Bool) :
    ∀ (fuel : Nat) (st : CoreState),
      st.bamInputReader.length < fuel → 0 < st.buffer.length →
      ¬ KeysDefined forbiddenTags minMapQuality st.bamInputReader →
      demultiplexLoop order forbiddenTags minMapQuality writeBed fuel st =
        .error .undefinedBehaviour
  | 0, _, h, _, _ => absurd h (Nat.not_lt_zero _)
  | fuel + 1, st, hfuel, hbuf, hdef => by
    obtain ⟨src, odm, buf, nw, mw, rd⟩ := st
    simp only at hfuel hbuf hdef
    obtain ⟨n, hn⟩ : ∃ n, n = min buf.length src.length := ⟨_, rfl⟩
    have hn_le_src : n ≤ src.length := hn ▸ Nat.min_le_right _ _
    have htake_len : (src.take n).length = n := by simp [hn_le_src]
    have hsplit : src.take n ++ src.drop n = src := List.take_append_drop n src
    obtain ⟨x0, hx0⟩ : ∃ x, (src.take n ++ buf.drop n)[0]? = some x := by
      have hlen : 0 < (src.take n ++ buf.drop n).length := by
        simp only [List.length_append, htake_len, List.length_drop]; omega
      exact ⟨_, List.getElem?_eq_getElem hlen⟩
    have hloop := classifyLoop_eq_classifyAll forbiddenTags minMapQuality (src.take n) []
      (buf.drop n) { outputDataMap := odm, recordsMap := [], noiseBuffer := [] }
    simp only [List.nil_append, List.length_nil, htake_len] at hloop
    unfold demultiplexLoop
    rw [read_spec]
    simp only [← hn, hx0, hloop]
    by_cases htake : KeysDefined forbiddenTags minMapQuality (src.take n)
    · have hdrop : ¬ KeysDefined forbiddenTags minMapQuality (src.drop n) := by
        intro h
        apply hdef
        rw [← hsplit]
        exact keysDefined_append.2 ⟨htake, h⟩
      have hpos : n > 0 := by
        by_contra h0
        have hn0 : n = 0 := Nat.eq_zero_of_not_pos h0
        apply hdrop
        have : src.length = 0 := by omega
        rw [List.length_eq_zero.1 this]
        intro r hr
        simp at hr
      obtain ⟨batch, hb1, -⟩ :=
        classifyAll_spec forbiddenTags minMapQuality (mapKeys odm) (src.take n)
          { outputDataMap := odm, recordsMap := [], noiseBuffer := [] } rfl
          (by simp [mapKeys]) (by simp [mapKeys]) htake
      simp only [hb1, hpos, if_true]
      apply demultiplexLoop_undefined order forbiddenTags minMapQuality writeBed fuel
      · simp only [List.length_drop]; omega
      · simp only [List.length_append, htake_len, List.length_drop]; omega
      · exact hdrop
    · rw [classifyAll_undefined forbiddenTags minMapQuality (src.take n) _ htake]

/-! ## The whole run -/

theorem demultiplexCore_defined (order : IterationOrder) (hord : ∀ l, (order l).Perm l)
    (source : List BamAlignmentRecord) (outputDataMap : OutputDataMap) (noisePath : Path)
    (batchSize : Nat) (forbiddenTags : List StdString) (minMapQuality : Nat) (writeBed : Bool)
    (hbatch : 1 ≤ batchSize) (hdef : KeysDefined forbiddenTags minMapQuality source) :
    ∃ st, demultiplexCore order source outputDataMap noisePath batchSize forbiddenTags
          minMapQuality writeBed = .ok st ∧
      st.outputDataMap =
        (routedKeys forbiddenTags minMapQuality (mapKeys outputDataMap) source).foldl
          incrementCounter outputDataMap ∧
      (∀ k, bucketRecords st k =
        if k ∈ mapKeys outputDataMap then
          source.filter (acceptedWithKey forbiddenTags minMapQuality k)
        else []) ∧
      noiseRecords st =
        source.filter (acceptedUnmatched forbiddenTags minMapQuality (mapKeys outputDataMap)) ∧
      st.bamInputReader = [] := by
  obtain ⟨st, h1, h2, h3, h4, h5⟩ :=
    demultiplexLoop_spec order hord forbiddenTags minMapQuality writeBed (mapKeys outputDataMap)
      (source.length + 1)
      { bamInputReader := source, outputDataMap := outputDataMap,
        buffer := List.replicate batchSize default,
        noiseWriter := AlignmentsWriter.configure noisePath true writeBed,
        mapWriters := [], reads := [] }
      (Nat.lt_succ_self _) (by simpa using hbatch) rfl hdef
  refine ⟨st, h1, h2, ?_, ?_, h5⟩
  · intro k
    rw [h3 k]
    simp [bucketRecords]
  · rw [h4]
    simp [noiseRecords, AlignmentsWriter.configure]

theorem demultiplexCore_undefined (order : IterationOrder)
    (source : List BamAlignmentRecord) (outputDataMap : OutputDataMap) (noisePath : Path)
    (batchSize : Nat) (forbiddenTags : List StdString) (minMapQuality : Nat) (writeBed : Bool)
    (hbatch : 1 ≤ batchSize) (hdef : ¬ KeysDefined forbiddenTags minMapQuality source) :
    demultiplexCore order source outputDataMap noisePath batchSize forbiddenTags
      minMapQuality writeBed = .error .undefinedBehaviour :=
  demultiplexLoop_undefined order forbiddenTags minMapQuality writeBed (source.length + 1)
    { bamInputReader := source, outputDataMap := outputDataMap,
      buffer := List.replicate batchSize default,
      noiseWriter := AlignmentsWriter.configure noisePath true writeBed,
      mapWriters := [], reads := [] }
    (Nat.lt_succ_self _) (by simpa using hbatch) hdef

theorem keysDefined_of_ok (order : IterationOrder)
    (source : List BamAlignmentRecord) (outputDataMap : OutputDataMap) (noisePath : Path)
    (batchSize : Nat) (forbiddenTags : List StdString) (minMapQuality : Nat) (writeBed : Bool)
    (hbatch : 1 ≤ batchSize) (st : CoreState)
    (h : demultiplexCore order source outputDataMap noisePath batchSize forbiddenTags
      minMapQuality writeBed = .ok st) :
    KeysDefined forbiddenTags minMapQuality source := by
  by_contra hdef
  rw [demultiplexCore_undefined order source outputDataMap noisePath batchSize forbiddenTags
    minMapQuality writeBed hbatch hdef] at h
  cases h

theorem runsAgree_of_same_source (order1 order2 : IterationOrder)
    (hord1 : ∀ l, (order1 l).Perm l) (hord2 : ∀ l, (order2 l).Perm l)
    (source : List BamAlignmentRecord) (outputDataMap : OutputDataMap) (noisePath : Path)
    (b1 b2 : Nat) (forbiddenTags : List StdString) (minMapQuality : Nat) (writeBed : Bool)
    (h1 : 1 ≤ b1) (h2 : 1 ≤ b2) :
    RunsAgree
      (demultiplexCore order1 source outputDataMap noisePath b1 forbiddenTags minMapQuality
        writeBed)
      (demultiplexCore order2 source outputDataMap noisePath b2 forbiddenTags minMapQuality
        writeBed) := by
  by_cases hdef : KeysDefined forbiddenTags minMapQuality source
  · obtain ⟨st1, e1, o1, g1, n1, -⟩ :=
      demultiplexCore_defined order1 hord1 source outputDataMap noisePath b1 forbiddenTags
        minMapQuality writeBed h1 hdef
    obtain ⟨st2, e2, o2, g2, n2, -⟩ :=
      demultiplexCore_defined order2 hord2 source outputDataMap noisePath b2 forbiddenTags
        minMapQuality writeBed h2 hdef
    refine Or.inr ⟨st1, st2, e1, e2, ?_, ?_, ?_⟩
    · rw [o1, o2]
    · intro k; rw [g1 k, g2 k]
    · rw [n1, n2]
  · exact Or.inl
      ⟨demultiplexCore_undefined order1 source outputDataMap noisePath b1 forbiddenTags
          minMapQuality writeBed h1 hdef,
        demultiplexCore_undefined order2 source outputDataMap noisePath b2 forbiddenTags
          minMapQuality writeBed h2 hdef⟩

/-! ## Writers and their files -/

theorem pathOf_incrementCounter (m : OutputDataMap) (key key' : StdString) :
    pathOf (incrementCounter m key') key = pathOf m key := by
  unfold pathOf incrementCounter
  rw [mapFind_mapUpdate]
  by_cases hk : key = key'
  · rw [if_pos hk]
    cases mapFind m key <;> rfl
  · rw [if_neg hk]

theorem writeOne_config (w : AlignmentsWriter) (r : BamAlignmentRecord) :
    (w.writeOne r).sinkPath_ = w.sinkPath_ ∧ (w.writeOne r).appendMode_ = w.appendMode_ ∧
      (w.writeOne r).writeBed_ = w.writeBed_ := by
  unfold AlignmentsWriter.writeOne
  cases w.writeBed_ <;> exact ⟨rfl, rfl, rfl⟩

theorem writeLoop_config :
    ∀ (records : List BamAlignmentRecord) (w : AlignmentsWriter) (written : Nat),
      (w.writeLoop written records).1.sinkPath_ = w.sinkPath_ ∧
      (w.writeLoop written records).1.appendMode_ = w.appendMode_ ∧
      (w.writeLoop written records).1.writeBed_ = w.writeBed_
  | [], _, _ => ⟨rfl, rfl, rfl⟩
  | r :: rest, w, written => by
    obtain ⟨h1, h2, h3⟩ := writeLoop_config rest (w.writeOne r) ((written + 1) % 2 ^ 64)
    obtain ⟨c1, c2, c3⟩ := writeOne_config w r
    simp only [AlignmentsWriter.writeLoop]
    exact ⟨h1.trans c1, h2.trans c2, h3.trans c3⟩

theorem writeGroups_attached (writeBed : Bool) :
    ∀ (l : List (StdString × List BamAlignmentRecord)) (outputDataMap : OutputDataMap)
      (writers : List (StdString × AlignmentsWriter)),
      (∀ p ∈ l, p.1 ∈ mapKeys outputDataMap) →
      (∀ kw ∈ writers, WriterAttached outputDataMap writeBed kw) →
      ∀ kw ∈ (writeGroups writeBed l outputDataMap writers).2,
        WriterAttached outputDataMap writeBed kw
  | [], _, _, _, hw => hw
  | p :: rest, outputDataMap, writers, h, hw => by
    have hp : p.1 ∈ mapKeys outputDataMap := h p (List.mem_cons_self _ _)
    obtain ⟨v, hv⟩ := (mapFind_isSome_iff p.1 outputDataMap).2 hp
    have hidx : mapIndex (([] : Path), 0) outputDataMap p.1 = (outputDataMap, v) := by
      simp [mapIndex, hv]
    simp only [writeGroups, hidx]
    apply writeGroups_attached writeBed rest outputDataMap _
      (fun q hq => h q (List.mem_cons_of_mem _ hq))
    intro kw hkw
    rcases List.mem_append.1 hkw with hk | hk
    · exact hw kw hk
    · rw [List.mem_singleton.1 hk]
      obtain ⟨c1, c2, c3⟩ := writeLoop_config p.2 (AlignmentsWriter.configure v.1 true writeBed) 0
      refine ⟨?_, ?_, ?_⟩
      · simp only [pathOf, hv, Option.map_some', AlignmentsWriter.write]
        rw [c1]; rfl
      · simp only [AlignmentsWriter.write]; rw [c2]; rfl
      · simp only [AlignmentsWriter.write]; rw [c3]; rfl

theorem classifyRecord_ok_inv (forbiddenTags : List StdString) (minMapQuality : Nat)
    (r : BamAlignmentRecord) (s s' : BatchState)
    (h : classifyRecord forbiddenTags minMapQuality r s = .ok s') :
    (∀ k, pathOf s'.outputDataMap k = pathOf s.outputDataMap k) ∧
    mapKeys s'.outputDataMap = mapKeys s.outputDataMap ∧
    (∀ k ∈ mapKeys s'.recordsMap, k ∈ mapKeys s.recordsMap ∨ k ∈ mapKeys s.outputDataMap) := by
  unfold classifyRecord at h
  split at h
  · split at h
    · cases h
    · next barcode _ =>
      cases hf : mapFind s.outputDataMap barcode with
      | none =>
        rw [hf] at h
        injection h with h'
        subst h'
        exact ⟨fun _ => rfl, rfl, fun k hk => Or.inl hk⟩
      | some v =>
        have hin : barcode ∈ mapKeys s.outputDataMap :=
          (mapFind_isSome_iff barcode _).1 ⟨v, hf⟩
        rw [hf] at h
        cases hg : mapFind s.recordsMap barcode with
        | none =>
          rw [hg] at h
          injection h with h'
          subst h'
          refine ⟨fun k => pathOf_incrementCounter _ _ _, mapKeys_incrementCounter _ _, ?_⟩
          intro k hk
          simp only [mapKeys, List.map_append, List.map_cons, List.map_nil, List.mem_append,
            List.mem_singleton] at hk
          rcases hk with hk | hk
          · exact Or.inl hk
          · exact Or.inr (hk ▸ hin)
        | some g =>
          rw [hg] at h
          injection h with h'
          subst h'
          refine ⟨fun k => pathOf_incrementCounter _ _ _, mapKeys_incrementCounter _ _, ?_⟩
          intro k hk
          left
          simpa only [mapKeys_mapUpdate] using hk
  · injection h with h'
    subst h'
    exact ⟨fun _ => rfl, rfl, fun k hk => Or.inl hk⟩

theorem classifyLoop_ok_inv (forbiddenTags : List StdString) (minMapQuality : Nat)
    (buffer : List BamAlignmentRecord) :
    ∀ (n i : Nat) (s s' : BatchState),
      classifyLoop forbiddenTags minMapQuality buffer i n s = .ok s' →
      (∀ k, pathOf s'.outputDataMap k = pathOf s.outputDataMap k) ∧
      mapKeys s'.outputDataMap = mapKeys s.outputDataMap ∧
      (∀ k ∈ mapKeys s'.recordsMap,
        k ∈ mapKeys s.recordsMap ∨ k ∈ mapKeys s.outputDataMap)
  | 0, _, s, s', h => by
    simp only [classifyLoop] at h
    injection h with h'
    subst h'
    exact ⟨fun _ => rfl, rfl, fun k hk => Or.inl hk⟩
  | n + 1, i, s, s', h => by
    unfold classifyLoop at h
    split at h
    · cases h
    · next record _ =>
      cases hc : classifyRecord forbiddenTags minMapQuality record s with
      | error e => rw [hc] at h; cases h
      | ok s1 =>
        rw [hc] at h
        obtain ⟨a1, a2, a3⟩ := classifyRecord_ok_inv forbiddenTags minMapQuality record s s1 hc
        obtain ⟨b1, b2, b3⟩ :=
          classifyLoop_ok_inv forbiddenTags minMapQuality buffer n (i + 1) s1 s' h
        refine ⟨fun k => (b1 k).trans (a1 k), b2.trans a2, ?_⟩
        intro k hk
        rcases b3 k hk with h1 | h1
        · exact a3 k h1
        · exact Or.inr (a2 ▸ h1)

theorem writerAttached_congr (m m' : OutputDataMap) (writeBed : Bool)
    (h : ∀ k, pathOf m k = pathOf m' k) (kw : StdString × AlignmentsWriter)
    (hkw : WriterAttached m writeBed kw) : WriterAttached m' writeBed kw :=
  ⟨(h kw.1) ▸ hkw.1, hkw.2.1, hkw.2.2⟩

theorem demultiplexLoop_attached (order : IterationOrder) (hord : ∀ l, (order l).Perm l)
    (forbiddenTags : List StdString) (minMapQuality : Nat) (writeBed : Bool) :
    ∀ (fuel : Nat) (st st' : CoreState),
      demultiplexLoop order forbiddenTags minMapQuality writeBed fuel st = .ok st' →
      (∀ kw ∈ st.mapWriters, WriterAttached st.outputDataMap writeBed kw) →
      (∀ kw ∈ st'.mapWriters, WriterAttached st.outputDataMap writeBed kw) ∧
      st'.noiseWriter.sinkPath_ = st.noiseWriter.sinkPath_ ∧
      st'.noiseWriter.appendMode_ = st.noiseWriter.appendMode_ ∧
      (∀ k, pathOf st'.outputDataMap k = pathOf st.outputDataMap k)
  | 0, _, _, h, _ => by simp [demultiplexLoop] at h
  | fuel + 1, st, st', h, hatt => by
    obtain ⟨src, odm, buf, nw, mw, rd⟩ := st
    simp only at hatt ⊢
    unfold demultiplexLoop at h
    rw [read_spec] at h
    simp only [] at h
    obtain ⟨n, hn⟩ : ∃ n, n = min buf.length src.length := ⟨_, rfl⟩
    rw [← hn] at h
    cases hb0 : (src.take n ++ buf.drop n)[0]? with
    | none => rw [hb0] at h; simp at h
    | some x0 =>
      rw [hb0] at h
      simp only [] at h
      cases hc : classifyLoop forbiddenTags minMapQuality (src.take n ++ buf.drop n) 0 n
          { outputDataMap := odm, recordsMap := [], noiseBuffer := [] } with
      | error e => rw [hc] at h; simp at h
      | ok batch =>
        rw [hc] at h
        simp only [] at h
        obtain ⟨i1, i2, i3⟩ := classifyLoop_ok_inv forbiddenTags minMapQuality _ _ _ _ _ hc
        simp only at i1 i2 i3
        have hmem : ∀ p ∈ order batch.recordsMap, p.1 ∈ mapKeys batch.outputDataMap := by
          intro p hp
          rw [i2]
          rcases i3 p.1 (List.mem_map_of_mem Prod.fst ((hord _).mem_iff.1 hp)) with h1 | h1
          · simp [mapKeys] at h1
          · exact h1
        obtain ⟨added, hw1, -⟩ :=
          writeGroups_spec writeBed (order batch.recordsMap) batch.outputDataMap mw hmem
        have hatt1 := writeGroups_attached writeBed (order batch.recordsMap)
          batch.outputDataMap mw hmem
          (fun kw hkw => writerAttached_congr odm batch.outputDataMap writeBed
            (fun k => (i1 k).symm) kw (hatt kw hkw))
        rw [hw1] at hatt1 h
        simp only at hatt1 h
        obtain ⟨c1, c2, -⟩ := writeLoop_config batch.noiseBuffer nw 0
        by_cases hpos : n > 0
        · simp only [hpos, if_true] at h
          obtain ⟨r1, r2, r3, r4⟩ :=
            demultiplexLoop_attached order hord forbiddenTags minMapQuality writeBed fuel _ st' h
              hatt1
          simp only at r1 r2 r3 r4
          refine ⟨?_, ?_, ?_, ?_⟩
          · intro kw hkw
            exact writerAttached_congr batch.outputDataMap odm writeBed i1 kw (r1 kw hkw)
          · rw [r2]; exact c1
          · rw [r3]; exact c2
          · intro k; rw [r4 k, i1 k]
        · simp only [hpos, if_false] at h
          injection h with h'
          subst h'
          refine ⟨?_, c1, c2, i1⟩
          intro kw hkw
          exact writerAttached_congr batch.outputDataMap odm writeBed i1 kw (hatt1 kw hkw)

theorem demultiplexCore_attached (order : IterationOrder) (hord : ∀ l, (order l).Perm l)
    (source : List BamAlignmentRecord) (outputDataMap : OutputDataMap) (noisePath : Path)
    (batchSize : Nat) (forbiddenTags : List StdString) (minMapQuality : Nat) (writeBed : Bool)
    (st : CoreState)
    (h : demultiplexCore order source outputDataMap noisePath batchSize forbiddenTags
      minMapQuality writeBed = .ok st) :
    (∀ kw ∈ st.mapWriters, WriterAttached outputDataMap writeBed kw) ∧
    st.noiseWriter.sinkPath_ = noisePath ∧ st.noiseWriter.appendMode_ = true ∧
    (∀ k, pathOf st.outputDataMap k = pathOf outputDataMap k) := by
  have := demultiplexLoop_attached order hord forbiddenTags minMapQuality writeBed _ _ st h
    (by intro kw hkw; simp at hkw)
  exact this

theorem foldl_fileAfter (path : Path) :
    ∀ (ws : List (StdString × AlignmentsWriter)) (content : List BamAlignmentRecord),
      (∀ kw ∈ ws, kw.2.appendMode_ = true) →
      ws.foldl
          (fun content kw => if kw.2.sinkPath_ = path then fileAfter content kw.2 else content)
          content =
        content ++ (ws.filter (fun kw => kw.2.sinkPath_ = path)).flatMap
          (fun kw => kw.2.sinkStream_)
  | [], content, _ => by simp
  | kw :: rest, content, h => by
    have hkw : kw.2.appendMode_ = true := h kw (List.mem_cons_self _ _)
    have ih := fun c => foldl_fileAfter path rest c (fun x hx => h x (List.mem_cons_of_mem _ hx))
    rw [List.foldl_cons, ih]
    by_cases hp : kw.2.sinkPath_ = path
    · simp [hp, fileAfter, hkw, List.filter_cons]
    · simp [hp, List.filter_cons]

theorem groupFileRecords_of_unshared (st : CoreState) (m : OutputDataMap) (writeBed : Bool)
    (key : StdString) (path : Path)
    (hatt : ∀ kw ∈ st.mapWriters, WriterAttached m writeBed kw)
    (hpath : pathOf m key = some path)
    (hunshared : ∀ k, pathOf m k = some path → k = key) :
    groupFileRecords st path = bucketRecords st key := by
  unfold groupFileRecords bucketRecords
  rw [foldl_fileAfter path st.mapWriters [] (fun kw hkw => (hatt kw hkw).2.1), List.nil_append]
  congr 1
  apply List.filter_congr
  intro kw hkw
  have h1 := (hatt kw hkw).1
  by_cases hk : kw.1 = key
  · have : kw.2.sinkPath_ = path := by
      rw [hk, hpath] at h1
      injection h1 with h1'
      exact h1'.symm
    simp [hk, this]
  · have : ¬ kw.2.sinkPath_ = path := by
      intro e
      rw [e] at h1
      exact hk (hunshared kw.1 h1)
    simp [hk, this]

theorem groupFileRecords_of_no_key (st : CoreState) (m : OutputDataMap) (writeBed : Bool)
    (path : Path)
    (hatt : ∀ kw ∈ st.mapWriters, WriterAttached m writeBed kw)
    (hnone : ∀ k, pathOf m k ≠ some path) :
    groupFileRecords st path = [] := by
  unfold groupFileRecords
  rw [foldl_fileAfter path st.mapWriters [] (fun kw hkw => (hatt kw hkw).2.1), List.nil_append]
  have : st.mapWriters.filter (fun kw => kw.2.sinkPath_ = path) = [] := by
    rw [List.filter_eq_nil_iff]
    intro kw hkw
    have h1 := (hatt kw hkw).1
    intro e
    have e' : kw.2.sinkPath_ = path := by simpa using e
    rw [e'] at h1
    exact hnone kw.1 h1
  rw [this]; rfl

theorem keysDefined_of_bool (forbiddenTags : List StdString) (minMapQuality : Nat)
    (source : List BamAlignmentRecord)
    (h : keysDefinedB forbiddenTags minMapQuality source = true) :
    KeysDefined forbiddenTags minMapQuality source := by
  intro r hr hf
  have := (List.all_eq_true.1 h) r hr
  rw [hf] at this
  cases hk : extractBarcode r with
  | ok k => exact ⟨k, rfl⟩
  | error e => rw [hk] at this; simp at this

theorem acceptedUnmatched_eq (forbiddenTags : List StdString) (minMapQuality : Nat)
    (keys : List StdString) (r : BamAlignmentRecord) (k : StdString)
    (hk : extractBarcode r = .ok k) :
    acceptedUnmatched forbiddenTags minMapQuality keys r =
      (filterAlignmentRecord r forbiddenTags minMapQuality && decide (k ∉ keys)) := by
  unfold acceptedUnmatched
  congr 1
  rw [hk, Bool.eq_iff_iff, List.all_eq_true]
  simp only [decide_eq_true_eq]
  constructor
  · intro h hin; exact h k hin rfl
  · intro h k' hk' e
    have : k = k' := by injection e
    exact h (this ▸ hk')

/-- Batch sizes and runs that finish: for one source, map, catch-all path and filter settings, two runs
with batch sizes of at least one (and any iteration orders of the per-batch
groups) end alike: both with the same map, hence the same counters, the same
records per bucket and the same catch-all records, or both undefined. -/
theorem demultiplexCore_batch_invariant (order1 order2 : IterationOrder)
    (hord1 : ∀ l, (order1 l).Perm l) (hord2 : ∀ l, (order2 l).Perm l)
    (source : List BamAlignmentRecord) (outputDataMap : OutputDataMap) (noisePath : Path)
    (b1 b2 : Nat) (forbiddenTags : List StdString) (minMapQuality : Nat) (writeBed : Bool)
    (h1 : 1 ≤ b1) (h2 : 1 ≤ b2) :
    RunsAgree
      (demultiplexCore order1 source outputDataMap noisePath b1 forbiddenTags minMapQuality
        writeBed)
      (demultiplexCore order2 source outputDataMap noisePath b2 forbiddenTags minMapQuality
        writeBed) :=
  runsAgree_of_same_source order1 order2 hord1 hord2 source outputDataMap noisePath b1 b2
    forbiddenTags minMapQuality writeBed h1 h2

/-- Example: batch sizes 1 and 3 on the example source. -/
theorem demultiplexCore_batch_invariant_witness :
    1 ≤ 1 ∧ 1 ≤ 3 ∧
    RunsAgree
      (demultiplexCore id exampleSource exampleCatalog exampleNoisePath 1 [tagXF] 20 false)
      (demultiplexCore List.reverse exampleSource exampleCatalog exampleNoisePath 3 [tagXF] 20
        false) :=
  ⟨by decide, by decide,
    demultiplexCore_batch_invariant id List.reverse (fun l => List.Perm.refl l)
      (fun l => List.reverse_perm l) exampleSource exampleCatalog exampleNoisePath 1 3 [tagXF] 20
      false (by decide) (by decide)⟩

/-! ## Rejected records and counters -/

theorem filter_insert_rejected (p : BamAlignmentRecord → Bool) (r : BamAlignmentRecord)
    (pre post : List BamAlignmentRecord) (h : p r = false) :
    (pre ++ r :: post).filter p = (pre ++ post).filter p := by
  simp [List.filter_append, List.filter_cons, h]

theorem routedKeys_insert_rejected (forbiddenTags : List StdString) (minMapQuality : Nat)
    (keys : List StdString) (r : BamAlignmentRecord) (pre post : List BamAlignmentRecord)
    (h : filterAlignmentRecord r forbiddenTags minMapQuality = false) :
    routedKeys forbiddenTags minMapQuality keys (pre ++ r :: post) =
      routedKeys forbiddenTags minMapQuality keys (pre ++ post) := by
  simp [routedKeys, List.filterMap_append, List.filterMap_cons, h]

theorem keysDefined_insert_rejected (forbiddenTags : List StdString) (minMapQuality : Nat)
    (r : BamAlignmentRecord) (pre post : List BamAlignmentRecord)
    (h : filterAlignmentRecord r forbiddenTags minMapQuality = false) :
    KeysDefined forbiddenTags minMapQuality (pre ++ r :: post) ↔
      KeysDefined forbiddenTags minMapQuality (pre ++ post) := by
  constructor
  · intro hd x hx
    apply hd x
    rcases List.mem_append.1 hx with hx | hx
    · exact List.mem_append_left _ hx
    · exact List.mem_append_right _ (List.mem_cons_of_mem _ hx)
  · intro hd x hx hfx
    rcases List.mem_append.1 hx with hx | hx
    · exact hd x (List.mem_append_left _ hx) hfx
    · rcases List.mem_cons.1 hx with e | hx
      · subst e; rw [h] at hfx; cases hfx
      · exact hd x (List.mem_append_right _ hx) hfx

/-- C3: a record on which `filterAlignmentRecord` returns `false` leaves the
state of the classification loop (map with its counters, groups, catch-all
buffer) as it was; a run over a source containing it ends like the run over
the source without it (same counters, same records per bucket and in the
catch-all); and the record is among the records of no bucket and not in the
catch-all of any finished run. -/
theorem rejected_record_ignored (order : IterationOrder) (hord : ∀ l, (order l).Perm l)
    (forbiddenTags : List StdString) (minMapQuality : Nat) (r : BamAlignmentRecord)
    (hrej : filterAlignmentRecord r forbiddenTags minMapQuality = false) :
    (∀ s, classifyRecord forbiddenTags minMapQuality r s = .ok s) ∧
    (∀ (pre post : List BamAlignmentRecord) (outputDataMap : OutputDataMap) (noisePath : Path)
        (batchSize : Nat) (writeBed : Bool), 1 ≤ batchSize →
      RunsAgree
        (demultiplexCore order (pre ++ r :: post) outputDataMap noisePath batchSize
          forbiddenTags minMapQuality writeBed)
        (demultiplexCore order (pre ++ post) outputDataMap noisePath batchSize
          forbiddenTags minMapQuality writeBed)) ∧
    (∀ (source : List BamAlignmentRecord) (outputDataMap : OutputDataMap) (noisePath : Path)
        (batchSize : Nat) (writeBed : Bool) (st : CoreState), 1 ≤ batchSize →
      demultiplexCore order source outputDataMap noisePath batchSize forbiddenTags
          minMapQuality writeBed = .ok st →
      (∀ k, r ∉ bucketRecords st k) ∧ r ∉ noiseRecords st) := by
  refine ⟨fun s => classifyRecord_rejected _ _ r s hrej, ?_, ?_⟩
  · intro pre post odm np b wb hb
    by_cases hdef : KeysDefined forbiddenTags minMapQuality (pre ++ post)
    · have hdef' := (keysDefined_insert_rejected _ _ r pre post hrej).2 hdef
      obtain ⟨st1, e1, o1, g1, n1, -⟩ :=
        demultiplexCore_defined order hord (pre ++ r :: post) odm np b forbiddenTags
          minMapQuality wb hb hdef'
      obtain ⟨st2, e2, o2, g2, n2, -⟩ :=
        demultiplexCore_defined order hord (pre ++ post) odm np b forbiddenTags
          minMapQuality wb hb hdef
      refine Or.inr ⟨st1, st2, e1, e2, ?_, ?_, ?_⟩
      · rw [o1, o2, routedKeys_insert_rejected _ _ _ r pre post hrej]
      · intro k
        rw [g1 k, g2 k, filter_insert_rejected _ r pre post (by simp [acceptedWithKey, hrej])]
      · rw [n1, n2, filter_insert_rejected _ r pre post (by simp [acceptedUnmatched, hrej])]
    · have hdef' : ¬ KeysDefined forbiddenTags minMapQuality (pre ++ r :: post) :=
        fun h => hdef ((keysDefined_insert_rejected _ _ r pre post hrej).1 h)
      exact Or.inl
        ⟨demultiplexCore_undefined order _ odm np b forbiddenTags minMapQuality wb hb hdef',
          demultiplexCore_undefined order _ odm np b forbiddenTags minMapQuality wb hb hdef⟩
  · intro source odm np b wb st hb hrun
    have hdef := keysDefined_of_ok order source odm np b forbiddenTags minMapQuality wb hb st hrun
    obtain ⟨st', e, -, g, n, -⟩ :=
      demultiplexCore_defined order hord source odm np b forbiddenTags minMapQuality wb hb hdef
    have hst : st' = st := by rw [e] at hrun; injection hrun
    subst hst
    constructor
    · intro k hmem
      rw [g k] at hmem
      split at hmem
      · have := (List.mem_filter.1 hmem).2
        simp [acceptedWithKey, hrej] at this
      · simp at hmem
    · intro hmem
      rw [n] at hmem
      have := (List.mem_filter.1 hmem).2
      simp [acceptedUnmatched, hrej] at this

/-- Witness for C3: record `R2` of the example source (mapping quality 10
below the minimum 20). -/
theorem rejected_record_ignored_witness :
    filterAlignmentRecord (mkRecord "R2" 10 [(tagCB, "BBB-1".toList)]) [tagXF] 20 = false ∧
    (∀ (source : List BamAlignmentRecord) (outputDataMap : OutputDataMap) (noisePath : Path)
        (batchSize : Nat) (writeBed : Bool) (st : CoreState), 1 ≤ batchSize →
      demultiplexCore id source outputDataMap noisePath batchSize [tagXF] 20 writeBed = .ok st →
      (∀ k, mkRecord "R2" 10 [(tagCB, "BBB-1".toList)] ∉ bucketRecords st k) ∧
        mkRecord "R2" 10 [(tagCB, "BBB-1".toList)] ∉ noiseRecords st) :=
  ⟨by decide,
    (rejected_record_ignored id (fun l => List.Perm.refl l) [tagXF] 20
      (mkRecord "R2" 10 [(tagCB, "BBB-1".toList)]) (by decide)).2.2⟩

theorem counterSum_incrementCounter (key : StdString) :
    ∀ m : OutputDataMap, key ∈ mapKeys m → counterSum m + 1 < 2 ^ 64 →
      counterSum (incrementCounter m key) = counterSum m + 1
  | [], h, _ => by simp [mapKeys] at h
  | (k, (p, c)) :: rest, h, hlt => by
    by_cases hk : k = key
    · have hc : (c + 1) % 2 ^ 64 = c + 1 := by
        apply Nat.mod_eq_of_lt
        simp only [counterSum, List.map_cons, List.sum_cons] at hlt
        omega
      simp only [incrementCounter, mapUpdate, hk, if_true, counterSum, List.map_cons,
        List.sum_cons, hc]
      omega
    · have hmem : key ∈ mapKeys rest := by
        simp only [mapKeys, List.map_cons, List.mem_cons] at h ⊢
        rcases h with e | h
        · exact absurd e.symm hk
        · exact h
      have hlt' : counterSum rest + 1 < 2 ^ 64 := by
        simp only [counterSum, List.map_cons, List.sum_cons] at hlt ⊢
        omega
      have ih := counterSum_incrementCounter key rest hmem hlt'
      simp only [incrementCounter, counterSum] at ih
      simp only [incrementCounter, mapUpdate, hk, if_false, counterSum, List.map_cons,
        List.sum_cons, ih]
      omega

theorem counterSum_foldl_incrementCounter :
    ∀ (ks : List StdString) (m : OutputDataMap), (∀ k ∈ ks, k ∈ mapKeys m) →
      counterSum m + ks.length < 2 ^ 64 →
      counterSum (ks.foldl incrementCounter m) = counterSum m + ks.length
  | [], _, _, _ => rfl
  | k :: ks, m, hmem, hlt => by
    simp only [List.length_cons] at hlt
    have h1 := counterSum_incrementCounter k m (hmem k (List.mem_cons_self _ _)) (by omega)
    have h2 := counterSum_foldl_incrementCounter ks (incrementCounter m k)
      (fun x hx => by
        rw [mapKeys_incrementCounter]; exact hmem x (List.mem_cons_of_mem _ hx))
      (by omega)
    rw [List.foldl_cons, h2, h1, List.length_cons]
    omega

theorem routedKeys_mem (forbiddenTags : List StdString) (minMapQuality : Nat)
    (keys : List StdString) (source : List BamAlignmentRecord) :
    ∀ k ∈ routedKeys forbiddenTags minMapQuality keys source, k ∈ keys := by
  intro k hk
  simp only [routedKeys, List.mem_filterMap] at hk
  obtain ⟨r, -, hr⟩ := hk
  split at hr
  · split at hr
    · split at hr
      · injection hr with e; exact e ▸ ‹_ ∈ keys›
      · cases hr
    · cases hr
  · cases hr

theorem routedKeys_length_add (forbiddenTags : List StdString) (minMapQuality : Nat)
    (keys : List StdString) :
    ∀ source : List BamAlignmentRecord, KeysDefined forbiddenTags minMapQuality source →
      (routedKeys forbiddenTags minMapQuality keys source).length +
          (source.filter (acceptedUnmatched forbiddenTags minMapQuality keys)).length =
        (source.filter (fun r => filterAlignmentRecord r forbiddenTags minMapQuality)).length
  | [], _ => rfl
  | r :: rs, hdef => by
    have ih := routedKeys_length_add forbiddenTags minMapQuality keys rs (keysDefined_cons hdef)
    simp only [routedKeys] at ih
    cases hf : filterAlignmentRecord r forbiddenTags minMapQuality with
    | false =>
      simp only [routedKeys, List.filterMap_cons, List.filter_cons, hf, acceptedUnmatched,
        Bool.false_and, if_false, Bool.false_eq_true]
      exact ih
    | true =>
      obtain ⟨k, hk⟩ := hdef r (List.mem_cons_self _ _) hf
      have hu := acceptedUnmatched_eq forbiddenTags minMapQuality keys r k hk
      rw [hf] at hu
      by_cases hin : k ∈ keys
      · simp only [hin, not_true_eq_false, decide_False, Bool.and_false] at hu
        simp only [routedKeys, List.filterMap_cons, List.filter_cons, hf, hk, hin, hu, if_true,
          List.length_cons, Bool.false_eq_true, if_false]
        omega
      · simp only [hin, not_false_eq_true, decide_True, Bool.and_true] at hu
        simp only [routedKeys, List.filterMap_cons, List.filter_cons, hf, hk, hin, hu, if_true,
          List.length_cons, if_false]
        omega

/-- Counters of a run that finishes: for a finished run (batch size at least one, key extraction defined
on the accepted records) started with all counters at zero on a source of
fewer than `2 ^ 64` records, the sum of the counters of the map plus the
number of records in the catch-all equals the number of accepted source
records. -/
theorem counters_plus_noise_eq_accepted (order : IterationOrder)
    (hord : ∀ l, (order l).Perm l)
    (source : List BamAlignmentRecord) (outputDataMap : OutputDataMap) (noisePath : Path)
    (batchSize : Nat) (forbiddenTags : List StdString) (minMapQuality : Nat) (writeBed : Bool)
    (hbatch : 1 ≤ batchSize) (hdef : KeysDefined forbiddenTags minMapQuality source)
    (hzero : ∀ e ∈ outputDataMap, e.2.2 = 0) (hlen : source.length < 2 ^ 64) :
    ∃ st, demultiplexCore order source outputDataMap noisePath batchSize forbiddenTags
          minMapQuality writeBed = .ok st ∧
      counterSum st.outputDataMap + (noiseRecords st).length =
        (source.filter (fun r => filterAlignmentRecord r forbiddenTags minMapQuality)).length := by
  obtain ⟨st, e, o, -, n, -⟩ :=
    demultiplexCore_defined order hord source outputDataMap noisePath batchSize forbiddenTags
      minMapQuality writeBed hbatch hdef
  refine ⟨st, e, ?_⟩
  have hsum0 : counterSum outputDataMap = 0 := by
    unfold counterSum
    apply List.sum_eq_zero
    intro x hx
    obtain ⟨e', he', rfl⟩ := List.mem_map.1 hx
    exact hzero e' he'
  have hle : (routedKeys forbiddenTags minMapQuality (mapKeys outputDataMap) source).length ≤
      source.length := List.length_filterMap_le _ _
  rw [o, n, counterSum_foldl_incrementCounter _ _ (routedKeys_mem _ _ _ _) (by omega), hsum0,
    Nat.zero_add]
  exact routedKeys_length_add forbiddenTags minMapQuality _ source hdef

/-- Example: the example source and catalog, batches of four. -/
theorem counters_plus_noise_eq_accepted_witness :
    1 ≤ 4 ∧ KeysDefined [tagXF] 20 exampleSource ∧ (∀ e ∈ exampleCatalog, e.2.2 = 0) ∧
    exampleSource.length < 2 ^ 64 ∧
    ∃ st, demultiplexCore id exampleSource exampleCatalog exampleNoisePath 4 [tagXF] 20
          false = .ok st ∧
      counterSum st.outputDataMap + (noiseRecords st).length =
        (exampleSource.filter (fun r => filterAlignmentRecord r [tagXF] 20)).length :=
  ⟨by decide, keysDefined_of_bool _ _ _ (by decide), by decide, by decide,
    counters_plus_noise_eq_accepted id (fun l => List.Perm.refl l) exampleSource exampleCatalog
      exampleNoisePath 4 [tagXF] 20 false (by decide) (keysDefined_of_bool _ _ _ (by decide))
      (by decide) (by decide)⟩

/-! ## Records without a barcode tag -/

theorem filter_insert_accepted (p : BamAlignmentRecord → Bool) (r : BamAlignmentRecord)
    (pre post : List BamAlignmentRecord) (h : p r = true) :
    (pre ++ r :: post).filter p = pre.filter p ++ r :: post.filter p := by
  simp [List.filter_append, List.filter_cons, h]

theorem keysDefined_insert_defined (forbiddenTags : List StdString) (minMapQuality : Nat)
    (r : BamAlignmentRecord) (pre post : List BamAlignmentRecord) (k : StdString)
    (hk : extractBarcode r = .ok k)
    (h : KeysDefined forbiddenTags minMapQuality (pre ++ post)) :
    KeysDefined forbiddenTags minMapQuality (pre ++ r :: post) := by
  intro x hx hfx
  rcases List.mem_append.1 hx with hx | hx
  · exact h x (List.mem_append_left _ hx) hfx
  · rcases List.mem_cons.1 hx with e | hx
    · subst e; exact ⟨k, hk⟩
    · exact h x (List.mem_append_right _ hx) hfx

/-- C8, as amended: a record that passes the filter and carries neither a
`CB` nor a `CR` tag gets the empty key; when the empty string is not a key of
the map, the classification step appends it to the catch-all buffer and
changes neither the map nor the groups, and a finished run over a source
containing the record has the counters and buckets of the run without it and
the record in the catch-all at its place in source order. -/
theorem untagged_record_to_noise (forbiddenTags : List StdString) (minMapQuality : Nat)
    (r : BamAlignmentRecord)
    (hacc : filterAlignmentRecord r forbiddenTags minMapQuality = true)
    (hnoCB : ¬ hasTag r tagCB) (hnoCR : ¬ hasTag r tagCR) :
    extractBarcode r = .ok [] ∧
    (∀ s : BatchState, [] ∉ mapKeys s.outputDataMap →
      classifyRecord forbiddenTags minMapQuality r s =
        .ok { s with noiseBuffer := s.noiseBuffer ++ [r] }) ∧
    (∀ (order : IterationOrder), (∀ l, (order l).Perm l) →
      ∀ (pre post : List BamAlignmentRecord) (outputDataMap : OutputDataMap) (noisePath : Path)
        (batchSize : Nat) (writeBed : Bool), 1 ≤ batchSize → [] ∉ mapKeys outputDataMap →
        KeysDefined forbiddenTags minMapQuality (pre ++ post) →
        ∃ st st0,
          demultiplexCore order (pre ++ r :: post) outputDataMap noisePath batchSize
            forbiddenTags minMapQuality writeBed = .ok st ∧
          demultiplexCore order (pre ++ post) outputDataMap noisePath batchSize
            forbiddenTags minMapQuality writeBed = .ok st0 ∧
          st.outputDataMap = st0.outputDataMap ∧
          (∀ k, bucketRecords st k = bucketRecords st0 k) ∧
          noiseRecords st =
            pre.filter (acceptedUnmatched forbiddenTags minMapQuality (mapKeys outputDataMap)) ++
              r :: post.filter
                (acceptedUnmatched forbiddenTags minMapQuality (mapKeys outputDataMap))) := by
  have hkey : extractBarcode r = .ok [] := by
    rw [extractBarcode_of_no_CB r hnoCB, (tagValue?_eq_none_iff r tagCR).2 hnoCR]; rfl
  refine ⟨hkey, ?_, ?_⟩
  · intro s hs
    exact classifyRecord_unmatched forbiddenTags minMapQuality r s [] hacc hkey hs
  · intro order hord pre post odm np b wb hb hempty hdef
    have hdef' := keysDefined_insert_defined forbiddenTags minMapQuality r pre post [] hkey hdef
    obtain ⟨st, e1, o1, g1, n1, -⟩ :=
      demultiplexCore_defined order hord (pre ++ r :: post) odm np b forbiddenTags
        minMapQuality wb hb hdef'
    obtain ⟨st0, e2, o2, g2, n2, -⟩ :=
      demultiplexCore_defined order hord (pre ++ post) odm np b forbiddenTags
        minMapQuality wb hb hdef
    have hunm : acceptedUnmatched forbiddenTags minMapQuality (mapKeys odm) r = true := by
      rw [acceptedUnmatched_eq forbiddenTags minMapQuality _ r [] hkey, hacc]
      simpa using hempty
    refine ⟨st, st0, e1, e2, ?_, ?_, ?_⟩
    · rw [o1, o2]
      congr 1
      simp [routedKeys, List.filterMap_append, List.filterMap_cons, hacc, hkey, hempty]
    · intro k
      rw [g1 k, g2 k]
      by_cases hk : k ∈ mapKeys odm
      · have hne : k ≠ [] := fun e => hempty (e ▸ hk)
        have : acceptedWithKey forbiddenTags minMapQuality k r = false := by
          have hne' : ¬ ([] : StdString) = k := fun e => hne e.symm
          simp [acceptedWithKey, hkey, hne']
        rw [if_pos hk, if_pos hk, filter_insert_rejected _ r pre post this]
      · rw [if_neg hk, if_neg hk]
    · rw [n1, filter_insert_accepted _ r pre post hunm]

/-- Witness for C8, as amended: record `R6` of the example source. -/
theorem untagged_record_to_noise_witness :
    filterAlignmentRecord (mkRecord "R6" 30 []) [tagXF] 20 = true ∧
    ¬ hasTag (mkRecord "R6" 30 []) tagCB ∧ ¬ hasTag (mkRecord "R6" 30 []) tagCR ∧
    extractBarcode (mkRecord "R6" 30 []) = .ok [] :=
  ⟨by decide, by decide, by decide,
    (untagged_record_to_noise [tagXF] 20 (mkRecord "R6" 30 []) (by decide) (by decide)
      (by decide)).1⟩

/-- C8, counterexample to the statement for every catalog: the metadata row `-1` gives
the map the empty key; the record `R6`, which passes the filter and has
neither tag, is then written to the bucket of the empty key, whose counter
becomes one, and the catch-all stays empty. -/
theorem untagged_record_counted_when_empty_key :
    (initializeOutputFiles "BARCODE\n-1\n".toList "out".toList ".bam".toList []).map
        (fun files => files.outputDataMap) = .ok [([], ("out.bam".toList, 0))] ∧
    filterAlignmentRecord (mkRecord "R6" 30 []) [tagXF] 20 = true ∧
    ¬ hasTag (mkRecord "R6" 30 []) tagCB ∧ ¬ hasTag (mkRecord "R6" 30 []) tagCR ∧
    (demultiplexCore id [mkRecord "R6" 30 []] [([], ("out.bam".toList, 0))]
        "out/noise.bam".toList 1 [tagXF] 20 false).map
        (fun st => (noiseRecords st, bucketRecords st [], counterOf st.outputDataMap [])) =
      .ok ([], [mkRecord "R6" 30 []], 1) := by
  decide

/-! ## Identifiers without a delimiter -/

/-- C9, the code at the failing inputs: for the `CB` value `"AAA"` and for
the metadata identifier `"AAA"`, neither containing `'-'`, the key with the
fallback would be `"AAA"`, but `extractBarcode` and `initializeOutputFiles`
build a string from an iterator range ending at `begin() + npos` and leave
defined behaviour. -/
theorem no_delimiter_is_undefined :
    canonicalKey "AAA".toList = "AAA".toList ∧
    extractBarcode (mkRecord "R" 30 [(tagCB, "AAA".toList)]) = .error .undefinedBehaviour ∧
    initializeOutputFiles "BARCODE\nAAA,1\n".toList "out".toList ".bam".toList [] =
      .error .undefinedBehaviour := by
  decide

/-! ## Metadata and the catalog -/

theorem extractUntil_fst (delim : Char) :
    ∀ t : List Char, (extractUntil t delim).1 = t.takeWhile (· ≠ delim)
  | [] => rfl
  | c :: cs => by
    by_cases hc : c = delim
    · simp [extractUntil, hc]
    · simp [extractUntil, hc, extractUntil_fst delim cs]

theorem extractUntil_some (delim : Char) :
    ∀ (t token after : List Char), extractUntil t delim = (token, some after) →
      t.splitOn delim = token :: after.splitOn delim ∧ after.length < t.length
  | [], _, _, h => by simp [extractUntil] at h
  | c :: cs, token, after, h => by
    by_cases hc : c = delim
    · simp only [extractUntil, hc, if_true, Prod.mk.injEq, Option.some.injEq] at h
      obtain ⟨h1, h2⟩ := h
      subst h1 h2 hc
      simp [List.splitOn, List.splitOnP_cons]
    · simp only [extractUntil, hc, if_false, Prod.mk.injEq] at h
      obtain ⟨h1, h2⟩ := h
      obtain ⟨ih1, ih2⟩ := extractUntil_some delim cs (extractUntil cs delim).1 after
        (by rw [← h2])
      subst h1
      have hbeq : (c == delim) = false := by simpa using hc
      simp only [List.splitOn] at ih1 ⊢
      simp only [List.splitOnP_cons, hbeq, ih1, List.length_cons]
      exact ⟨by simp [List.modifyHead], by omega⟩

theorem extractUntil_none (delim : Char) :
    ∀ (t token : List Char), extractUntil t delim = (token, none) → t.splitOn delim = [token]
  | [], _, h => by
    simp only [extractUntil, Prod.mk.injEq] at h
    rw [← h.1]; rfl
  | c :: cs, token, h => by
    by_cases hc : c = delim
    · simp [extractUntil, hc] at h
    · simp only [extractUntil, hc, if_false, Prod.mk.injEq] at h
      obtain ⟨h1, h2⟩ := h
      have ih := extractUntil_none delim cs (extractUntil cs delim).1 (by rw [← h2])
      subst h1
      have hbeq : (c == delim) = false := by simpa using hc
      simp only [List.splitOn] at ih ⊢
      simp [List.splitOnP_cons, hbeq, ih, List.modifyHead]

theorem ofLine_barcode (line : StdString) :
    (CellMetricsRecord.ofLine line).barcode = firstField line := by
  unfold CellMetricsRecord.ofLine getline firstField
  rw [← extractUntil_fst]
  simp only [IStream.ofText, Bool.or_self, Bool.false_eq_true, if_false]
  rcases h : extractUntil line ',' with ⟨token, _ | after⟩ <;> rfl

/-- The records `readRecords` makes of a sequence of lines. -/
theorem readRecordsLoop_spec :
    ∀ (fuel : Nat) (rest line : StdString) (records : List CellMetricsRecord),
      rest.length + 2 ≤ fuel →
      readRecordsLoop fuel { rest := rest, eofbit := false, failbit := false } line records =
        .ok (records ++
          ((rest.splitOn '\n').filter (fun l => l ≠ [])).map CellMetricsRecord.ofLine)
  | 0, _, _, _, h => by omega
  | fuel + 1, rest, line, records, hfuel => by
    rcases hx : extractUntil rest '\n' with ⟨token, _ | after⟩
    · -- the end of the text was reached
      have hsplit := extractUntil_none '\n' rest token hx
      obtain ⟨fuel', rfl⟩ : ∃ f, fuel = f + 1 := ⟨fuel - 1, by omega⟩
      simp only [readRecordsLoop, getline, hx, hsplit, Bool.or_self, Bool.false_eq_true,
        if_false, Bool.not_false, if_true, Bool.not_true]
      by_cases ht : token = [] <;> simp [ht]
    · obtain ⟨hsplit, hlen⟩ := extractUntil_some '\n' rest token after hx
      have ih := readRecordsLoop_spec fuel after token
        (if token ≠ [] then records ++ [CellMetricsRecord.ofLine token] else records)
        (by omega)
      simp only [readRecordsLoop, getline, hx, hsplit, Bool.or_self, Bool.false_eq_true,
        if_false, Bool.not_false, if_true, ih]
      by_cases ht : token = [] <;> simp [ht]

theorem readRecords_spec (text : StdString) :
    CellMetricsRecord.readRecords text = .ok ((dataRows text).map CellMetricsRecord.ofLine) := by
  unfold CellMetricsRecord.readRecords dataRows
  rcases hx : extractUntil text '\n' with ⟨token, _ | after⟩
  · have hsplit := extractUntil_none '\n' text token hx
    simp [getline, IStream.ofText, hx, hsplit, readRecordsLoop]
  · obtain ⟨hsplit, hlen⟩ := extractUntil_some '\n' text token after hx
    simp only [getline, IStream.ofText, hx, hsplit, Bool.or_self, Bool.false_eq_true, if_false,
      List.tail_cons]
    rw [readRecordsLoop_spec (text.length + 2) after token [] (by omega)]
    simp

theorem mapFind_mem {β : Type} (key : StdString) (v : β) :
    ∀ m : List (StdString × β), mapFind m key = some v → (key, v) ∈ m
  | [], h => by simp [mapFind] at h
  | (k, w) :: rest, h => by
    by_cases hk : k = key
    · simp only [mapFind, hk, if_true, Option.some.injEq] at h
      subst hk h
      exact List.mem_cons_self _ _
    · simp only [mapFind, hk, if_false] at h
      exact List.mem_cons_of_mem _ (mapFind_mem key v rest h)

theorem mapEmplace_keys {β : Type} (m : List (StdString × β)) (key key' : StdString) (v : β) :
    key' ∈ mapKeys (mapEmplace m key v) ↔ key' ∈ mapKeys m ∨ key' = key := by
  unfold mapEmplace
  cases hf : mapFind m key with
  | some w =>
    have hin : key ∈ mapKeys m := (mapFind_isSome_iff key m).1 ⟨w, hf⟩
    constructor
    · exact Or.inl
    · rintro (h | h)
      · exact h
      · exact h ▸ hin
  | none =>
    simp only [mapKeys, List.map_append, List.map_cons, List.map_nil, List.mem_append,
      List.mem_singleton]

theorem mapEmplace_nodup {β : Type} (m : List (StdString × β)) (key : StdString) (v : β)
    (h : (mapKeys m).Nodup) : (mapKeys (mapEmplace m key v)).Nodup := by
  unfold mapEmplace
  cases hf : mapFind m key with
  | some w => exact h
  | none =>
    have hnot : key ∉ mapKeys m := (mapFind_eq_none_iff key m).1 hf
    simp only [mapKeys, List.map_append, List.map_cons, List.map_nil] at hnot h ⊢
    rw [List.nodup_append]
    refine ⟨h, List.nodup_singleton _, ?_⟩
    intro a ha hb
    rw [List.mem_singleton] at hb
    exact hnot (hb ▸ ha)

theorem mapEmplace_mem {β : Type} (m : List (StdString × β)) (key : StdString) (v : β)
    (e : StdString × β) (h : e ∈ mapEmplace m key v) : e ∈ m ∨ e = (key, v) := by
  unfold mapEmplace at h
  cases hf : mapFind m key with
  | some w => rw [hf] at h; exact Or.inl h
  | none =>
    rw [hf] at h
    simpa only [List.mem_append, List.mem_singleton] using h

theorem initializeLoop_spec (outputDirPath outputExtension : Path) :
    ∀ (records : List CellMetricsRecord) (m : OutputDataMap) (forwarded : List Path),
      (∀ r ∈ records, '-' ∈ r.barcode) →
      initializeLoop outputDirPath outputExtension records m forwarded =
        .ok (emplaceAll outputDirPath outputExtension records m,
          forwarded ++ records.map (fun r =>
            catalogPath outputDirPath outputExtension (canonicalKey r.barcode)))
  | [], m, forwarded, _ => by simp [initializeLoop, emplaceAll]
  | r :: rest, m, forwarded, h => by
    have hr : '-' ∈ r.barcode := h r (List.mem_cons_self _ _)
    have ih := initializeLoop_spec outputDirPath outputExtension rest
      (mapEmplace m (canonicalKey r.barcode)
        (catalogPath outputDirPath outputExtension (canonicalKey r.barcode), 0))
      (forwarded ++ [catalogPath outputDirPath outputExtension (canonicalKey r.barcode)])
      (fun x hx => h x (List.mem_cons_of_mem _ hx))
    simp only [initializeLoop, stringFromRange_of_mem r.barcode hr]
    simp only [catalogPath] at ih ⊢
    rw [ih]
    simp [emplaceAll, catalogPath]

theorem emplaceAll_spec (outputDirPath outputExtension : Path) :
    ∀ (records : List CellMetricsRecord) (m : OutputDataMap),
      (∀ k, k ∈ mapKeys (emplaceAll outputDirPath outputExtension records m) ↔
        k ∈ mapKeys m ∨ ∃ r ∈ records, k = canonicalKey r.barcode) ∧
      ((mapKeys m).Nodup →
        (mapKeys (emplaceAll outputDirPath outputExtension records m)).Nodup) ∧
      ((∀ e ∈ m, e.2 = (catalogPath outputDirPath outputExtension e.1, 0)) →
        ∀ e ∈ emplaceAll outputDirPath outputExtension records m,
          e.2 = (catalogPath outputDirPath outputExtension e.1, 0))
  | [], m => by simp [emplaceAll]
  | r :: rest, m => by
    obtain ⟨ih1, ih2, ih3⟩ := emplaceAll_spec outputDirPath outputExtension rest
      (mapEmplace m (canonicalKey r.barcode)
        (catalogPath outputDirPath outputExtension (canonicalKey r.barcode), 0))
    have hunfold : emplaceAll outputDirPath outputExtension (r :: rest) m =
        emplaceAll outputDirPath outputExtension rest
          (mapEmplace m (canonicalKey r.barcode)
            (catalogPath outputDirPath outputExtension (canonicalKey r.barcode), 0)) := rfl
    rw [hunfold]
    refine ⟨?_, ?_, ?_⟩
    · intro k
      rw [ih1 k, mapEmplace_keys]
      constructor
      · rintro ((h | h) | ⟨x, hx, h⟩)
        · exact Or.inl h
        · exact Or.inr ⟨r, List.mem_cons_self _ _, h⟩
        · exact Or.inr ⟨x, List.mem_cons_of_mem _ hx, h⟩
      · rintro (h | ⟨x, hx, h⟩)
        · exact Or.inl (Or.inl h)
        · rcases List.mem_cons.1 hx with e | hx
          · exact Or.inl (Or.inr (e ▸ h))
          · exact Or.inr ⟨x, hx, h⟩
    · intro hnd
      exact ih2 (mapEmplace_nodup m _ _ hnd)
    · intro hq
      apply ih3
      intro e he
      rcases mapEmplace_mem m _ _ e he with h | h
      · exact hq e h
      · rw [h]

/-- C10: when the first comma-separated field of every non-empty line after
the header line contains `'-'`, `readRecords` followed by
`initializeOutputFiles` (on an empty map) returns a map whose keys are exactly
the prefixes before the first `'-'` of those fields, each key once; every
entry has the counter `0` and the path `outputDirPath / key` followed by the
extension. -/
theorem initializeOutputFiles_catalog (text : StdString) (outputDirPath outputExtension : Path)
    (hdash : ∀ row ∈ dataRows text, '-' ∈ firstField row) :
    ∃ files, initializeOutputFiles text outputDirPath outputExtension [] = .ok files ∧
      (∀ k, k ∈ mapKeys files.outputDataMap ↔
        ∃ row ∈ dataRows text, k = canonicalKey (firstField row)) ∧
      (mapKeys files.outputDataMap).Nodup ∧
      (∀ k ∈ mapKeys files.outputDataMap,
        mapFind files.outputDataMap k =
          some ((outputDirPath.join k).concat outputExtension, 0)) ∧
      (∀ e ∈ files.outputDataMap,
        e.2 = ((outputDirPath.join e.1).concat outputExtension, 0)) := by
  have hrecs : ∀ r ∈ (dataRows text).map CellMetricsRecord.ofLine, '-' ∈ r.barcode := by
    intro r hr
    obtain ⟨row, hrow, rfl⟩ := List.mem_map.1 hr
    rw [ofLine_barcode]
    exact hdash row hrow
  obtain ⟨h1, h2, h3⟩ := emplaceAll_spec outputDirPath outputExtension
    ((dataRows text).map CellMetricsRecord.ofLine) []
  have hq := h3 (by simp)
  refine ⟨{ outputDataMap := emplaceAll outputDirPath outputExtension
              ((dataRows text).map CellMetricsRecord.ofLine) [],
            noisePath := (outputDirPath.join noiseName).concat outputExtension,
            forwarded :=
              ([] ++ ((dataRows text).map CellMetricsRecord.ofLine).map (fun r =>
                catalogPath outputDirPath outputExtension (canonicalKey r.barcode))) ++
                [(outputDirPath.join noiseName).concat outputExtension] }, ?_, ?_, ?_, ?_, ?_⟩
  · unfold initializeOutputFiles
    rw [readRecords_spec]
    simp only [initializeLoop_spec outputDirPath outputExtension _ [] [] hrecs]
  · intro k
    rw [h1 k]
    constructor
    · rintro (h | ⟨r, hr, h⟩)
      · simp [mapKeys] at h
      · obtain ⟨row, hrow, rfl⟩ := List.mem_map.1 hr
        exact ⟨row, hrow, by rw [h, ofLine_barcode]⟩
    · rintro ⟨row, hrow, h⟩
      exact Or.inr ⟨CellMetricsRecord.ofLine row, List.mem_map_of_mem _ hrow,
        by rw [h, ofLine_barcode]⟩
  · exact h2 (by simp [mapKeys])
  · intro k hk
    obtain ⟨v, hv⟩ := (mapFind_isSome_iff k _).2 hk
    have := hq (k, v) (mapFind_mem k v _ hv)
    simp only [catalogPath] at this
    rw [hv, this]
  · intro e he
    exact hq e he

/-- Witness for C10: a metadata text with a header, an empty line and two
identifiers sharing the prefix `"AAA"`. -/
theorem initializeOutputFiles_catalog_witness :
    (∀ row ∈ dataRows "BARCODE,cell_id\nAAA-1,0\n\nBBB-1,1\nAAA-2,2\n".toList,
      '-' ∈ firstField row) ∧
    ∃ files, initializeOutputFiles "BARCODE,cell_id\nAAA-1,0\n\nBBB-1,1\nAAA-2,2\n".toList
        "out".toList ".bam".toList [] = .ok files ∧
      (∀ k, k ∈ mapKeys files.outputDataMap ↔
        ∃ row ∈ dataRows "BARCODE,cell_id\nAAA-1,0\n\nBBB-1,1\nAAA-2,2\n".toList,
          k = canonicalKey (firstField row)) ∧
      (mapKeys files.outputDataMap).Nodup ∧
      (∀ k ∈ mapKeys files.outputDataMap,
        mapFind files.outputDataMap k =
          some ((Path.join "out".toList k).concat ".bam".toList, 0)) ∧
      (∀ e ∈ files.outputDataMap,
        e.2 = ((Path.join "out".toList e.1).concat ".bam".toList, 0)) :=
  ⟨by decide,
    initializeOutputFiles_catalog "BARCODE,cell_id\nAAA-1,0\n\nBBB-1,1\nAAA-2,2\n".toList
      "out".toList ".bam".toList (by decide)⟩

/-! ## Writer and reader on their own -/

theorem writeOne_bedOut (w : AlignmentsWriter) (r : BamAlignmentRecord) :
    (w.writeOne r).bedOut_ = w.bedOut_ ++ (if w.writeBed_ = true then [bedSummary r] else []) ∧
      (w.writeOne r).writeBed_ = w.writeBed_ := by
  unfold AlignmentsWriter.writeOne bedSummary
  cases hb : w.writeBed_
  · simp [hb]
  · simp [hb, Int.add_comm]

theorem writeLoop_spec :
    ∀ (records : List BamAlignmentRecord) (w : AlignmentsWriter) (written : Nat),
      written + records.length < 2 ^ 64 →
      (w.writeLoop written records).2 = written + records.length ∧
      (w.writeLoop written records).1.bedOut_ =
        w.bedOut_ ++ (if w.writeBed_ = true then records.map bedSummary else [])
  | [], w, written, _ => by simp [AlignmentsWriter.writeLoop]
  | r :: rest, w, written, h => by
    simp only [List.length_cons] at h
    have hmod : (written + 1) % 2 ^ 64 = written + 1 := Nat.mod_eq_of_lt (by omega)
    obtain ⟨h1, h2⟩ := writeLoop_spec rest (w.writeOne r) (written + 1) (by omega)
    obtain ⟨b1, b2⟩ := writeOne_bedOut w r
    simp only [AlignmentsWriter.writeLoop, hmod, h1, h2, b1, b2, List.length_cons]
    refine ⟨by omega, ?_⟩
    cases w.writeBed_ <;> simp

/-- C16: `AlignmentsWriter::write` on fewer than `2 ^ 64` records appends the
records to the primary sink in the order given and returns their number; with
the secondary output enabled it appends, in the same order, one summary per
record made of the reference name, `beginPos` and `beginPos` plus the
alignment length on the reference; with the secondary output disabled it
appends no summary. -/
theorem write_emits_records_and_summaries (w : AlignmentsWriter)
    (records : List BamAlignmentRecord) (hlen : records.length < 2 ^ 64) :
    (w.write records).1.sinkStream_ = w.sinkStream_ ++ records ∧
    (w.write records).2 = records.length ∧
    (w.writeBed_ = true →
      (w.write records).1.bedOut_ = w.bedOut_ ++ records.map bedSummary ∧
      ((w.write records).1.bedOut_.length = w.bedOut_.length + records.length)) ∧
    (w.writeBed_ = false → (w.write records).1.bedOut_ = w.bedOut_) := by
  obtain ⟨h1, h2⟩ := writeLoop_spec records w 0 (by omega)
  refine ⟨write_sinkStream w records, ?_, ?_, ?_⟩
  · simpa [AlignmentsWriter.write] using h1
  · intro hb
    have : (w.write records).1.bedOut_ = w.bedOut_ ++ records.map bedSummary := by
      simpa [AlignmentsWriter.write, hb] using h2
    exact ⟨this, by rw [this]; simp⟩
  · intro hb
    simpa [AlignmentsWriter.write, hb] using h2

/-- Witness for C16: the four records of the scenario through a writer with
the secondary output enabled. -/
theorem write_emits_records_and_summaries_witness :
    scenarioSource.length < 2 ^ 64 ∧
    ((AlignmentsWriter.configure exampleNoisePath true true).write scenarioSource).1.sinkStream_ =
      scenarioSource ∧
    ((AlignmentsWriter.configure exampleNoisePath true true).write scenarioSource).2 = 4 ∧
    ((AlignmentsWriter.configure exampleNoisePath true true).write scenarioSource).1.bedOut_ =
      scenarioSource.map bedSummary :=
  ⟨by decide,
    (write_emits_records_and_summaries (AlignmentsWriter.configure exampleNoisePath true true)
      scenarioSource (by decide)).1,
    (write_emits_records_and_summaries (AlignmentsWriter.configure exampleNoisePath true true)
      scenarioSource (by decide)).2.1,
    ((write_emits_records_and_summaries (AlignmentsWriter.configure exampleNoisePath true true)
      scenarioSource (by decide)).2.2.1 rfl).1⟩

/-- C17: with `c` buffer slots and `r` records left, `AlignmentsReader::read`
returns `min c r`, puts the next `min c r` records of the source in order
into the first slots and keeps the other slots, and leaves the source without
those records; it returns zero exactly when the range is empty or the source
is at its end. -/
theorem read_fills_first_slots (stream range : List BamAlignmentRecord) :
    (AlignmentsReader.read stream range).1 = min range.length stream.length ∧
    (AlignmentsReader.read stream range).2.1 =
      stream.take (min range.length stream.length) ++
        range.drop (min range.length stream.length) ∧
    (AlignmentsReader.read stream range).2.1.length = range.length ∧
    (AlignmentsReader.read stream range).2.2 = stream.drop (min range.length stream.length) ∧
    (AlignmentsReader.read stream range).2.2.length =
      stream.length - min range.length stream.length ∧
    ((AlignmentsReader.read stream range).1 = 0 ↔ (range.length = 0 ∨ stream = [])) := by
  rw [read_spec]
  refine ⟨rfl, rfl, ?_, rfl, ?_, ?_⟩
  · simp only [List.length_append, List.length_take, List.length_drop]; omega
  · simp only [List.length_drop]
  · simp only []
    constructor
    · intro h
      rcases Nat.lt_or_ge 0 range.length with hr | hr
      · right
        apply List.length_eq_zero.1
        omega
      · left; omega
    · rintro (h | h)
      · omega
      · subst h; simp

/-! ## Exit status and malformed metadata rows -/

/-- C14, the code at the failing input: when the SeqAn parser answers
`PARSE_ERROR` (malformed or missing option values), `main` returns `0`, the
status it also returns for a help-only invocation and for a completed
pipeline; an invalid path detected by `parseCommandLine` itself gives `-1`. -/
theorem main_returns_zero_on_parse_error :
    main { seqanParse := .PARSE_ERROR, barcodeCSVIsRegularFile := true,
           outputDirIsDirectory := true, pipelineCompletes := true } = .returned 0 ∧
    main { seqanParse := .PARSE_HELP, barcodeCSVIsRegularFile := true,
           outputDirIsDirectory := true, pipelineCompletes := true } = .returned 0 ∧
    main { seqanParse := .PARSE_OK, barcodeCSVIsRegularFile := true,
           outputDirIsDirectory := true, pipelineCompletes := true } = .returned 0 ∧
    main { seqanParse := .PARSE_OK, barcodeCSVIsRegularFile := false,
           outputDirIsDirectory := true, pipelineCompletes := true } = .returned (-1) ∧
    main { seqanParse := .PARSE_OK, barcodeCSVIsRegularFile := true,
           outputDirIsDirectory := false, pipelineCompletes := true } = .returned (-1) := by
  decide

/-- C15, the code at the failing input: the row `,1` (empty first field) is
not skipped by `readRecords`, which makes a record with the empty identifier
of it; `initializeOutputFiles` then searches `'-'` in the empty identifier
and leaves defined behaviour, so that no row after it is loaded either. -/
theorem empty_identifier_row_not_skipped :
    CellMetricsRecord.readRecords "BARCODE,cell_id\n,1\nAAA-1,2\n".toList =
      .ok [{ barcode := [] }, { barcode := "AAA-1".toList }] ∧
    initializeOutputFiles "BARCODE,cell_id\n,1\nAAA-1,2\n".toList "out".toList ".bam".toList [] =
      .error .undefinedBehaviour ∧
    (initializeOutputFiles "BARCODE,cell_id\nAAA-1,2\n".toList "out".toList ".bam".toList []).map
        (fun files => files.outputDataMap) =
      .ok [("AAA".toList, ("out/AAA.bam".toList, 0))] := by
  decide

/-! ## Output paths -/

theorem catalogPath_injective (outputDirPath outputExtension : Path) (k1 k2 : StdString)
    (h1 : k1.head? ≠ some '/') (h2 : k2.head? ≠ some '/')
    (h : catalogPath outputDirPath outputExtension k1 =
      catalogPath outputDirPath outputExtension k2) : k1 = k2 := by
  unfold catalogPath Path.concat at h
  have hj : Path.join outputDirPath k1 = Path.join outputDirPath k2 :=
    List.append_cancel_right h
  unfold Path.join at hj
  by_cases hd : outputDirPath ≠ [] ∧ outputDirPath.getLast? ≠ some '/'
  · by_cases e1 : k1 = [] <;> by_cases e2 : k2 = []
    · rw [e1, e2]
    · simp [hd, e1, e2, h2] at hj
    · simp [hd, e1, e2, h1] at hj
    · have hj' : outputDirPath ++ '/' :: k1 = outputDirPath ++ '/' :: k2 := by
        simpa [hd, e1, e2, h1, h2] using hj
      have := List.append_cancel_left hj'
      injection this
  · have c1 : ¬ (outputDirPath ≠ [] ∧ outputDirPath.getLast? ≠ some '/' ∧ k1 ≠ [] ∧
        k1.head? ≠ some '/') := fun c => hd ⟨c.1, c.2.1⟩
    have c2 : ¬ (outputDirPath ≠ [] ∧ outputDirPath.getLast? ≠ some '/' ∧ k2 ≠ [] ∧
        k2.head? ≠ some '/') := fun c => hd ⟨c.1, c.2.1⟩
    rw [if_neg c1, if_neg c2] at hj
    exact List.append_cancel_left hj

theorem paths_eq_map_keys (outputDirPath outputExtension : Path) :
    ∀ m : OutputDataMap,
      (∀ e ∈ m, e.2 = (catalogPath outputDirPath outputExtension e.1, 0)) →
      m.map (fun e => e.2.1) = (mapKeys m).map (catalogPath outputDirPath outputExtension)
  | [], _ => rfl
  | e :: rest, h => by
    have he := h e (List.mem_cons_self _ _)
    have ih := paths_eq_map_keys outputDirPath outputExtension rest
      (fun x hx => h x (List.mem_cons_of_mem _ hx))
    simp only [mapKeys] at ih
    simp only [List.map_cons, mapKeys, he, ih]

/-! ## Sinks of pathnames -/

theorem pathPieces_ne_nil : ∀ p : Path, pathPieces p ≠ []
  | [] => by simp [pathPieces]
  | c :: cs => by
    unfold pathPieces
    split
    · simp
    · split <;> simp

theorem pathPieces_append_sep : ∀ (a b : Path),
    pathPieces (a ++ '/' :: b) = pathPieces a ++ pathPieces b
  | [], b => by simp [pathPieces]
  | c :: a, b => by
    have ih := pathPieces_append_sep a b
    by_cases hc : c = '/'
    · simp only [List.cons_append, pathPieces, hc, if_true, List.append_eq, ih]
    · cases hp : pathPieces a with
      | nil => exact absurd hp (pathPieces_ne_nil a)
      | cons piece rest =>
        simp only [List.cons_append, pathPieces, hc, if_false, List.append_eq, ih, hp]

theorem pathPieces_noslash_append (b : Path) (e0 : StdString) (rest : List StdString)
    (hb : pathPieces b = e0 :: rest) :
    ∀ n : StdString, '/' ∉ n → pathPieces (n ++ b) = (n ++ e0) :: rest
  | [], _ => by simpa using hb
  | c :: n, h => by
    have hc : c ≠ '/' := fun e => h (e ▸ List.mem_cons_self _ _)
    have ih := pathPieces_noslash_append b e0 rest hb n
      (fun e => h (List.mem_cons_of_mem _ e))
    simp only [List.cons_append, pathPieces, hc, if_false, List.append_eq, ih]

theorem join_shape (outputDirPath : Path) :
    ∃ d : Path, (d = [] ∨ ∃ d', d = d' ++ ['/']) ∧
      ∀ k : StdString, k ≠ [] → k.head? ≠ some '/' → outputDirPath.join k = d ++ k := by
  by_cases hd : outputDirPath ≠ [] ∧ outputDirPath.getLast? ≠ some '/'
  · refine ⟨outputDirPath ++ ['/'], Or.inr ⟨outputDirPath, rfl⟩, ?_⟩
    intro k h1 h2
    unfold Path.join
    rw [if_pos ⟨hd.1, hd.2, h1, h2⟩]
    simp
  · refine ⟨outputDirPath, ?_, ?_⟩
    · by_cases he : outputDirPath = []
      · exact Or.inl he
      · right
        have hl : outputDirPath.getLast? = some '/' := by
          by_contra hne
          exact hd ⟨he, hne⟩
        obtain ⟨d', hd'⟩ := List.getLast?_eq_some_iff.1 hl
        exact ⟨d', hd'⟩
    · intro k _ _
      unfold Path.join
      rw [if_neg (fun c => hd ⟨c.1, c.2.1⟩)]

theorem head_of_noslash (k : StdString) (h : '/' ∉ k) : k.head? ≠ some '/' := by
  cases k with
  | nil => simp
  | cons c cs =>
    intro e
    simp only [List.head?_cons, Option.some.injEq] at e
    exact h (e ▸ List.mem_cons_self _ _)

theorem sinkId_catalogPath_pieces (outputDirPath outputExtension : Path) :
    ∃ (base : List StdString) (e0 : StdString) (rest : List StdString),
      ∀ k : StdString, k ≠ [] → '/' ∉ k →
        (sinkId (catalogPath outputDirPath outputExtension k)).2 =
          base ++ ((k ++ e0) :: rest).filter (fun c => decide (c ≠ [] ∧ c ≠ ['.'])) := by
  obtain ⟨d, hd, hj⟩ := join_shape outputDirPath
  cases hp : pathPieces outputExtension with
  | nil => exact absurd hp (pathPieces_ne_nil _)
  | cons e0 rest =>
    rcases hd with rfl | ⟨d', rfl⟩
    · refine ⟨[], e0, rest, ?_⟩
      intro k h1 h2
      unfold sinkId catalogPath Path.concat
      rw [hj k h1 (head_of_noslash k h2), List.nil_append,
        pathPieces_noslash_append _ e0 rest hp k h2, List.nil_append]
    · refine ⟨(pathPieces d').filter (fun c => decide (c ≠ [] ∧ c ≠ ['.'])), e0, rest, ?_⟩
      intro k h1 h2
      unfold sinkId catalogPath Path.concat
      rw [hj k h1 (head_of_noslash k h2)]
      have : d' ++ ['/'] ++ k ++ outputExtension = d' ++ '/' :: (k ++ outputExtension) := by
        simp
      rw [this, pathPieces_append_sep, pathPieces_noslash_append _ e0 rest hp k h2,
        List.filter_append]

theorem sinkId_catalogPath_injective (outputDirPath outputExtension : Path)
    (k1 k2 : StdString) (h1 : k1 ≠ []) (s1 : '/' ∉ k1) (h2 : k2 ≠ []) (s2 : '/' ∉ k2)
    (h : sinkId (catalogPath outputDirPath outputExtension k1) =
      sinkId (catalogPath outputDirPath outputExtension k2)) : k1 = k2 := by
  obtain ⟨base, e0, rest, hb⟩ := sinkId_catalogPath_pieces outputDirPath outputExtension
  have h' := congrArg Prod.snd h
  rw [hb k1 h1 s1, hb k2 h2 s2] at h'
  have hf := List.append_cancel_left h'
  have n1 : k1 ++ e0 ≠ [] := by simp [h1]
  have n2 : k2 ++ e0 ≠ [] := by simp [h2]
  by_cases p1 : k1 ++ e0 = ['.'] <;> by_cases p2 : k2 ++ e0 = ['.']
  · exact List.append_cancel_right (p1.trans p2.symm)
  · rw [List.filter_cons_of_neg (by simp [p1]),
      List.filter_cons_of_pos (by simp [n2, p2])] at hf
    have := congrArg List.length hf
    simp at this
  · rw [List.filter_cons_of_pos (by simp [n1, p1]),
      List.filter_cons_of_neg (by simp [p2])] at hf
    have := congrArg List.length hf
    simp at this
  · rw [List.filter_cons_of_pos (by simp [n1, p1]),
      List.filter_cons_of_pos (by simp [n2, p2])] at hf
    exact List.append_cancel_right (List.cons.inj hf).1

/-- C11, as amended: when every identifier of the metadata contains `'-'` and
every canonical key is non-empty, contains no separator `'/'` and is not
`noise`, `initializeOutputFiles` returns and the paths it sets up, one per
entry of the map plus the catch-all path, name pairwise distinct sinks: no two
of them have the same sink identity, whatever the output directory and the
extension; in particular they are pairwise distinct pathnames. -/
theorem outputPaths_distinct (text : StdString) (outputDirPath outputExtension : Path)
    (hdash : ∀ row ∈ dataRows text, '-' ∈ firstField row)
    (hempty : ∀ row ∈ dataRows text, canonicalKey (firstField row) ≠ [])
    (hslash : ∀ row ∈ dataRows text, '/' ∉ canonicalKey (firstField row))
    (hnoise : ∀ row ∈ dataRows text, canonicalKey (firstField row) ≠ noiseName) :
    ∃ files, initializeOutputFiles text outputDirPath outputExtension [] = .ok files ∧
      (files.outputDataMap.map (fun e => sinkId e.2.1) ++ [sinkId files.noisePath]).Nodup ∧
      (files.outputDataMap.map (fun e => e.2.1) ++ [files.noisePath]).Nodup := by
  have hrecs : ∀ r ∈ (dataRows text).map CellMetricsRecord.ofLine, '-' ∈ r.barcode := by
    intro r hr
    obtain ⟨row, hrow, rfl⟩ := List.mem_map.1 hr
    rw [ofLine_barcode]
    exact hdash row hrow
  obtain ⟨h1, h2, h3⟩ := emplaceAll_spec outputDirPath outputExtension
    ((dataRows text).map CellMetricsRecord.ofLine) []
  have hq := h3 (by simp)
  have hnd := h2 (by simp [mapKeys])
  have hkey : ∀ k ∈ mapKeys (emplaceAll outputDirPath outputExtension
      ((dataRows text).map CellMetricsRecord.ofLine) []),
      k ≠ [] ∧ '/' ∉ k ∧ k ≠ noiseName := by
    intro k hk
    rcases (h1 k).1 hk with h | ⟨r, hr, h⟩
    · simp [mapKeys] at h
    · obtain ⟨row, hrow, rfl⟩ := List.mem_map.1 hr
      rw [h, ofLine_barcode]
      exact ⟨hempty row hrow, hslash row hrow, hnoise row hrow⟩
  have hall : (mapKeys (emplaceAll outputDirPath outputExtension
      ((dataRows text).map CellMetricsRecord.ofLine) []) ++ [noiseName]).Nodup := by
    rw [List.nodup_append]
    refine ⟨hnd, List.nodup_singleton _, ?_⟩
    intro a ha hb
    rw [List.mem_singleton] at hb
    exact (hkey a ha).2.2 hb
  have hgood : ∀ x ∈ mapKeys (emplaceAll outputDirPath outputExtension
      ((dataRows text).map CellMetricsRecord.ofLine) []) ++ [noiseName],
      x ≠ [] ∧ '/' ∉ x := by
    intro x hx
    rcases List.mem_append.1 hx with h | h
    · exact ⟨(hkey x h).1, (hkey x h).2.1⟩
    · rw [List.mem_singleton.1 h]; decide
  have hmap := List.Nodup.map_on
    (f := fun k => sinkId (catalogPath outputDirPath outputExtension k)) (by
      intro x hx y hy hxy
      exact sinkId_catalogPath_injective outputDirPath outputExtension x y
        (hgood x hx).1 (hgood x hx).2 (hgood y hy).1 (hgood y hy).2 hxy) hall
  have hpaths := paths_eq_map_keys outputDirPath outputExtension _ hq
  have hsinks : ((emplaceAll outputDirPath outputExtension
        ((dataRows text).map CellMetricsRecord.ofLine) []).map (fun e => e.2.1) ++
      [(outputDirPath.join noiseName).concat outputExtension]).map sinkId =
      (mapKeys (emplaceAll outputDirPath outputExtension
        ((dataRows text).map CellMetricsRecord.ofLine) []) ++ [noiseName]).map
        (fun k => sinkId (catalogPath outputDirPath outputExtension k)) := by
    rw [hpaths, List.map_append, List.map_append, List.map_map]
    rfl
  rw [← hsinks] at hmap
  refine ⟨{ outputDataMap := emplaceAll outputDirPath outputExtension
              ((dataRows text).map CellMetricsRecord.ofLine) [],
            noisePath := (outputDirPath.join noiseName).concat outputExtension,
            forwarded :=
              ([] ++ ((dataRows text).map CellMetricsRecord.ofLine).map (fun r =>
                catalogPath outputDirPath outputExtension (canonicalKey r.barcode))) ++
                [(outputDirPath.join noiseName).concat outputExtension] }, ?_, ?_, ?_⟩
  · unfold initializeOutputFiles
    rw [readRecords_spec]
    simp only [initializeLoop_spec outputDirPath outputExtension _ [] [] hrecs]
  · rw [List.map_append, List.map_map] at hmap
    exact hmap
  · exact List.Nodup.of_map _ hmap

/-- Witness for C11, as amended: the metadata of the scenario. -/
theorem outputPaths_distinct_witness :
    (∀ row ∈ dataRows scenarioMetadata, '-' ∈ firstField row) ∧
    (∀ row ∈ dataRows scenarioMetadata, canonicalKey (firstField row) ≠ []) ∧
    (∀ row ∈ dataRows scenarioMetadata, '/' ∉ canonicalKey (firstField row)) ∧
    (∀ row ∈ dataRows scenarioMetadata, canonicalKey (firstField row) ≠ noiseName) ∧
    ∃ files, initializeOutputFiles scenarioMetadata "out".toList ".bam".toList [] = .ok files ∧
      (files.outputDataMap.map (fun e => sinkId e.2.1) ++ [sinkId files.noisePath]).Nodup ∧
      (files.outputDataMap.map (fun e => e.2.1) ++ [files.noisePath]).Nodup :=
  ⟨by decide, by decide, by decide, by decide,
    outputPaths_distinct scenarioMetadata "out".toList ".bam".toList (by decide) (by decide)
      (by decide) (by decide)⟩

/-- C11, counterexample: the identifier `noise-1` gives the key `noise` the
path of the catch-all file; the identifiers `a-1` and `/a-1` give two keys
the same path; the identifiers `a-1` and `./a-1` give two keys different
pathnames of the same sink, and so do, under the directory `a/.` with the
extension `x`, the identifiers `-1` and `.-1`, whose keys are the empty key
and `.`. -/
theorem outputPaths_collide :
    (initializeOutputFiles "BARCODE\nnoise-1\n".toList "out".toList ".bam".toList []).map
        (fun files => files.outputDataMap) =
      .ok [("noise".toList, ("out/noise.bam".toList, 0))] ∧
    (initializeOutputFiles "BARCODE\nnoise-1\n".toList "out".toList ".bam".toList []).map
        (fun files => files.noisePath) = .ok "out/noise.bam".toList ∧
    (initializeOutputFiles "BARCODE\na-1\n/a-1\n".toList "out".toList ".bam".toList []).map
        (fun files => files.outputDataMap) =
      .ok [("a".toList, ("out/a.bam".toList, 0)), ("/a".toList, ("out/a.bam".toList, 0))] ∧
    (initializeOutputFiles "BARCODE\na-1\n./a-1\n".toList "out".toList ".bam".toList []).map
        (fun files => files.outputDataMap) =
      .ok [("a".toList, ("out/a.bam".toList, 0)),
           ("./a".toList, ("out/./a.bam".toList, 0))] ∧
    sinkId "out/a.bam".toList = sinkId "out/./a.bam".toList ∧
    (initializeOutputFiles "BARCODE\n-1\n.-1\n".toList "a/.".toList "x".toList []).map
        (fun files => files.outputDataMap) =
      .ok [("".toList, ("a/.x".toList, 0)), (".".toList, ("a/./.x".toList, 0))] ∧
    sinkId "a/.x".toList = sinkId "a/./.x".toList :=
  ⟨by decide, by decide, by decide, by decide, by decide, by decide, by decide⟩

/-! ## Counters per key -/

theorem mem_bucket_of_writer (st : CoreState) (kw : StdString × AlignmentsWriter)
    (hkw : kw ∈ st.mapWriters) (x : BamAlignmentRecord) (hx : x ∈ kw.2.sinkStream_) :
    x ∈ bucketRecords st kw.1 := by
  unfold bucketRecords
  rw [List.mem_flatMap]
  exact ⟨kw, List.mem_filter.2 ⟨hkw, by simp⟩, hx⟩

theorem scenario_files (outputDirPath outputExtension : Path) :
    initializeOutputFiles scenarioMetadata outputDirPath outputExtension [] =
      .ok { outputDataMap :=
              [("AAA".toList, (catalogPath outputDirPath outputExtension "AAA".toList, 0)),
               ("BBB".toList, (catalogPath outputDirPath outputExtension "BBB".toList, 0))],
            noisePath := catalogPath outputDirPath outputExtension noiseName,
            forwarded :=
              [catalogPath outputDirPath outputExtension "AAA".toList,
               catalogPath outputDirPath outputExtension "BBB".toList,
               catalogPath outputDirPath outputExtension noiseName] } := by
  have hrows : dataRows scenarioMetadata = ["AAA-1,0".toList, "BBB-1,1".toList] := by decide
  have hrecs : ∀ r ∈ (dataRows scenarioMetadata).map CellMetricsRecord.ofLine,
      '-' ∈ r.barcode := by
    rw [hrows]; decide
  unfold initializeOutputFiles
  rw [readRecords_spec]
  simp only [initializeLoop_spec outputDirPath outputExtension _ [] [] hrecs]
  rw [hrows]
  rfl

theorem scenario_paths (outputDirPath outputExtension : Path) :
    (∀ k, pathOf
        [("AAA".toList, (catalogPath outputDirPath outputExtension "AAA".toList, 0)),
         ("BBB".toList, (catalogPath outputDirPath outputExtension "BBB".toList, 0))] k =
        some (catalogPath outputDirPath outputExtension "AAA".toList) → k = "AAA".toList) ∧
    (∀ k, pathOf
        [("AAA".toList, (catalogPath outputDirPath outputExtension "AAA".toList, 0)),
         ("BBB".toList, (catalogPath outputDirPath outputExtension "BBB".toList, 0))] k =
        some (catalogPath outputDirPath outputExtension "BBB".toList) → k = "BBB".toList) ∧
    (∀ k, pathOf
        [("AAA".toList, (catalogPath outputDirPath outputExtension "AAA".toList, 0)),
         ("BBB".toList, (catalogPath outputDirPath outputExtension "BBB".toList, 0))] k ≠
        some (catalogPath outputDirPath outputExtension noiseName)) := by
  have inj := catalogPath_injective outputDirPath outputExtension
  have key : ∀ (k : StdString) (target : StdString), target.head? ≠ some '/' →
      pathOf
        [("AAA".toList, (catalogPath outputDirPath outputExtension "AAA".toList, 0)),
         ("BBB".toList, (catalogPath outputDirPath outputExtension "BBB".toList, 0))] k =
        some (catalogPath outputDirPath outputExtension target) →
      k = target ∧ (target = "AAA".toList ∨ target = "BBB".toList) := by
    intro k target ht h
    unfold pathOf at h
    by_cases hA : "AAA".toList = k
    · simp only [mapFind, hA, if_true, Option.map_some', Option.some.injEq] at h
      have := inj k target (by rw [← hA]; decide) ht h
      exact ⟨this, Or.inl (by rw [← this, hA])⟩
    · by_cases hB : "BBB".toList = k
      · simp only [mapFind, hA, hB, if_true, if_false, Option.map_some',
          Option.some.injEq] at h
        have := inj k target (by rw [← hB]; decide) ht h
        exact ⟨this, Or.inr (by rw [← this, hB])⟩
      · simp only [mapFind, hA, hB, if_false, Option.map_none'] at h
        cases h
  refine ⟨fun k h => (key k _ (by decide) h).1, fun k h => (key k _ (by decide) h).1, ?_⟩
  intro k h
  rcases (key k noiseName (by decide) h).2 with e | e
  · exact absurd e (by decide)
  · exact absurd e (by decide)

/-- C13: in the concrete scenario (metadata with the raw identifiers `AAA-1`
and `BBB-1`, minimum quality 20, forbidden tag `XF`, source `R1` to `R4`),
whatever the batch size (at least one), the iteration orders of the maps, the
output directory and the extension, the pipeline ends with the keys `AAA` and
`BBB`; bucket `AAA` and the file of `AAA` hold exactly `R1` and the count is
one, bucket `BBB` and its file are empty and the count is zero, the catch-all
writer, opened on the catch-all path, holds exactly `R3` and no per-key
writer touches that file; `R2` and `R4` are written by no writer and the
counters add up to one; the report has the lines of `AAA` with one and `BBB`
with zero, in some order. -/
theorem scenario_result (order : IterationOrder) (hord : ∀ l, (order l).Perm l)
    (reportOrder : ReportOrder) (hrep : ∀ m, (reportOrder m).Perm m)
    (outputDirPath outputExtension : Path) (batchSize : Nat) (writeBed : Bool)
    (hbatch : 1 ≤ batchSize) :
    ∃ res, demultiplexPipeline order reportOrder scenarioSource scenarioMetadata outputDirPath
          outputExtension batchSize [tagXF] 20 writeBed = .ok res ∧
      mapKeys res.files.outputDataMap = ["AAA".toList, "BBB".toList] ∧
      bucketRecords res.core "AAA".toList = [mkRecord "R1" 30 [(tagCB, "AAA-1".toList)]] ∧
      counterOf res.core.outputDataMap "AAA".toList = 1 ∧
      bucketRecords res.core "BBB".toList = [] ∧
      counterOf res.core.outputDataMap "BBB".toList = 0 ∧
      noiseRecords res.core = [mkRecord "R3" 30 [(tagCB, "CCC-1".toList)]] ∧
      (∀ kw ∈ res.core.mapWriters,
        mkRecord "R2" 10 [(tagCB, "BBB-1".toList)] ∉ kw.2.sinkStream_ ∧
        mkRecord "R4" 30 [(tagCR, "DDD".toList), (tagXF, "1".toList)] ∉ kw.2.sinkStream_) ∧
      mkRecord "R2" 10 [(tagCB, "BBB-1".toList)] ∉ noiseRecords res.core ∧
      mkRecord "R4" 30 [(tagCR, "DDD".toList), (tagXF, "1".toList)] ∉ noiseRecords res.core ∧
      counterSum res.core.outputDataMap = 1 ∧
      res.report.Perm [("AAA".toList, 1), ("BBB".toList, 0)] ∧
      (∀ kw ∈ res.core.mapWriters, WriterAttached res.files.outputDataMap writeBed kw) ∧
      groupFileRecords res.core (catalogPath outputDirPath outputExtension "AAA".toList) =
        [mkRecord "R1" 30 [(tagCB, "AAA-1".toList)]] ∧
      groupFileRecords res.core (catalogPath outputDirPath outputExtension "BBB".toList) = [] ∧
      groupFileRecords res.core (catalogPath outputDirPath outputExtension noiseName) = [] ∧
      res.core.noiseWriter.sinkPath_ = catalogPath outputDirPath outputExtension noiseName ∧
      res.core.noiseWriter.appendMode_ = true := by
  have hdef : KeysDefined [tagXF] 20 scenarioSource := keysDefined_of_bool _ _ _ (by decide)
  obtain ⟨st, e, o, g, n, -⟩ :=
    demultiplexCore_defined order hord scenarioSource
      [("AAA".toList, (catalogPath outputDirPath outputExtension "AAA".toList, 0)),
       ("BBB".toList, (catalogPath outputDirPath outputExtension "BBB".toList, 0))]
      (catalogPath outputDirPath outputExtension noiseName) batchSize [tagXF] 20 writeBed
      hbatch hdef
  obtain ⟨t1, t2, t3, -⟩ := demultiplexCore_attached order hord _ _ _ _ _ _ _ st e
  obtain ⟨pA, pB, pN⟩ := scenario_paths outputDirPath outputExtension
  have hkeys : mapKeys
      [("AAA".toList, (catalogPath outputDirPath outputExtension "AAA".toList, 0)),
       ("BBB".toList, (catalogPath outputDirPath outputExtension "BBB".toList, 0))] =
      ["AAA".toList, "BBB".toList] := rfl
  rw [hkeys] at o g n
  have hrouted : routedKeys [tagXF] 20 ["AAA".toList, "BBB".toList] scenarioSource =
      ["AAA".toList] := by decide
  rw [hrouted] at o
  have hA : scenarioSource.filter (acceptedWithKey [tagXF] 20 "AAA".toList) =
      [mkRecord "R1" 30 [(tagCB, "AAA-1".toList)]] := by decide
  have hB : scenarioSource.filter (acceptedWithKey [tagXF] 20 "BBB".toList) = [] := by decide
  have hN : scenarioSource.filter (acceptedUnmatched [tagXF] 20 ["AAA".toList, "BBB".toList]) =
      [mkRecord "R3" 30 [(tagCB, "CCC-1".toList)]] := by decide
  have hbA : bucketRecords st "AAA".toList = [mkRecord "R1" 30 [(tagCB, "AAA-1".toList)]] := by
    rw [g, if_pos (by decide), hA]
  have hbB : bucketRecords st "BBB".toList = [] := by
    rw [g, if_pos (by decide), hB]
  have hR2 : filterAlignmentRecord (mkRecord "R2" 10 [(tagCB, "BBB-1".toList)]) [tagXF] 20 =
      false := by decide
  have hR4 : filterAlignmentRecord
      (mkRecord "R4" 30 [(tagCR, "DDD".toList), (tagXF, "1".toList)]) [tagXF] 20 = false := by
    decide
  have hnotin : ∀ (r : BamAlignmentRecord), filterAlignmentRecord r [tagXF] 20 = false →
      (∀ k, r ∉ bucketRecords st k) ∧ r ∉ noiseRecords st := by
    intro r hr
    constructor
    · intro k hmem
      rw [g k] at hmem
      split at hmem
      · have := (List.mem_filter.1 hmem).2
        simp [acceptedWithKey, hr] at this
      · simp at hmem
    · intro hmem
      rw [n] at hmem
      have := (List.mem_filter.1 hmem).2
      simp [acceptedUnmatched, hr] at this
  refine ⟨{ files :=
              { outputDataMap :=
                  [("AAA".toList, (catalogPath outputDirPath outputExtension "AAA".toList, 0)),
                   ("BBB".toList, (catalogPath outputDirPath outputExtension "BBB".toList, 0))],
                noisePath := catalogPath outputDirPath outputExtension noiseName,
                forwarded :=
                  [catalogPath outputDirPath outputExtension "AAA".toList,
                   catalogPath outputDirPath outputExtension "BBB".toList,
                   catalogPath outputDirPath outputExtension noiseName] },
            core := st, report := countReport reportOrder st.outputDataMap }, ?_, rfl, hbA, ?_,
    hbB, ?_, ?_, ?_, (hnotin _ hR2).2, (hnotin _ hR4).2, ?_, ?_, t1, ?_, ?_, ?_, t2, t3⟩
  · unfold demultiplexPipeline
    rw [scenario_files]
    simp only [e]
  · rw [o]; rfl
  · rw [o]; rfl
  · rw [n, hN]
  · intro kw hkw
    exact ⟨fun h => (hnotin _ hR2).1 kw.1 (mem_bucket_of_writer st kw hkw _ h),
      fun h => (hnotin _ hR4).1 kw.1 (mem_bucket_of_writer st kw hkw _ h)⟩
  · rw [o]; rfl
  · have hp := (hrep st.outputDataMap).map (fun p : StdString × (Path × Nat) => (p.1, p.2.2))
    have hm : st.outputDataMap.map (fun p : StdString × (Path × Nat) => (p.1, p.2.2)) =
        [("AAA".toList, 1), ("BBB".toList, 0)] := by rw [o]; rfl
    rw [hm] at hp
    exact hp
  · rw [groupFileRecords_of_unshared st _ writeBed "AAA".toList _ t1 rfl pA, hbA]
  · rw [groupFileRecords_of_unshared st _ writeBed "BBB".toList _ t1 rfl pB, hbB]
  · exact groupFileRecords_of_no_key st _ writeBed _ t1 pN

/-- Witness for C13: batches of three records, output directory `out`,
extension `.bam`, both maps iterated backwards. -/
theorem scenario_result_witness :
    1 ≤ 3 ∧
    ∃ res, demultiplexPipeline List.reverse List.reverse scenarioSource scenarioMetadata
          "out".toList ".bam".toList 3 [tagXF] 20 false = .ok res ∧
      bucketRecords res.core "AAA".toList = [mkRecord "R1" 30 [(tagCB, "AAA-1".toList)]] ∧
      counterOf res.core.outputDataMap "AAA".toList = 1 ∧
      bucketRecords res.core "BBB".toList = [] ∧
      counterOf res.core.outputDataMap "BBB".toList = 0 ∧
      noiseRecords res.core = [mkRecord "R3" 30 [(tagCB, "CCC-1".toList)]] ∧
      res.report.Perm [("AAA".toList, 1), ("BBB".toList, 0)] ∧
      groupFileRecords res.core (catalogPath "out".toList ".bam".toList "AAA".toList) =
        [mkRecord "R1" 30 [(tagCB, "AAA-1".toList)]] :=
  ⟨by decide,
    (scenario_result List.reverse (fun l => List.reverse_perm l) List.reverse
      (fun m => List.reverse_perm m) "out".toList ".bam".toList 3 false (by decide)).imp
      (fun _ h => ⟨h.1, h.2.2.1, h.2.2.2.1, h.2.2.2.2.1, h.2.2.2.2.2.1, h.2.2.2.2.2.2.1,
        h.2.2.2.2.2.2.2.2.2.2.2.1, h.2.2.2.2.2.2.2.2.2.2.2.2.2.1⟩)⟩

/-! ## Agreement of catalog keys and record keys -/

theorem canonicalKey_no_dash (s : StdString) : '-' ∉ canonicalKey s := by
  intro h
  have := List.mem_takeWhile_imp h
  simp at this

theorem initializeOutputFiles_ok (text : StdString) (outputDirPath outputExtension : Path)
    (hdash : ∀ row ∈ dataRows text, '-' ∈ firstField row) :
    ∃ files, initializeOutputFiles text outputDirPath outputExtension [] = .ok files ∧
      files.noisePath = catalogPath outputDirPath outputExtension noiseName ∧
      (∀ k, k ∈ mapKeys files.outputDataMap ↔
        ∃ row ∈ dataRows text, k = canonicalKey (firstField row)) ∧
      (mapKeys files.outputDataMap).Nodup ∧
      (∀ e ∈ files.outputDataMap,
        e.2 = (catalogPath outputDirPath outputExtension e.1, 0)) := by
  have hrecs : ∀ r ∈ (dataRows text).map CellMetricsRecord.ofLine, '-' ∈ r.barcode := by
    intro r hr
    obtain ⟨row, hrow, rfl⟩ := List.mem_map.1 hr
    rw [ofLine_barcode]
    exact hdash row hrow
  obtain ⟨h1, h2, h3⟩ := emplaceAll_spec outputDirPath outputExtension
    ((dataRows text).map CellMetricsRecord.ofLine) []
  refine ⟨{ outputDataMap := emplaceAll outputDirPath outputExtension
              ((dataRows text).map CellMetricsRecord.ofLine) [],
            noisePath := (outputDirPath.join noiseName).concat outputExtension,
            forwarded :=
              ([] ++ ((dataRows text).map CellMetricsRecord.ofLine).map (fun r =>
                catalogPath outputDirPath outputExtension (canonicalKey r.barcode))) ++
                [(outputDirPath.join noiseName).concat outputExtension] }, ?_, rfl, ?_,
    h2 (by simp [mapKeys]), h3 (by simp)⟩
  · unfold initializeOutputFiles
    rw [readRecords_spec]
    simp only [initializeLoop_spec outputDirPath outputExtension _ [] [] hrecs]
  · intro k
    rw [h1 k]
    constructor
    · rintro (h | ⟨r, hr, h⟩)
      · simp [mapKeys] at h
      · obtain ⟨row, hrow, rfl⟩ := List.mem_map.1 hr
        exact ⟨row, hrow, by rw [h, ofLine_barcode]⟩
    · rintro ⟨row, hrow, h⟩
      exact Or.inr ⟨CellMetricsRecord.ofLine row, List.mem_map_of_mem _ hrow,
        by rw [h, ofLine_barcode]⟩

theorem unmatched_record_run (order : IterationOrder) (hord : ∀ l, (order l).Perm l)
    (forbiddenTags : List StdString) (minMapQuality : Nat) (r : BamAlignmentRecord)
    (key : StdString)
    (hacc : filterAlignmentRecord r forbiddenTags minMapQuality = true)
    (hkey : extractBarcode r = .ok key)
    (pre post : List BamAlignmentRecord) (outputDataMap : OutputDataMap) (noisePath : Path)
    (batchSize : Nat) (writeBed : Bool) (hbatch : 1 ≤ batchSize)
    (hnot : key ∉ mapKeys outputDataMap)
    (hdef : KeysDefined forbiddenTags minMapQuality (pre ++ post)) :
    ∃ st st0,
      demultiplexCore order (pre ++ r :: post) outputDataMap noisePath batchSize
        forbiddenTags minMapQuality writeBed = .ok st ∧
      demultiplexCore order (pre ++ post) outputDataMap noisePath batchSize
        forbiddenTags minMapQuality writeBed = .ok st0 ∧
      st.outputDataMap = st0.outputDataMap ∧
      (∀ k, bucketRecords st k = bucketRecords st0 k) ∧
      noiseRecords st =
        pre.filter (acceptedUnmatched forbiddenTags minMapQuality (mapKeys outputDataMap)) ++
          r :: post.filter
            (acceptedUnmatched forbiddenTags minMapQuality (mapKeys outputDataMap)) := by
  have hdef' := keysDefined_insert_defined forbiddenTags minMapQuality r pre post key hkey hdef
  obtain ⟨st, e1, o1, g1, n1, -⟩ :=
    demultiplexCore_defined order hord (pre ++ r :: post) outputDataMap noisePath batchSize
      forbiddenTags minMapQuality writeBed hbatch hdef'
  obtain ⟨st0, e2, o2, g2, n2, -⟩ :=
    demultiplexCore_defined order hord (pre ++ post) outputDataMap noisePath batchSize
      forbiddenTags minMapQuality writeBed hbatch hdef
  have hunm : acceptedUnmatched forbiddenTags minMapQuality (mapKeys outputDataMap) r = true := by
    rw [acceptedUnmatched_eq forbiddenTags minMapQuality _ r key hkey, hacc]
    simpa using hnot
  refine ⟨st, st0, e1, e2, ?_, ?_, ?_⟩
  · rw [o1, o2]
    congr 1
    simp [routedKeys, List.filterMap_append, List.filterMap_cons, hacc, hkey, hnot]
  · intro k
    rw [g1 k, g2 k]
    by_cases hk : k ∈ mapKeys outputDataMap
    · have hne : ¬ key = k := fun e => hnot (e ▸ hk)
      have : acceptedWithKey forbiddenTags minMapQuality k r = false := by
        simp [acceptedWithKey, hkey, hne]
      rw [if_pos hk, if_pos hk, filter_insert_rejected _ r pre post this]
    · rw [if_neg hk, if_neg hk]
  · rw [n1, filter_insert_accepted _ r pre post hunm]

/-- C20: when every identifier of the metadata contains `'-'`, no key of the
map built by `initializeOutputFiles` contains `'-'`; a record that passes the
filter, has no `CB` tag and has a `CR` value containing `'-'` gets that value
as key, which is no key of the map, so the classification step appends it to
the catch-all buffer and changes neither the map nor the groups, and a
finished run has the counters and buckets of the run without the record and
the record in the catch-all at its place in source order. -/
theorem dashed_CR_goes_to_noise (text : StdString) (outputDirPath outputExtension : Path)
    (hdash : ∀ row ∈ dataRows text, '-' ∈ firstField row) :
    ∃ files, initializeOutputFiles text outputDirPath outputExtension [] = .ok files ∧
      (∀ k ∈ mapKeys files.outputDataMap, '-' ∉ k) ∧
      (∀ (forbiddenTags : List StdString) (minMapQuality : Nat) (r : BamAlignmentRecord)
          (v : StdString),
        filterAlignmentRecord r forbiddenTags minMapQuality = true → ¬ hasTag r tagCB →
        tagValue? r tagCR = some v → '-' ∈ v →
        extractBarcode r = .ok v ∧ v ∉ mapKeys files.outputDataMap ∧
        (∀ s : BatchState, mapKeys s.outputDataMap = mapKeys files.outputDataMap →
          classifyRecord forbiddenTags minMapQuality r s =
            .ok { s with noiseBuffer := s.noiseBuffer ++ [r] }) ∧
        (∀ (order : IterationOrder), (∀ l, (order l).Perm l) →
          ∀ (pre post : List BamAlignmentRecord) (batchSize : Nat) (writeBed : Bool),
            1 ≤ batchSize → KeysDefined forbiddenTags minMapQuality (pre ++ post) →
            ∃ st st0,
              demultiplexCore order (pre ++ r :: post) files.outputDataMap files.noisePath
                batchSize forbiddenTags minMapQuality writeBed = .ok st ∧
              demultiplexCore order (pre ++ post) files.outputDataMap files.noisePath
                batchSize forbiddenTags minMapQuality writeBed = .ok st0 ∧
              st.outputDataMap = st0.outputDataMap ∧
              (∀ k, bucketRecords st k = bucketRecords st0 k) ∧
              noiseRecords st =
                pre.filter (acceptedUnmatched forbiddenTags minMapQuality
                    (mapKeys files.outputDataMap)) ++
                  r :: post.filter (acceptedUnmatched forbiddenTags minMapQuality
                    (mapKeys files.outputDataMap)))) := by
  obtain ⟨files, hfiles, -, hkeys, -, -⟩ :=
    initializeOutputFiles_ok text outputDirPath outputExtension hdash
  have hnodash : ∀ k ∈ mapKeys files.outputDataMap, '-' ∉ k := by
    intro k hk
    obtain ⟨row, -, rfl⟩ := (hkeys k).1 hk
    exact canonicalKey_no_dash _
  refine ⟨files, hfiles, hnodash, ?_⟩
  intro forbiddenTags minMapQuality r v hacc hnoCB hCR hv
  have hkey : extractBarcode r = .ok v := by
    rw [extractBarcode_of_no_CB r hnoCB, hCR]; rfl
  have hnot : v ∉ mapKeys files.outputDataMap := fun h => hnodash v h hv
  refine ⟨hkey, hnot, ?_, ?_⟩
  · intro s hs
    exact classifyRecord_unmatched forbiddenTags minMapQuality r s v hacc hkey (hs ▸ hnot)
  · intro order hord pre post batchSize writeBed hbatch hdef
    exact unmatched_record_run order hord forbiddenTags minMapQuality r v hacc hkey pre post
      files.outputDataMap files.noisePath batchSize writeBed hbatch hnot hdef

/-- Witness for C20: the metadata of the scenario; its keys `AAA` and `BBB`
contain no `'-'`, and a record without `CB` tag and with the `CR` value
`AAA-1` gets the key `AAA-1`, which is no key of the map. -/
theorem dashed_CR_goes_to_noise_witness :
    (∀ row ∈ dataRows scenarioMetadata, '-' ∈ firstField row) ∧
    ∃ files, initializeOutputFiles scenarioMetadata "out".toList ".bam".toList [] = .ok files ∧
      (∀ k ∈ mapKeys files.outputDataMap, '-' ∉ k) ∧
      extractBarcode (mkRecord "R8" 30 [(tagCR, "AAA-1".toList)]) = .ok "AAA-1".toList ∧
      "AAA-1".toList ∉ mapKeys files.outputDataMap :=
  ⟨by decide,
    (dashed_CR_goes_to_noise scenarioMetadata "out".toList ".bam".toList (by decide)).imp
      (fun _ h => ⟨h.1, h.2.1,
        (h.2.2 [tagXF] 20 (mkRecord "R8" 30 [(tagCR, "AAA-1".toList)]) "AAA-1".toList
          (by decide) (by decide) (by decide) (by decide)).1,
        (h.2.2 [tagXF] 20 (mkRecord "R8" 30 [(tagCR, "AAA-1".toList)]) "AAA-1".toList
          (by decide) (by decide) (by decide) (by decide)).2.1⟩)⟩

/-! ## Termination of the streaming loop -/

theorem classifyRecord_error (forbiddenTags : List StdString) (minMapQuality : Nat)
    (r : BamAlignmentRecord) (s : BatchState) (e : Fault)
    (h : classifyRecord forbiddenTags minMapQuality r s = .error e) :
    e = .undefinedBehaviour := by
  unfold classifyRecord at h
  split at h
  · split at h
    · next e' he =>
      injection h with h'
      rw [← h']
      exact extractBarcode_error r e' he
    · split at h
      · split at h <;> cases h
      · cases h
  · cases h

theorem classifyLoop_error (forbiddenTags : List StdString) (minMapQuality : Nat)
    (buffer : List BamAlignmentRecord) :
    ∀ (n i : Nat) (s : BatchState) (e : Fault),
      classifyLoop forbiddenTags minMapQuality buffer i n s = .error e →
      e = .undefinedBehaviour
  | 0, _, _, _, h => by simp [classifyLoop] at h
  | n + 1, i, s, e, h => by
    unfold classifyLoop at h
    split at h
    · injection h with h'; exact h'.symm
    · next record _ =>
      cases hc : classifyRecord forbiddenTags minMapQuality record s with
      | error e' =>
        rw [hc] at h
        injection h with h'
        rw [← h']
        exact classifyRecord_error forbiddenTags minMapQuality record s e' hc
      | ok s' =>
        rw [hc] at h
        exact classifyLoop_error forbiddenTags minMapQuality buffer n (i + 1) s' e h

theorem demultiplexLoop_fuel_suffices (order : IterationOrder)
    (forbiddenTags : List StdString) (minMapQuality : Nat) (writeBed : Bool) :
    ∀ (fuel : Nat) (st : CoreState), st.bamInputReader.length < fuel →
      demultiplexLoop order forbiddenTags minMapQuality writeBed fuel st ≠
        .error .fuelExhausted
  | 0, _, h => absurd h (Nat.not_lt_zero _)
  | fuel + 1, st, hfuel => by
    obtain ⟨src, odm, buf, nw, mw, rd⟩ := st
    simp only at hfuel
    unfold demultiplexLoop
    rw [read_spec]
    simp only []
    cases hb0 : (src.take (min buf.length src.length) ++
        buf.drop (min buf.length src.length))[0]? with
    | none => simp
    | some x0 =>
      simp only []
      cases hc : classifyLoop forbiddenTags minMapQuality
          (src.take (min buf.length src.length) ++ buf.drop (min buf.length src.length)) 0
          (min buf.length src.length)
          { outputDataMap := odm, recordsMap := [], noiseBuffer := [] } with
      | error e =>
        have := classifyLoop_error forbiddenTags minMapQuality _ _ _ _ e hc
        subst this
        simp
      | ok batch =>
        simp only []
        by_cases hpos : min buf.length src.length > 0
        · simp only [hpos, if_true]
          apply demultiplexLoop_fuel_suffices order forbiddenTags minMapQuality writeBed fuel
          simp only [List.length_drop]
          omega
        · simp [hpos]

theorem expectedReads_zero (b : Nat) : expectedReads 0 b = [0] := by
  simp [expectedReads]

theorem expectedReads_step (b len : Nat) (hb : 0 < b) (hlen : 0 < len) :
    expectedReads len b = min b len :: expectedReads (len - min b len) b := by
  by_cases h : b ≤ len
  · have hmin : min b len = b := Nat.min_eq_left h
    have hdiv : len / b = (len - b) / b + 1 := by
      rw [Nat.div_eq_sub_div hb h]
    have hmod : len % b = (len - b) % b := Nat.mod_eq_sub_mod h
    rw [hmin]
    unfold expectedReads
    rw [hdiv, hmod, List.replicate_succ]
    simp
  · have hlt : len < b := Nat.lt_of_not_le h
    have hmin : min b len = len := Nat.min_eq_right (Nat.le_of_lt hlt)
    have hne : ¬ len = 0 := by omega
    rw [hmin, Nat.sub_self, expectedReads_zero]
    unfold expectedReads
    rw [Nat.div_eq_of_lt hlt, Nat.mod_eq_of_lt hlt, if_neg hne]
    rfl

theorem demultiplexLoop_reads (order : IterationOrder)
    (forbiddenTags : List StdString) (minMapQuality : Nat) (writeBed : Bool) :
    ∀ (fuel : Nat) (st st' : CoreState), 0 < st.buffer.length →
      demultiplexLoop order forbiddenTags minMapQuality writeBed fuel st = .ok st' →
      st'.reads = st.reads ++ expectedReads st.bamInputReader.length st.buffer.length
  | 0, _, _, _, h => by simp [demultiplexLoop] at h
  | fuel + 1, st, st', hbuf, h => by
    obtain ⟨src, odm, buf, nw, mw, rd⟩ := st
    simp only at hbuf ⊢
    unfold demultiplexLoop at h
    rw [read_spec] at h
    simp only [] at h
    obtain ⟨n, hn⟩ : ∃ n, n = min buf.length src.length := ⟨_, rfl⟩
    rw [← hn] at h
    have hn_le_src : n ≤ src.length := hn ▸ Nat.min_le_right _ _
    have htake_len : (src.take n).length = n := by simp [hn_le_src]
    cases hb0 : (src.take n ++ buf.drop n)[0]? with
    | none => rw [hb0] at h; simp at h
    | some x0 =>
      rw [hb0] at h
      simp only [] at h
      cases hc : classifyLoop forbiddenTags minMapQuality (src.take n ++ buf.drop n) 0 n
          { outputDataMap := odm, recordsMap := [], noiseBuffer := [] } with
      | error e => rw [hc] at h; simp at h
      | ok batch =>
        rw [hc] at h
        simp only [] at h
        by_cases hpos : n > 0
        · simp only [hpos, if_true] at h
          have ih := demultiplexLoop_reads order forbiddenTags minMapQuality writeBed fuel _ st'
            (by simp only [List.length_append, htake_len, List.length_drop]; omega) h
          simp only [List.length_append, htake_len, List.length_drop] at ih
          have hlen_pos : 0 < src.length := by omega
          have hbuflen : n + (buf.length - n) = buf.length := by omega
          rw [ih, hbuflen, expectedReads_step buf.length src.length hbuf hlen_pos, ← hn,
            List.append_assoc]
          rfl
        · have hn0 : n = 0 := Nat.eq_zero_of_not_pos hpos
          have hsrc : src.length = 0 := by omega
          simp only [hpos, if_false] at h
          injection h with h'
          rw [← h', hsrc, expectedReads_zero, hn0]

theorem expectedReads_length (n b : Nat) (hb : 0 < b) :
    (expectedReads n b).length = (n + b - 1) / b + 1 := by
  unfold expectedReads
  have hdm : b * (n / b) + n % b = n := Nat.div_add_mod n b
  have hr : n % b < b := Nat.mod_lt n hb
  by_cases h0 : n % b = 0
  · have : (n + b - 1) / b = n / b := by
      apply Nat.div_eq_of_lt_le
      · rw [Nat.mul_comm]; omega
      · rw [Nat.succ_mul, Nat.mul_comm]; omega
    simp [h0, this]
  · have : (n + b - 1) / b = n / b + 1 := by
      apply Nat.div_eq_of_lt_le
      · rw [Nat.add_mul, Nat.one_mul, Nat.mul_comm]; omega
      · rw [Nat.succ_mul, Nat.add_mul, Nat.one_mul, Nat.mul_comm]; omega
    simp [h0, this]

theorem expectedReads_shape (n b : Nat) (hb : 0 < b) :
    (expectedReads n b).getLast? = some 0 ∧
    (∀ x ∈ (expectedReads n b).dropLast, 0 < x) ∧
    (expectedReads n b).sum = n := by
  unfold expectedReads
  refine ⟨by simp, ?_, ?_⟩
  · rw [List.dropLast_concat]
    intro x hx
    rcases List.mem_append.1 hx with h | h
    · rw [(List.mem_replicate.1 h).2]; exact hb
    · split at h
      · simp at h
      · rw [List.mem_singleton.1 h]; omega
  · have hdm : b * (n / b) + n % b = n := Nat.div_add_mod n b
    by_cases h0 : n % b = 0
    · simp only [h0, if_true, List.append_nil, List.sum_append, List.sum_replicate,
        List.sum_cons, List.sum_nil, smul_eq_mul]
      rw [Nat.mul_comm]; omega
    · simp only [h0, if_false, List.sum_append, List.sum_replicate, List.sum_cons,
        List.sum_nil, smul_eq_mul]
      rw [Nat.mul_comm]; omega

/-- Reads of a run that finishes: for a batch size of at least one the loop of `demultiplexCore` never
runs out of the iterations granted to it (one more than there are records);
when the run finishes, the reads return full batches, then the rest if any,
then zero: there are `ceil (n / b) + 1` of them, the last one returns zero,
every earlier one returns a positive number, together they return `n` records
and leave the source empty; and after every read the classification loop
handles exactly the records just read, whatever the buffer held before. -/
theorem streaming_loop_terminates (order : IterationOrder) (hord : ∀ l, (order l).Perm l)
    (source : List BamAlignmentRecord) (outputDataMap : OutputDataMap) (noisePath : Path)
    (batchSize : Nat) (forbiddenTags : List StdString) (minMapQuality : Nat) (writeBed : Bool)
    (hbatch : 1 ≤ batchSize) :
    demultiplexCore order source outputDataMap noisePath batchSize forbiddenTags
        minMapQuality writeBed ≠ .error .fuelExhausted ∧
    (KeysDefined forbiddenTags minMapQuality source →
      ∃ st, demultiplexCore order source outputDataMap noisePath batchSize forbiddenTags
            minMapQuality writeBed = .ok st ∧
        st.reads = expectedReads source.length batchSize ∧
        st.reads.length = (source.length + batchSize - 1) / batchSize + 1 ∧
        st.reads.getLast? = some 0 ∧
        (∀ x ∈ st.reads.dropLast, 0 < x) ∧
        st.reads.sum = source.length ∧
        st.bamInputReader = []) ∧
    (∀ (stream buffer : List BamAlignmentRecord) (s : BatchState),
      classifyLoop forbiddenTags minMapQuality (AlignmentsReader.read stream buffer).2.1 0
          (AlignmentsReader.read stream buffer).1 s =
        classifyAll forbiddenTags minMapQuality
          (stream.take (AlignmentsReader.read stream buffer).1) s) := by
  refine ⟨?_, ?_, ?_⟩
  · exact demultiplexLoop_fuel_suffices order forbiddenTags minMapQuality writeBed _ _
      (Nat.lt_succ_self _)
  · intro hdef
    obtain ⟨st, e, -, -, -, hsrc⟩ :=
      demultiplexCore_defined order hord source outputDataMap noisePath batchSize forbiddenTags
        minMapQuality writeBed hbatch hdef
    have hreads := demultiplexLoop_reads order forbiddenTags minMapQuality writeBed _ _ st
      (by simpa using hbatch) e
    simp only [List.nil_append, List.length_replicate] at hreads
    obtain ⟨s1, s2, s3⟩ := expectedReads_shape source.length batchSize hbatch
    refine ⟨st, e, hreads, ?_, ?_, ?_, ?_, hsrc⟩
    · rw [hreads, expectedReads_length source.length batchSize hbatch]
    · rw [hreads]; exact s1
    · rw [hreads]; exact s2
    · rw [hreads]; exact s3
  · intro stream buffer s
    rw [read_spec]
    simp only []
    have hlen : (stream.take (min buffer.length stream.length)).length =
        min buffer.length stream.length := by
      simp [Nat.min_le_right]
    have := classifyLoop_eq_classifyAll forbiddenTags minMapQuality
      (stream.take (min buffer.length stream.length)) []
      (buffer.drop (min buffer.length stream.length)) s
    simp only [List.nil_append, List.length_nil, hlen] at this
    exact this

/-- Example: the six records of the example source in batches of
four are read as four records, two records and zero records. -/
theorem streaming_loop_terminates_witness :
    1 ≤ 4 ∧ KeysDefined [tagXF] 20 exampleSource ∧
    ∃ st, demultiplexCore id exampleSource exampleCatalog exampleNoisePath 4 [tagXF] 20
          false = .ok st ∧
      st.reads = expectedReads exampleSource.length 4 ∧
      st.reads.length = (exampleSource.length + 4 - 1) / 4 + 1 ∧
      st.reads.getLast? = some 0 ∧
      (∀ x ∈ st.reads.dropLast, 0 < x) ∧
      st.reads.sum = exampleSource.length ∧
      st.bamInputReader = [] :=
  ⟨by decide, keysDefined_of_bool _ _ _ (by decide),
    (streaming_loop_terminates id (fun l => List.Perm.refl l) exampleSource exampleCatalog
      exampleNoisePath 4 [tagXF] 20 false (by decide)).2.1
      (keysDefined_of_bool _ _ _ (by decide))⟩

/-! ## The forbidden-tag option -/

theorem find_first_of_split_none (c : Char) :
    ∀ t : StdString, find_first_of t c = none →
      c ∉ t ∧ t.splitOn c = [t] ∧ t.count c = 0
  | [], _ => by simp [List.splitOn]
  | x :: xs, h => by
    by_cases hx : x = c
    · simp [find_first_of, hx] at h
    · have hxs : find_first_of xs c = none := by
        simpa [find_first_of, hx] using h
      obtain ⟨h1, h2, h3⟩ := find_first_of_split_none c xs hxs
      have hbeq : (x == c) = false := by simpa using hx
      have hne : ¬ c = x := fun e => hx e.symm
      refine ⟨?_, ?_, ?_⟩
      · simp [hne, h1]
      · simp only [List.splitOn] at h2 ⊢
        simp [List.splitOnP_cons, hbeq, h2, List.modifyHead]
      · rw [List.count_cons, h3]
        simp [hbeq]

theorem find_first_of_split_some (c : Char) :
    ∀ (t : StdString) (i : Nat), find_first_of t c = some i →
      i < t.length ∧ c ∉ t.take i ∧
      t.splitOn c = t.take i :: (t.drop (i + 1)).splitOn c ∧
      t.count c = (t.drop (i + 1)).count c + 1
  | [], _, h => by simp [find_first_of] at h
  | x :: xs, i, h => by
    by_cases hx : x = c
    · have hi : i = 0 := by
        simp only [find_first_of, hx, if_true, Option.some.injEq] at h
        exact h.symm
      subst hi hx
      refine ⟨by simp, by simp, ?_, ?_⟩
      · simp [List.splitOn, List.splitOnP_cons]
      · simp
    · cases hxs : find_first_of xs c with
      | none => simp [find_first_of, hx, hxs] at h
      | some j =>
        have hi : i = j + 1 := by
          simp only [find_first_of, hx, if_false, hxs, Option.map_some',
            Option.some.injEq] at h
          exact h.symm
        subst hi
        obtain ⟨h1, h2, h3, h4⟩ := find_first_of_split_some c xs j hxs
        have hbeq : (x == c) = false := by simpa using hx
        have hne : ¬ c = x := fun e => hx e.symm
        refine ⟨by simpa using h1, ?_, ?_, ?_⟩
        · simp [hne, h2]
        · simp only [List.splitOn] at h3 ⊢
          simp [List.splitOnP_cons, hbeq, h3, List.modifyHead]
        · rw [List.count_cons, h4]
          simp [hbeq]

theorem stringFromIterators_ok (s : StdString) (first last : Nat) (h1 : first ≤ last)
    (h2 : last ≤ s.length) :
    stringFromIterators s first last = .ok ((s.drop first).take (last - first)) := by
  unfold stringFromIterators
  rw [if_pos ⟨h1, h2⟩, List.drop_take]

theorem parseForbiddenTagsLoop_spec (s : StdString) (hlen : s.length < 2 ^ 64) :
    ∀ (fuel previous : Nat) (tags : List StdString),
      previous ≤ s.length → s.length < fuel + previous →
      ∃ previous' segments,
        parseForbiddenTagsLoop s fuel previous (stringFind s ',' previous) tags =
          .ok (previous', tags ++ segments) ∧
        previous' ≤ s.length ∧
        segments ++ [s.drop previous'] = (s.drop previous).splitOn ',' ∧
        (segments ++ [s.drop previous']).length = (s.drop previous).count ',' + 1 ∧
        (∀ seg ∈ segments ++ [s.drop previous'], ',' ∉ seg)
  | 0, previous, _, hp, hf => by omega
  | fuel + 1, previous, tags, hp, hf => by
    cases hfind : find_first_of (s.drop previous) ',' with
    | none =>
      obtain ⟨h1, h2, h3⟩ := find_first_of_split_none ',' (s.drop previous) hfind
      refine ⟨previous, [], ?_, hp, ?_, ?_, ?_⟩
      · simp [parseForbiddenTagsLoop, stringFind, hfind]
      · simp [h2]
      · simp [h3]
      · intro seg hseg
        simp only [List.nil_append, List.mem_singleton] at hseg
        rw [hseg]; exact h1
    | some i =>
      obtain ⟨h1, h2, h3, h4⟩ := find_first_of_split_some ',' (s.drop previous) i hfind
      have hi : i + previous < s.length := by
        simp only [List.length_drop] at h1; omega
      have hmod : (i + previous + 1) % 2 ^ 64 = i + previous + 1 :=
        Nat.mod_eq_of_lt (by omega)
      have htag : stringFromIterators s previous (i + previous) =
          .ok ((s.drop previous).take i) := by
        rw [stringFromIterators_ok s previous (i + previous) (by omega) (by omega)]
        congr 2
        omega
      have hdrop : s.drop (i + previous + 1) = (s.drop previous).drop (i + 1) := by
        rw [List.drop_drop]
        congr 1
        omega
      obtain ⟨previous', segments, e1, e2, e3, e4, e5⟩ :=
        parseForbiddenTagsLoop_spec s hlen fuel (i + previous + 1)
          (tags ++ [(s.drop previous).take i]) (by omega) (by omega)
      rw [hdrop] at e3 e4
      refine ⟨previous', (s.drop previous).take i :: segments, ?_, e2, ?_, ?_, ?_⟩
      · simp only [parseForbiddenTagsLoop, stringFind, hfind, Option.map_some', htag, hmod]
        simp only [stringFind] at e1
        rw [e1]
        simp
      · rw [h3, List.cons_append, e3]
      · rw [h4, List.cons_append, List.length_cons, e4]
      · intro seg hseg
        rw [List.cons_append] at hseg
        rcases List.mem_cons.1 hseg with h | h
        · rw [h]; exact h2
        · exact e5 seg h

theorem parseForbiddenTags_eq_splitOn (forbiddenTags : List StdString) (s : StdString)
    (hlen : s.length < 2 ^ 64) :
    Settings.parseForbiddenTags_ forbiddenTags s = .ok (s.splitOn ',') ∧
    (s.splitOn ',').length = s.count ',' + 1 ∧
    (∀ seg ∈ s.splitOn ',', ',' ∉ seg) := by
  obtain ⟨previous', segments, e1, e2, e3, e4, e5⟩ :=
    parseForbiddenTagsLoop_spec s hlen (s.length + 1) 0 [] (Nat.zero_le _) (by omega)
  simp only [List.drop_zero, List.nil_append] at e1 e3 e4
  have hlast : stringFromIterators s previous' s.length = .ok (s.drop previous') := by
    rw [stringFromIterators_ok s previous' s.length e2 (Nat.le_refl _)]
    congr 1
    rw [List.take_of_length_le]
    simp
  refine ⟨?_, ?_, ?_⟩
  · unfold Settings.parseForbiddenTags_ vectorClear
    rw [e1]
    simp only [hlast, e3]
  · rw [← e3]; exact e4
  · rw [← e3]; exact e5

/-- C21: for a string of fewer than `2 ^ 64` characters,
`Settings::parseForbiddenTags_` sets `forbiddenTags` to the comma-free
segments of the string in order: the list has one entry more than the string
has commas, no entry contains a comma, and the entries joined with commas
give the string back; the empty string yields one empty tag, and the result
does not depend on what `forbiddenTags` held before. -/
theorem parseForbiddenTags_segments (forbiddenTags : List StdString) (s : StdString)
    (hlen : s.length < 2 ^ 64) :
    ∃ tags, Settings.parseForbiddenTags_ forbiddenTags s = .ok tags ∧
      tags = s.splitOn ',' ∧
      tags.length = s.count ',' + 1 ∧
      (∀ tag ∈ tags, ',' ∉ tag) ∧
      [','].intercalate tags = s ∧
      (s = [] → tags = [[]]) ∧
      (∀ previous : List StdString, Settings.parseForbiddenTags_ previous s = .ok tags) := by
  obtain ⟨h1, h2, h3⟩ := parseForbiddenTags_eq_splitOn forbiddenTags s hlen
  refine ⟨s.splitOn ',', h1, rfl, h2, h3, List.intercalate_splitOn s ',', ?_, ?_⟩
  · intro hs
    rw [hs]; rfl
  · intro previous
    exact (parseForbiddenTags_eq_splitOn previous s hlen).1

/-- Witness for C21: the option value `XF,XS` replaces an earlier list. -/
theorem parseForbiddenTags_segments_witness :
    "XF,XS".toList.length < 2 ^ 64 ∧
    ∃ tags, Settings.parseForbiddenTags_ ["old".toList] "XF,XS".toList = .ok tags ∧
      tags = "XF,XS".toList.splitOn ',' ∧
      tags.length = "XF,XS".toList.count ',' + 1 ∧
      (∀ tag ∈ tags, ',' ∉ tag) ∧
      [','].intercalate tags = "XF,XS".toList ∧
      ("XF,XS".toList = [] → tags = [[]]) ∧
      (∀ previous : List StdString,
        Settings.parseForbiddenTags_ previous "XF,XS".toList = .ok tags) :=
  ⟨by decide, parseForbiddenTags_segments ["old".toList] "XF,XS".toList (by decide)⟩

/-! ## Runs that stop on a fault -/

theorem classifyLoop_eq_reached (forbiddenTags : List StdString) (minMapQuality : Nat)
    (buffer : List BamAlignmentRecord) :
    ∀ (n i : Nat) (s : BatchState),
      classifyLoop forbiddenTags minMapQuality buffer i n s =
        outcomeOf (classifyLoopReached forbiddenTags minMapQuality buffer i n s)
  | 0, _, _ => rfl
  | n + 1, i, s => by
    unfold classifyLoop classifyLoopReached
    cases buffer[i]? with
    | none => rfl
    | some record =>
      dsimp only
      cases classifyRecord forbiddenTags minMapQuality record s with
      | error e => rfl
      | ok s' => exact classifyLoop_eq_reached forbiddenTags minMapQuality buffer n (i + 1) s'

theorem demultiplexLoop_eq_reached (order : IterationOrder) (forbiddenTags : List StdString)
    (minMapQuality : Nat) (writeBed : Bool) :
    ∀ (fuel : Nat) (st : CoreState),
      demultiplexLoop order forbiddenTags minMapQuality writeBed fuel st =
        outcomeOf (demultiplexLoopReached order forbiddenTags minMapQuality writeBed fuel st)
  | 0, _ => rfl
  | fuel + 1, st => by
    unfold demultiplexLoop demultiplexLoopReached
    simp only
    cases (AlignmentsReader.read st.bamInputReader st.buffer).2.1[0]? with
    | none => rfl
    | some x =>
      simp only
      rw [classifyLoop_eq_reached]
      rcases hc : classifyLoopReached forbiddenTags minMapQuality
        (AlignmentsReader.read st.bamInputReader st.buffer).2.1 0
        (AlignmentsReader.read st.bamInputReader st.buffer).1
        { outputDataMap := st.outputDataMap, recordsMap := [], noiseBuffer := [] }
        with ⟨batch, _ | e⟩
      · simp only [outcomeOf]
        split
        · exact demultiplexLoop_eq_reached order forbiddenTags minMapQuality writeBed fuel _
        · rfl
      · rfl

theorem demultiplexCore_eq_reached (order : IterationOrder)
    (source : List BamAlignmentRecord) (outputDataMap : OutputDataMap) (noisePath : Path)
    (batchSize : Nat) (forbiddenTags : List StdString) (minMapQuality : Nat) (writeBed : Bool) :
    demultiplexCore order source outputDataMap noisePath batchSize forbiddenTags minMapQuality
        writeBed =
      outcomeOf (demultiplexCoreReached order source outputDataMap noisePath batchSize
        forbiddenTags minMapQuality writeBed) :=
  demultiplexLoop_eq_reached order forbiddenTags minMapQuality writeBed _ _

/-- C2, the code at the failing input: on the source `R1` (`CB` value
`AAA-1`), `R2` (`CB` value `AAA`, without `'-'`) the run leaves defined
behaviour at `R2` for batch size one and for batch size two, and what it has
produced by then depends on the batch size: with batches of one record the
batch of `R1` is already written, so the file of the key `AAA` holds `R1`;
with batches of two records `R1` and `R2` are in one batch, which is never
written, so that file is empty although `R1` has been counted. -/
theorem aborted_run_depends_on_batch_size :
    demultiplexCore id abortingSource exampleCatalog exampleNoisePath 1 [] 0 false =
      .error .undefinedBehaviour ∧
    demultiplexCore id abortingSource exampleCatalog exampleNoisePath 2 [] 0 false =
      .error .undefinedBehaviour ∧
    (demultiplexCoreReached id abortingSource exampleCatalog exampleNoisePath 1 [] 0 false).2 =
      some .undefinedBehaviour ∧
    (demultiplexCoreReached id abortingSource exampleCatalog exampleNoisePath 2 [] 0 false).2 =
      some .undefinedBehaviour ∧
    groupFileRecords
        (demultiplexCoreReached id abortingSource exampleCatalog exampleNoisePath 1 [] 0 false).1
        "out/AAA.bam".toList = [mkRecord "R1" 30 [(tagCB, "AAA-1".toList)]] ∧
    groupFileRecords
        (demultiplexCoreReached id abortingSource exampleCatalog exampleNoisePath 2 [] 0 false).1
        "out/AAA.bam".toList = [] ∧
    bucketRecords
        (demultiplexCoreReached id abortingSource exampleCatalog exampleNoisePath 1 [] 0 false).1
        "AAA".toList = [mkRecord "R1" 30 [(tagCB, "AAA-1".toList)]] ∧
    bucketRecords
        (demultiplexCoreReached id abortingSource exampleCatalog exampleNoisePath 2 [] 0 false).1
        "AAA".toList = [] ∧
    counterOf
        (demultiplexCoreReached id abortingSource exampleCatalog exampleNoisePath 1 [] 0
          false).1.outputDataMap "AAA".toList = 1 ∧
    counterOf
        (demultiplexCoreReached id abortingSource exampleCatalog exampleNoisePath 2 [] 0
          false).1.outputDataMap "AAA".toList = 1 :=
  ⟨by decide, by decide, by decide, by decide, by decide, by decide, by decide, by decide,
    by decide, by decide⟩

/-- C4, the code at the failing inputs: on the source `R1` (`CB` value
`AAA-1`), `R2` (`CB` value `AAA`), both accepted by the filter, the run
started with the counters at zero and batches of one record leaves defined
behaviour at `R2`; by then the counters add up to one and the catch-all holds
nothing, against two accepted records. With batch size zero the run leaves
defined behaviour at the statement printing `buffer[0]`, with nothing counted
or written, against four accepted records of the example source. -/
theorem aborted_run_counts_less :
    (∀ e ∈ exampleCatalog, e.2.2 = 0) ∧
    demultiplexCore id abortingSource exampleCatalog exampleNoisePath 1 [] 0 false =
      .error .undefinedBehaviour ∧
    counterSum
        (demultiplexCoreReached id abortingSource exampleCatalog exampleNoisePath 1 [] 0
          false).1.outputDataMap +
      (noiseRecords
        (demultiplexCoreReached id abortingSource exampleCatalog exampleNoisePath 1 [] 0
          false).1).length = 1 ∧
    (abortingSource.filter (fun r => filterAlignmentRecord r [] 0)).length = 2 ∧
    demultiplexCore id exampleSource exampleCatalog exampleNoisePath 0 [tagXF] 20 false =
      .error .undefinedBehaviour ∧
    counterSum
        (demultiplexCoreReached id exampleSource exampleCatalog exampleNoisePath 0 [tagXF] 20
          false).1.outputDataMap +
      (noiseRecords
        (demultiplexCoreReached id exampleSource exampleCatalog exampleNoisePath 0 [tagXF] 20
          false).1).length = 0 ∧
    (exampleSource.filter (fun r => filterAlignmentRecord r [tagXF] 20)).length = 4 :=
  ⟨by decide, by decide, by decide, by decide, by decide, by decide, by decide⟩

/-- C18, the code at the failing input: on the source of `n = 2` records `R1`
(`CB` value `AAA-1`), `R2` (`CB` value `AAA`) with batch size `b = 1` the
loop does not reach a read that returns zero records: it leaves defined
behaviour at `R2` after two reads of one record each, where three reads
ending with a read of zero records are stated. -/
theorem aborted_run_reads :
    demultiplexCore id abortingSource exampleCatalog exampleNoisePath 1 [] 0 false =
      .error .undefinedBehaviour ∧
    (demultiplexCoreReached id abortingSource exampleCatalog exampleNoisePath 1 [] 0
      false).2 = some .undefinedBehaviour ∧
    (demultiplexCoreReached id abortingSource exampleCatalog exampleNoisePath 1 [] 0
      false).1.reads = [1, 1] ∧
    expectedReads abortingSource.length 1 = [1, 1, 0] :=
  ⟨by decide, by decide, by decide, by decide⟩

end SCTools
